import Mathlib

/-!
gomemcachemock: the expectation queue and its matching engine

A shallow embedding of `memcachemock/expectations.go` and
`memcachemock/memcachemock.go`.

* A pointer to a registered record is its position in `c.expectations`
  (records are appended, never removed or reordered).
* `*memcache.Item` is `Option Item` (`none` is the nil pointer); a `[]string`
  is `Option (List String)` (`none` is the nil slice).
* Go `uint` is a natural number, incremented modulo `uintSize`.
* The embedded `sync.Mutex` of a record is the flag `mu` (`true` while held).
  `Lock` on a held mutex never returns for a single caller and `Unlock`
  on a free mutex aborts the process; both are outcomes of `Exec`.
* Every `fmt.Errorf` format string is one constructor of `Error`, carrying
  the values that are formatted into it.
-/

namespace GoMemcacheMock

/-! ## Data model -/

/-- Number of values of Go's `uint` (64-bit targets). -/
def uintSize : Nat := 2 ^ 64

/-- The struct `memcache.Item`, restricted to the fields the mock reads. -/
structure Item where
  Key : String := ""
  Value : List Nat := []
  Flags : Nat := 0
  Expiration : Int := 0
  CasID : Nat := 0
  deriving DecidableEq, Repr

/-- The struct `commonExpectation`; `err` is the configured error value,
identified by its message, and `mu` is the embedded `sync.Mutex`. -/
structure commonExpectation where
  triggered : Nat := 0
  err : Option String := none
  optional : Bool := false
  plannedCalls : Nat := 0
  mu : Bool := false
  deriving DecidableEq, Repr

/-- The struct `keyBasedExpectation`. -/
structure keyBasedExpectation where
  expectedKey : String := ""
  deriving DecidableEq, Repr

/-- The struct `keysBasedExpectation`. -/
structure keysBasedExpectation where
  expectedKeys : Option (List String) := none
  deriving DecidableEq, Repr

/-- The struct `itemBasedExpectation`. -/
structure itemBasedExpectation where
  expectedItem : Option Item := none
  deriving DecidableEq, Repr

/-- The struct `deltaBasedExpectation`. -/
structure deltaBasedExpectation where
  expectedDelta : Nat := 0
  deriving DecidableEq, Repr

/-- The struct `secondsBasedExpectation`. -/
structure secondsBasedExpectation where
  expectedSeconds : Int := 0
  deriving DecidableEq, Repr

/-- The sixteen concrete expectation types: the type parameter `ET` of
`findExpectationFunc` and the dynamic type tested by `next.(ET)`. -/
inductive Kind where
  | Add | Append | Close | CompareAndSwap | Decrement | Delete | DeleteAll | FlushAll
  | Get | GetMulti | Increment | Ping | Prepend | Replace | Set | Touch
  deriving DecidableEq, Repr

/-- The fields of each concrete type `ExpectedAdd` ... `ExpectedTouch` beside the
embedded `commonExpectation`. -/
inductive Expected where
  | Add (i : itemBasedExpectation)
  | Append (i : itemBasedExpectation)
  | Close
  | CompareAndSwap (i : itemBasedExpectation)
  | Decrement (k : keyBasedExpectation) (d : deltaBasedExpectation) (value : Nat)
  | Delete (k : keyBasedExpectation)
  | DeleteAll
  | FlushAll
  | Get (k : keyBasedExpectation) (item : Option Item)
  | GetMulti (ks : keysBasedExpectation) (items : Option (List (String × Option Item)))
  | Increment (k : keyBasedExpectation) (d : deltaBasedExpectation) (value : Nat)
  | Ping
  | Prepend (i : itemBasedExpectation)
  | Replace (i : itemBasedExpectation)
  | Set (i : itemBasedExpectation)
  | Touch (k : keyBasedExpectation) (s : secondsBasedExpectation)
  deriving DecidableEq, Repr

/-- The dynamic type of a record. -/
def Expected.kind : Expected → Kind
  | .Add _ => .Add
  | .Append _ => .Append
  | .Close => .Close
  | .CompareAndSwap _ => .CompareAndSwap
  | .Decrement _ _ _ => .Decrement
  | .Delete _ => .Delete
  | .DeleteAll => .DeleteAll
  | .FlushAll => .FlushAll
  | .Get _ _ => .Get
  | .GetMulti _ _ => .GetMulti
  | .Increment _ _ _ => .Increment
  | .Ping => .Ping
  | .Prepend _ => .Prepend
  | .Replace _ => .Replace
  | .Set _ => .Set
  | .Touch _ _ => .Touch

/-- A value of the interface `Expectation`: one registered record, the embedded
`commonExpectation` together with the fields of its concrete type. -/
structure Expectation extends commonExpectation where
  typ : Expected
  deriving DecidableEq, Repr

/-- The dynamic type of a record. -/
def Expectation.kind (e : Expectation) : Kind := e.typ.kind

/-- Go `error` values that the mock returns. `configured` is the error stored by
`WillReturnError`; every other constructor is one `fmt.Errorf` format string:
* `keyMismatch`: "expected key %s, but got key %s"
* `keysMismatch`: "expected keys %v, but got keys %v"
* `unexpectedItem`: "did not expect item, but got item with key %s"
* `itemKey`: "expected item with key %s, but got item with key %s"
* `itemValue`: "expected item with value %s, but got item with value %s"
* `itemFlags`: "expected item with flags %d, but got item with flags %d"
* `itemExpiration`: "expected item with expiration %d, but got item with expiration %d"
* `itemCasID`: "expected item with casID %d, but got item with casID %d"
* `deltaMismatch`: "expected call with delta %d, but got delta %d"
* `secondsMismatch`: "expected call with seconds: %d, but got seconds: %d"
* `unexpectedCall`: "call to method %s, was not expected, next expectation is: %s"
* `notExpected false`: "call to method %s was not expected"
* `notExpected true`: "all expectations were already fulfilled, call to method %s was not expected"
* `remaining`: "there is a remaining expectation which was not matched: %s" -/
inductive Error where
  | configured (msg : String)
  | keyMismatch (expectedKey key : String)
  | keysMismatch (expectedKeys keys : List String)
  | unexpectedItem (key : String)
  | itemKey (expected got : String)
  | itemValue (expected got : List Nat)
  | itemFlags (expected got : Nat)
  | itemExpiration (expected got : Int)
  | itemCasID (expected got : Nat)
  | deltaMismatch (expectedDelta delta : Nat)
  | secondsMismatch (expectedSeconds seconds : Int)
  | unexpectedCall (method : String) (next : Expectation)
  | notExpected (allFulfilled : Bool) (method : String)
  | remaining (e : Expectation)
  deriving DecidableEq, Repr

/-- Ways a call can end without returning to its caller normally. -/
inductive Abnormal where
  /-- a run-time panic (nil pointer dereference) unwinds through the caller -/
  | panic
  /-- "fatal error: sync: unlock of unlocked mutex": the process is aborted -/
  | fatal
  /-- `Lock` on a mutex that is held: the single caller waits forever -/
  | deadlock
  deriving DecidableEq, Repr

/-- Result of running a Go function: a normal return or an abnormal end. -/
inductive Exec (α : Type) where
  | ret (a : α)
  | abort (x : Abnormal)
  deriving DecidableEq, Repr

/-- The struct `memcachemock`. -/
structure memcachemock where
  expectations : List Expectation := []
  deriving DecidableEq, Repr

/-! ## expectations.go -/

/-- Method `commonExpectation.error`. -/
def commonExpectation.error (e : commonExpectation) : Option Error :=
  e.err.map Error.configured

/-- Method `commonExpectation.required`. -/
def commonExpectation.required (e : commonExpectation) : Bool :=
  !e.optional

/-- Method `commonExpectation.fulfilled`. -/
def commonExpectation.fulfilled (e : commonExpectation) : Bool :=
  let maxPlannedCalls := if e.plannedCalls > 1 then e.plannedCalls else 1
  decide (e.triggered ≥ maxPlannedCalls)

/-- Method `commonExpectation.fulfill`: `e.triggered++` on a `uint`. -/
def Expectation.fulfill (e : Expectation) : Expectation :=
  { e with triggered := (e.triggered + 1) % uintSize }

/-- Method `Lock` of the embedded mutex: `none` when the mutex is held. -/
def Expectation.Lock (e : Expectation) : Option Expectation :=
  if e.mu then none else some { e with mu := true }

/-- Method `Unlock` of the embedded mutex: `none` when the mutex is not held. -/
def Expectation.Unlock (e : Expectation) : Option Expectation :=
  if e.mu then some { e with mu := false } else none

/-- Method `commonExpectation.Maybe`. -/
def Expectation.Maybe (e : Expectation) : Expectation :=
  { e with optional := true }

/-- Method `commonExpectation.Times`. -/
def Expectation.Times (e : Expectation) (n : Nat) : Expectation :=
  { e with plannedCalls := n }

/-- Method `commonExpectation.WillReturnError`. -/
def Expectation.WillReturnError (e : Expectation) (err : Option String) : Expectation :=
  { e with err := err }

/-- Method `keyBasedExpectation.keyMatches`. -/
def keyBasedExpectation.keyMatches (e : keyBasedExpectation) (key : String) : Option Error :=
  if key ≠ e.expectedKey then some (.keyMismatch e.expectedKey key) else none

/-- Builtin `len` on a `[]string`. -/
def len (s : Option (List String)) : Nat := (s.getD []).length

/-- Function `reflect.DeepEqual` on two `[]string`: both nil, or both non-nil
with equal elements. -/
def DeepEqual (a b : Option (List String)) : Bool := decide (a = b)

/-- Method `keysBasedExpectation.keysMatch`. -/
def keysBasedExpectation.keysMatch (e : keysBasedExpectation) (keys : Option (List String)) :
    Option Error :=
  if len keys ≠ len e.expectedKeys then
    some (.keysMismatch (e.expectedKeys.getD []) (keys.getD []))
  else if !DeepEqual keys e.expectedKeys then
    some (.keysMismatch (e.expectedKeys.getD []) (keys.getD []))
  else none

/-- Method `itemBasedExpectation.itemMatches`; `item.Key` panics on a nil `item`. -/
def itemBasedExpectation.itemMatches (e : itemBasedExpectation) (item : Option Item) :
    Exec (Option Error) :=
  match e.expectedItem, item with
  | none, none => .ret none
  | none, some item => .ret (some (.unexpectedItem item.Key))
  | some _, none => .abort .panic
  | some expectedItem, some item =>
    if item.Key ≠ expectedItem.Key then
      .ret (some (.itemKey expectedItem.Key item.Key))
    else if item.Value ≠ expectedItem.Value then
      .ret (some (.itemValue expectedItem.Value item.Value))
    else if item.Flags ≠ expectedItem.Flags then
      .ret (some (.itemFlags expectedItem.Flags item.Flags))
    else if item.Expiration ≠ expectedItem.Expiration then
      .ret (some (.itemExpiration expectedItem.Expiration item.Expiration))
    else if item.CasID ≠ expectedItem.CasID then
      .ret (some (.itemCasID expectedItem.CasID item.CasID))
    else .ret none

/-- Method `deltaBasedExpectation.deltaMatches`. -/
def deltaBasedExpectation.deltaMatches (e : deltaBasedExpectation) (delta : Nat) : Option Error :=
  if delta ≠ e.expectedDelta then some (.deltaMismatch e.expectedDelta delta) else none

/-- Method `secondsBasedExpectation.secondsMatch`. -/
def secondsBasedExpectation.secondsMatch (e : secondsBasedExpectation) (seconds : Int) :
    Option Error :=
  if seconds ≠ e.expectedSeconds then some (.secondsMismatch e.expectedSeconds seconds) else none

/-! ## memcachemock.go: the matching engine -/

/-- The local variables of `findExpectationFunc` that live across iterations. -/
structure Locals where
  expected : Option Nat := none
  fulfilled : Nat := 0
  ok : Bool := false
  err : Option Error := none
  deriving DecidableEq, Repr

/-- How one iteration of the `for` loop of `findExpectationFunc` ends; `next` is
the record of the iteration as the iteration leaves it. -/
inductive Step where
  | continue (next : Expectation) (v : Locals)
  | break (next : Expectation) (v : Locals)
  | return (next : Expectation) (r : Option Nat × Option Error)
  | abort (next : Expectation) (x : Abnormal)
  deriving DecidableEq, Repr

/-- The second half of the loop body of `findExpectationFunc`, from
`if (!ok || err != nil) && !next.required()` on. -/
def afterCompare (method : String) (next : Expectation) (v : Locals) : Step :=
  if (!v.ok || v.err.isSome) && !next.required then
    match next.Unlock with
    | none => .abort next .fatal
    | some next => .continue next v
  else
    match next.Unlock with
    | none => .abort next .fatal
    | some next =>
      if v.err.isSome then .return next (none, v.err)
      else .return next (none, some (.unexpectedCall method next))

/-- One iteration of the `for` loop of `findExpectationFunc` on the record `next`
at position `i`. -/
def iteration (K : Kind) (method : String) (cmp : Expectation → Exec (Option Error))
    (i : Nat) (next : Expectation) (v : Locals) : Step :=
  match next.Lock with
  | none => .abort next .deadlock
  | some next =>
    if next.fulfilled then
      match next.Unlock with
      | none => .abort next .fatal
      | some next => .continue next { v with fulfilled := v.fulfilled + 1 }
    else if next.kind = K then
      match cmp next with
      | .abort x => .abort next x
      | .ret none => .break next { v with expected := some i, ok := true, err := none }
      | .ret (some e) =>
        afterCompare method next { v with expected := some i, ok := true, err := some e }
    else
      afterCompare method next { v with expected := none, ok := false }

/-- How the `for` loop of `findExpectationFunc` is left, with the queue as the
loop leaves it. -/
inductive LoopExit where
  | done (q : List Expectation) (v : Locals)
  | break (q : List Expectation) (v : Locals)
  | return (q : List Expectation) (r : Option Nat × Option Error)
  | abort (q : List Expectation) (x : Abnormal)
  deriving DecidableEq, Repr

/-- The `for _, next := range c.expectations` loop of `findExpectationFunc`:
`pre` holds the records already visited and `rest` those still to visit. -/
def scan (K : Kind) (method : String) (cmp : Expectation → Exec (Option Error)) :
    List Expectation → List Expectation → Locals → LoopExit
  | pre, [], v => .done pre v
  | pre, next :: rest, v =>
    match iteration K method cmp pre.length next v with
    | .continue next v => scan K method cmp (pre ++ [next]) rest v
    | .break next v => .break (pre ++ next :: rest) v
    | .return next r => .return (pre ++ next :: rest) r
    | .abort next x => .abort (pre ++ next :: rest) x

/-- The code of `findExpectationFunc` after the loop. -/
def afterLoop (c : memcachemock) (method : String) (q : List Expectation) (v : Locals) :
    memcachemock × Exec (Option Nat × Option Error) :=
  match v.expected with
  | none =>
    (⟨q⟩, .ret (none, some (.notExpected (decide (v.fulfilled = c.expectations.length)) method)))
  | some i =>
    match q.get? i with
    | none => (⟨q⟩, .abort .panic)
    | some expected =>
      let expected := expected.fulfill
      match expected.Unlock with
      | none => (⟨q.set i expected⟩, .abort .fatal)
      | some unlocked => (⟨q.set i unlocked⟩, .ret (some i, none))

/-- Function `findExpectationFunc[ET]`: `K` is the type argument `ET`, and the
returned `ET` is the position of the selected record. -/
def findExpectationFunc (c : memcachemock) (K : Kind) (method : String)
    (cmp : Expectation → Exec (Option Error)) :
    memcachemock × Exec (Option Nat × Option Error) :=
  match scan K method cmp [] c.expectations {} with
  | .return q r => (⟨q⟩, .ret r)
  | .abort q x => (⟨q⟩, .abort x)
  | .break q v => afterLoop c method q v
  | .done q v => afterLoop c method q v

/-- Function `findExpectation[ET]`. -/
def findExpectation (c : memcachemock) (K : Kind) (method : String) :
    memcachemock × Exec (Option Nat × Option Error) :=
  findExpectationFunc c K method (fun _ => .ret none)

/-- The loop of `ExpectationsWereMet`. -/
def ExpectationsWereMet.loop : List Expectation → Option Error
  | [] => none
  | e :: rest =>
    let fulfilled := e.fulfilled || !e.required
    if !fulfilled then some (.remaining e) else ExpectationsWereMet.loop rest

/-- Method `memcachemock.ExpectationsWereMet`, with the mock as it leaves it. -/
def memcachemock.ExpectationsWereMet (c : memcachemock) : memcachemock × Option Error :=
  (c, ExpectationsWereMet.loop c.expectations)

/-! ## memcachemock.go: registration and builders -/

/-- Zero value of each concrete type beside the embedded `commonExpectation`. -/
def Expected.zero : Kind → Expected
  | .Add => .Add {}
  | .Append => .Append {}
  | .Close => .Close
  | .CompareAndSwap => .CompareAndSwap {}
  | .Decrement => .Decrement {} {} 0
  | .Delete => .Delete {}
  | .DeleteAll => .DeleteAll
  | .FlushAll => .FlushAll
  | .Get => .Get {} none
  | .GetMulti => .GetMulti {} none
  | .Increment => .Increment {} {} 0
  | .Ping => .Ping
  | .Prepend => .Prepend {}
  | .Replace => .Replace {}
  | .Set => .Set {}
  | .Touch => .Touch {} {}

/-- The sixteen methods `ExpectAdd` ... `ExpectTouch`, `K` telling which: the new
record is the zero value `&ExpectedAdd{}` and so on, and the returned pointer is
the position of the new record. -/
def memcachemock.Expect (c : memcachemock) (K : Kind) : memcachemock × Nat :=
  (⟨c.expectations ++ [{ typ := Expected.zero K }]⟩, c.expectations.length)

/-- The promoted fields of `keyBasedExpectation` of a record that embeds it. -/
def Expectation.keyBased (e : Expectation) : keyBasedExpectation :=
  match e.typ with
  | .Decrement k _ _ => k
  | .Delete k => k
  | .Get k _ => k
  | .Increment k _ _ => k
  | .Touch k _ => k
  | _ => {}

/-- The promoted fields of `keysBasedExpectation` of a record that embeds it. -/
def Expectation.keysBased (e : Expectation) : keysBasedExpectation :=
  match e.typ with
  | .GetMulti ks _ => ks
  | _ => {}

/-- The promoted fields of `itemBasedExpectation` of a record that embeds it. -/
def Expectation.itemBased (e : Expectation) : itemBasedExpectation :=
  match e.typ with
  | .Add i => i
  | .Append i => i
  | .CompareAndSwap i => i
  | .Prepend i => i
  | .Replace i => i
  | .Set i => i
  | _ => {}

/-- The promoted fields of `deltaBasedExpectation` of a record that embeds it. -/
def Expectation.deltaBased (e : Expectation) : deltaBasedExpectation :=
  match e.typ with
  | .Decrement _ d _ => d
  | .Increment _ d _ => d
  | _ => {}

/-- The promoted fields of `secondsBasedExpectation` of a record that embeds it. -/
def Expectation.secondsBased (e : Expectation) : secondsBasedExpectation :=
  match e.typ with
  | .Touch _ s => s
  | _ => {}

/-- Field `value` of `ExpectedDecrement` and `ExpectedIncrement`. -/
def Expectation.value (e : Expectation) : Nat :=
  match e.typ with
  | .Decrement _ _ value => value
  | .Increment _ _ value => value
  | _ => 0

/-- Field `item` of `ExpectedGet`. -/
def Expectation.item (e : Expectation) : Option Item :=
  match e.typ with
  | .Get _ item => item
  | _ => none

/-- Field `items` of `ExpectedGetMulti`. -/
def Expectation.items (e : Expectation) : Option (List (String × Option Item)) :=
  match e.typ with
  | .GetMulti _ items => items
  | _ => none

/-- The methods `WithItem` of the six item-taking types. -/
def Expectation.WithItem (e : Expectation) (item : Option Item) : Expectation :=
  match e.typ with
  | .Add _ => { e with typ := .Add ⟨item⟩ }
  | .Append _ => { e with typ := .Append ⟨item⟩ }
  | .CompareAndSwap _ => { e with typ := .CompareAndSwap ⟨item⟩ }
  | .Prepend _ => { e with typ := .Prepend ⟨item⟩ }
  | .Replace _ => { e with typ := .Replace ⟨item⟩ }
  | .Set _ => { e with typ := .Set ⟨item⟩ }
  | _ => e

/-- The methods `WithKey` of `ExpectedDelete` and `ExpectedGet`. -/
def Expectation.WithKey (e : Expectation) (key : String) : Expectation :=
  match e.typ with
  | .Delete _ => { e with typ := .Delete ⟨key⟩ }
  | .Get _ item => { e with typ := .Get ⟨key⟩ item }
  | _ => e

/-- The methods `WithKeyAndDelta` of `ExpectedDecrement` and `ExpectedIncrement`. -/
def Expectation.WithKeyAndDelta (e : Expectation) (key : String) (delta : Nat) : Expectation :=
  match e.typ with
  | .Decrement _ _ value => { e with typ := .Decrement ⟨key⟩ ⟨delta⟩ value }
  | .Increment _ _ value => { e with typ := .Increment ⟨key⟩ ⟨delta⟩ value }
  | _ => e

/-- The methods `WillReturnValue` of `ExpectedDecrement` and `ExpectedIncrement`. -/
def Expectation.WillReturnValue (e : Expectation) (value : Nat) : Expectation :=
  match e.typ with
  | .Decrement k d _ => { e with typ := .Decrement k d value }
  | .Increment k d _ => { e with typ := .Increment k d value }
  | _ => e

/-- Method `ExpectedGet.WillReturnItem`. -/
def Expectation.WillReturnItem (e : Expectation) (item : Option Item) : Expectation :=
  match e.typ with
  | .Get k _ => { e with typ := .Get k item }
  | _ => e

/-- Method `ExpectedGetMulti.WithKeys`. -/
def Expectation.WithKeys (e : Expectation) (keys : Option (List String)) : Expectation :=
  match e.typ with
  | .GetMulti _ items => { e with typ := .GetMulti ⟨keys⟩ items }
  | _ => e

/-- Method `ExpectedGetMulti.WillReturnItems`. -/
def Expectation.WillReturnItems (e : Expectation)
    (items : Option (List (String × Option Item))) : Expectation :=
  match e.typ with
  | .GetMulti ks _ => { e with typ := .GetMulti ks items }
  | _ => e

/-- Method `ExpectedTouch.WithKeyAndSeconds`. -/
def Expectation.WithKeyAndSeconds (e : Expectation) (key : String) (seconds : Int) :
    Expectation :=
  match e.typ with
  | .Touch _ _ => { e with typ := .Touch ⟨key⟩ ⟨seconds⟩ }
  | _ => e

/-! ## memcachemock.go: the mocked client methods -/

/-- Dereference of the pointer `ex` returned by `findExpectationFunc`. -/
def memcachemock.deref (c : memcachemock) (ex : Option Nat) : Option Expectation :=
  ex.bind c.expectations.get?

/-- The tail shared by the methods that return only an error:
`if err != nil return err; return ex.error()`. -/
def returnError (r : memcachemock × Exec (Option Nat × Option Error)) :
    memcachemock × Exec (Option Error) :=
  match r with
  | (c, .abort x) => (c, .abort x)
  | (c, .ret (_, some err)) => (c, .ret (some err))
  | (c, .ret (ex, none)) =>
    match c.deref ex with
    | none => (c, .abort .panic)
    | some ex => (c, .ret ex.error)

/-- The comparison closure of the six item-taking methods. -/
def itemCmp (item : Option Item) (exp : Expectation) : Exec (Option Error) :=
  match exp.itemBased.itemMatches item with
  | .abort x => .abort x
  | .ret (some err) => .ret (some err)
  | .ret none => .ret none

/-- The comparison closure of `Delete` and `Get`. -/
def keyCmp (key : String) (exp : Expectation) : Exec (Option Error) :=
  match exp.keyBased.keyMatches key with
  | some err => .ret (some err)
  | none => .ret none

/-- The comparison closure of `Decrement` and `Increment`. -/
def keyDeltaCmp (key : String) (delta : Nat) (exp : Expectation) : Exec (Option Error) :=
  match exp.keyBased.keyMatches key with
  | some err => .ret (some err)
  | none =>
    match exp.deltaBased.deltaMatches delta with
    | some err => .ret (some err)
    | none => .ret none

/-- The comparison closure of `GetMulti`. -/
def keysCmp (keys : Option (List String)) (exp : Expectation) : Exec (Option Error) :=
  match exp.keysBased.keysMatch keys with
  | some err => .ret (some err)
  | none => .ret none

/-- The comparison closure of `Touch`. -/
def keySecondsCmp (key : String) (seconds : Int) (exp : Expectation) : Exec (Option Error) :=
  match exp.keyBased.keyMatches key with
  | some err => .ret (some err)
  | none =>
    match exp.secondsBased.secondsMatch seconds with
    | some err => .ret (some err)
    | none => .ret none

/-- Method `memcachemock.Add`. -/
def memcachemock.Add (c : memcachemock) (item : Option Item) : memcachemock × Exec (Option Error) :=
  returnError (findExpectationFunc c .Add "Add()" (itemCmp item))

/-- Method `memcachemock.Append`. -/
def memcachemock.Append (c : memcachemock) (item : Option Item) : memcachemock × Exec (Option Error) :=
  returnError (findExpectationFunc c .Append "Append()" (itemCmp item))

/-- Method `memcachemock.CompareAndSwap`. -/
def memcachemock.CompareAndSwap (c : memcachemock) (item : Option Item) : memcachemock × Exec (Option Error) :=
  returnError (findExpectationFunc c .CompareAndSwap "CompareAndSwap()" (itemCmp item))

/-- Method `memcachemock.Prepend`. -/
def memcachemock.Prepend (c : memcachemock) (item : Option Item) : memcachemock × Exec (Option Error) :=
  returnError (findExpectationFunc c .Prepend "Prepend()" (itemCmp item))

/-- Method `memcachemock.Replace`. -/
def memcachemock.Replace (c : memcachemock) (item : Option Item) : memcachemock × Exec (Option Error) :=
  returnError (findExpectationFunc c .Replace "Replace()" (itemCmp item))

/-- Method `memcachemock.Set`. -/
def memcachemock.Set (c : memcachemock) (item : Option Item) : memcachemock × Exec (Option Error) :=
  returnError (findExpectationFunc c .Set "Set()" (itemCmp item))

/-- Method `memcachemock.Close`. -/
def memcachemock.Close (c : memcachemock) : memcachemock × Exec (Option Error) :=
  returnError (findExpectation c .Close "Close()")

/-- Method `memcachemock.DeleteAll`. -/
def memcachemock.DeleteAll (c : memcachemock) : memcachemock × Exec (Option Error) :=
  returnError (findExpectation c .DeleteAll "DeleteAll()")

/-- Method `memcachemock.FlushAll`. -/
def memcachemock.FlushAll (c : memcachemock) : memcachemock × Exec (Option Error) :=
  returnError (findExpectation c .FlushAll "FlushAll()")

/-- Method `memcachemock.Ping`. -/
def memcachemock.Ping (c : memcachemock) : memcachemock × Exec (Option Error) :=
  returnError (findExpectation c .Ping "Ping()")

/-- Method `memcachemock.Delete`. -/
def memcachemock.Delete (c : memcachemock) (key : String) : memcachemock × Exec (Option Error) :=
  returnError (findExpectationFunc c .Delete "Delete()" (keyCmp key))

/-- Method `memcachemock.Touch`. -/
def memcachemock.Touch (c : memcachemock) (key : String) (seconds : Int) :
    memcachemock × Exec (Option Error) :=
  returnError (findExpectationFunc c .Touch "Touch()" (keySecondsCmp key seconds))

/-- Method `memcachemock.Decrement`. -/
def memcachemock.Decrement (c : memcachemock) (key : String) (delta : Nat) :
    memcachemock × Exec (Nat × Option Error) :=
  match findExpectationFunc c .Decrement "Decrement()" (keyDeltaCmp key delta) with
  | (c, .abort x) => (c, .abort x)
  | (c, .ret (_, some err)) => (c, .ret (0, some err))
  | (c, .ret (ex, none)) =>
    match c.deref ex with
    | none => (c, .abort .panic)
    | some ex => (c, .ret (ex.value, ex.error))

/-- Method `memcachemock.Increment`. -/
def memcachemock.Increment (c : memcachemock) (key : String) (delta : Nat) :
    memcachemock × Exec (Nat × Option Error) :=
  match findExpectationFunc c .Increment "Increment()" (keyDeltaCmp key delta) with
  | (c, .abort x) => (c, .abort x)
  | (c, .ret (_, some err)) => (c, .ret (0, some err))
  | (c, .ret (ex, none)) =>
    match c.deref ex with
    | none => (c, .abort .panic)
    | some ex => (c, .ret (ex.value, ex.error))

/-- Method `memcachemock.Get`. -/
def memcachemock.Get (c : memcachemock) (key : String) :
    memcachemock × Exec (Option Item × Option Error) :=
  match findExpectationFunc c .Get "Get()" (keyCmp key) with
  | (c, .abort x) => (c, .abort x)
  | (c, .ret (_, some err)) => (c, .ret (none, some err))
  | (c, .ret (ex, none)) =>
    match c.deref ex with
    | none => (c, .abort .panic)
    | some ex => (c, .ret (ex.item, ex.error))

/-- Method `memcachemock.GetMulti`. -/
def memcachemock.GetMulti (c : memcachemock) (keys : Option (List String)) :
    memcachemock × Exec (Option (List (String × Option Item)) × Option Error) :=
  match findExpectationFunc c .GetMulti "GetMulti()" (keysCmp keys) with
  | (c, .abort x) => (c, .abort x)
  | (c, .ret (_, some err)) => (c, .ret (none, some err))
  | (c, .ret (ex, none)) =>
    match c.deref ex with
    | none => (c, .abort .panic)
    | some ex => (c, .ret (ex.items, ex.error))

/-! ## Vocabulary of the statements -/

/-- The record `e` as the comparison sees it: with its mutex held by the scan. -/
def Expectation.held (e : Expectation) : Expectation := { e with mu := true }

/-- No mutex of the queue is held: the state in which a single caller finds the
queue when it starts a call. -/
def idle (q : List Expectation) : Prop := ∀ e ∈ q, e.mu = false

instance (q : List Expectation) : Decidable (idle q) := by
  unfold idle; infer_instance

/-- How the loop of `findExpectationFunc` is left on an idle queue when the
comparison returns normally: the loop with its `Lock`/`Unlock` pairs elided.
`break j v` is a `break` at position `j`. -/
inductive Walk where
  | done (v : Locals)
  | break (j : Nat) (v : Locals)
  | return (r : Option Nat × Option Error)
  deriving DecidableEq, Repr

/-- The loop of `findExpectationFunc` with its `Lock`/`Unlock` pairs elided, from
position `i` on; `scan_idle` proves it equal to `scan` on idle queues. -/
def walk (K : Kind) (method : String) (cmp : Expectation → Option Error) :
    Nat → List Expectation → Locals → Walk
  | _, [], v => .done v
  | i, e :: rest, v =>
    if e.fulfilled then walk K method cmp (i + 1) rest { v with fulfilled := v.fulfilled + 1 }
    else if e.kind = K then
      match cmp e.held with
      | none => .break i { v with expected := some i, ok := true, err := none }
      | some r =>
        if e.optional then
          walk K method cmp (i + 1) rest { v with expected := some i, ok := true, err := some r }
        else .return (none, some r)
    else if e.optional then
      walk K method cmp (i + 1) rest { v with expected := none, ok := false }
    else if v.err.isSome then .return (none, v.err)
    else .return (none, some (.unexpectedCall method e))

/-- The record is unfulfilled and required: it stops a scan that it does not
match. -/
def Expectation.blocks (e : Expectation) : Bool := !e.fulfilled && e.required

/-- The queue of the single record `r` once `r` has been selected `k` times. -/
def single (r : Expectation) (k : Nat) : memcachemock := ⟨[{ r with triggered := k }]⟩

/-- One call of a mocked client method, with its arguments. -/
inductive Call where
  | Add (item : Option Item)
  | Append (item : Option Item)
  | Close
  | CompareAndSwap (item : Option Item)
  | Decrement (key : String) (delta : Nat)
  | Delete (key : String)
  | DeleteAll
  | FlushAll
  | Get (key : String)
  | GetMulti (keys : Option (List String))
  | Increment (key : String) (delta : Nat)
  | Ping
  | Prepend (item : Option Item)
  | Replace (item : Option Item)
  | Set (item : Option Item)
  | Touch (key : String) (seconds : Int)
  deriving DecidableEq, Repr

/-- The type argument `ET` that the method passes to `findExpectationFunc`. -/
def Call.kind : Call → Kind
  | .Add _ => .Add
  | .Append _ => .Append
  | .Close => .Close
  | .CompareAndSwap _ => .CompareAndSwap
  | .Decrement _ _ => .Decrement
  | .Delete _ => .Delete
  | .DeleteAll => .DeleteAll
  | .FlushAll => .FlushAll
  | .Get _ => .Get
  | .GetMulti _ => .GetMulti
  | .Increment _ _ => .Increment
  | .Ping => .Ping
  | .Prepend _ => .Prepend
  | .Replace _ => .Replace
  | .Set _ => .Set
  | .Touch _ _ => .Touch

/-- The method name that the method passes to `findExpectationFunc`. -/
def Call.method : Call → String
  | .Add _ => "Add()"
  | .Append _ => "Append()"
  | .Close => "Close()"
  | .CompareAndSwap _ => "CompareAndSwap()"
  | .Decrement _ _ => "Decrement()"
  | .Delete _ => "Delete()"
  | .DeleteAll => "DeleteAll()"
  | .FlushAll => "FlushAll()"
  | .Get _ => "Get()"
  | .GetMulti _ => "GetMulti()"
  | .Increment _ _ => "Increment()"
  | .Ping => "Ping()"
  | .Prepend _ => "Prepend()"
  | .Replace _ => "Replace()"
  | .Set _ => "Set()"
  | .Touch _ _ => "Touch()"

/-- The comparison closure that the method passes to `findExpectationFunc`. -/
def Call.cmp : Call → Expectation → Exec (Option Error)
  | .Add item => itemCmp item
  | .Append item => itemCmp item
  | .Close => fun _ => .ret none
  | .CompareAndSwap item => itemCmp item
  | .Decrement key delta => keyDeltaCmp key delta
  | .Delete key => keyCmp key
  | .DeleteAll => fun _ => .ret none
  | .FlushAll => fun _ => .ret none
  | .Get key => keyCmp key
  | .GetMulti keys => keysCmp keys
  | .Increment key delta => keyDeltaCmp key delta
  | .Ping => fun _ => .ret none
  | .Prepend item => itemCmp item
  | .Replace item => itemCmp item
  | .Set item => itemCmp item
  | .Touch key seconds => keySecondsCmp key seconds

/-- The lookup that the method makes. -/
def Call.lookup (call : Call) (c : memcachemock) :
    memcachemock × Exec (Option Nat × Option Error) :=
  findExpectationFunc c call.kind call.method call.cmp

/-- What a mocked client method returns beside the error. -/
inductive Payload where
  | none
  | item (item : Option Item)
  | items (items : Option (List (String × Option Item)))
  | value (newValue : Nat)
  deriving DecidableEq, Repr

/-- The zero payload of each method: a nil item, a nil map, the counter 0. -/
def Call.zero : Call → Payload
  | .Get _ => .item none
  | .GetMulti _ => .items none
  | .Increment _ _ => .value 0
  | .Decrement _ _ => .value 0
  | _ => .none

/-- The payload that the method reads from the record it selected. -/
def Call.payload : Call → Expectation → Payload
  | .Get _, ex => .item ex.item
  | .GetMulti _, ex => .items ex.items
  | .Increment _ _, ex => .value ex.value
  | .Decrement _ _, ex => .value ex.value
  | _, _ => .none

/-- A method that returns only an error, seen as returning no payload. -/
def noPayload (r : memcachemock × Exec (Option Error)) :
    memcachemock × Exec (Payload × Option Error) :=
  match r with
  | (c, .abort x) => (c, .abort x)
  | (c, .ret err) => (c, .ret (.none, err))

/-- A method that returns a payload and an error. -/
def withPayload {α : Type} (f : α → Payload) (r : memcachemock × Exec (α × Option Error)) :
    memcachemock × Exec (Payload × Option Error) :=
  match r with
  | (c, .abort x) => (c, .abort x)
  | (c, .ret (a, err)) => (c, .ret (f a, err))

/-- The call `call` made on the mock `c`: the sixteen mocked client methods under
one name. -/
def memcachemock.invoke (c : memcachemock) : Call → memcachemock × Exec (Payload × Option Error)
  | .Add item => noPayload (c.Add item)
  | .Append item => noPayload (c.Append item)
  | .Close => noPayload (c.Close)
  | .CompareAndSwap item => noPayload (c.CompareAndSwap item)
  | .Decrement key delta => withPayload .value (c.Decrement key delta)
  | .Delete key => noPayload (c.Delete key)
  | .DeleteAll => noPayload (c.DeleteAll)
  | .FlushAll => noPayload (c.FlushAll)
  | .Get key => withPayload .item (c.Get key)
  | .GetMulti keys => withPayload .items (c.GetMulti keys)
  | .Increment key delta => withPayload .value (c.Increment key delta)
  | .Ping => noPayload (c.Ping)
  | .Prepend item => noPayload (c.Prepend item)
  | .Replace item => noPayload (c.Replace item)
  | .Set item => noPayload (c.Set item)
  | .Touch key seconds => noPayload (c.Touch key seconds)

/-- The lookups of `n` calls `call` in a row, with the mock they leave. -/
def replayRecord (call : Call) :
    Nat → memcachemock → memcachemock × List (Exec (Option Nat × Option Error))
  | 0, c => (c, [])
  | n + 1, c =>
    let first := call.lookup c
    let others := replayRecord call n first.1
    (others.1, first.2 :: others.2)

/-- In-order replay of the records `todo`, which sit at the positions from `j` on:
for each record `max(1, plannedCalls)` calls in a row, those for the record at
position `i` being `calls i`. -/
def replay (calls : Nat → Call) :
    Nat → List Expectation → memcachemock →
      memcachemock × List (Exec (Option Nat × Option Error))
  | _, [], c => (c, [])
  | j, r :: todo, c =>
    let first := replayRecord (calls j) (max 1 r.plannedCalls) c
    let others := replay calls (j + 1) todo first.1
    (others.1, first.2 ++ others.2)

/-- The item of the scenario "set foo to bar, then get foo". -/
def fooItem : Item := { Key := "foo", Value := [98, 97, 114] }

/-- The queue after `ExpectSet().WithItem(fooItem)` and
`ExpectGet().WithKey("foo").WillReturnItem(fooItem)`. -/
def fooQueue : List Expectation :=
  [{ typ := .Set ⟨some fooItem⟩ }, { typ := .Get ⟨"foo"⟩ (some fooItem) }]

/-- The calls `Set(fooItem)` for the first record and `Get("foo")` for the others. -/
def fooCalls (j : Nat) : Call :=
  if j = 0 then .Set (some fooItem) else .Get "foo"

/-- The mock that the calls `calls`, made one after the other, leave behind; each
call starts on the mock that the call before left behind, also when that call
did not return. -/
def memcachemock.after (c : memcachemock) (calls : List Call) : memcachemock :=
  calls.foldl (fun c call => (c.invoke call).1) c

/-- The mock after the calls `calls`, made one after the other, when each of them
returns; `none` when one of them does not return. -/
def memcachemock.run (c : memcachemock) : List Call → Option memcachemock
  | [] => some c
  | call :: calls =>
    match c.invoke call with
    | (c1, .ret _) => c1.run calls
    | (_, .abort _) => none

/-- The number of calls among `calls`, made one after the other, whose lookup
returns a record. -/
def selections (c : memcachemock) : List Call → Nat
  | [] => 0
  | call :: calls =>
    match call.lookup c with
    | (c1, .ret (some _, _)) => selections c1 calls + 1
    | (c1, _) => selections c1 calls

/-- The record `e1` is the record `e` at a later time: the same fields of the
concrete type, the same configured error, optional flag and planned count, and a
triggered count that is not lower. -/
def Expectation.laterOf (e e1 : Expectation) : Prop :=
  e1.typ = e.typ ∧ e1.err = e.err ∧ e1.optional = e.optional ∧
    e1.plannedCalls = e.plannedCalls ∧ e.triggered ≤ e1.triggered

/-- The queue `q1` is the queue `q` at a later time: the same length, and at each
position the same record at a later time. -/
def grows (q q1 : List Expectation) : Prop := List.Forall₂ Expectation.laterOf q q1

/-- The gate invariant of a queue: every required record that stands before a
record with a triggered count above 0 is fulfilled. -/
def gated (q : List Expectation) : Prop :=
  ∀ (i j : Nat) (ri rj : Expectation), i < j → q[i]? = some ri → q[j]? = some rj →
    ri.optional = false → 0 < rj.triggered → ri.fulfilled = true

/-- No record of the queue has been triggered more often than it is planned. -/
def bounded (q : List Expectation) : Prop :=
  ∀ e ∈ q, e.triggered ≤ max 1 e.plannedCalls

/-- The sum of the triggered counts of the records of a queue. -/
def triggeredTotal (q : List Expectation) : Nat :=
  (q.map (fun e => e.triggered)).sum

/-- No call of the sequence ends in the fatal error of an `Unlock` on a free mutex;
a call that panics or never returns is followed by the next call on the mock it
left behind. -/
def memcachemock.noFatal (c : memcachemock) : List Call → Bool
  | [] => true
  | call :: calls =>
    match c.invoke call with
    | (_, .abort .fatal) => false
    | (c1, _) => c1.noFatal calls

/-! ## Basic facts -/

theorem Lock_of_free {e : Expectation} (h : e.mu = false) : e.Lock = some e.held := by
  simp [Expectation.Lock, Expectation.held, h]

theorem Unlock_held {e : Expectation} (h : e.mu = false) : e.held.Unlock = some e := by
  obtain ⟨⟨t, er, o, p, m⟩, ty⟩ := e
  simp only at h
  subst h
  rfl

theorem Unlock_of_free {e : Expectation} (h : e.mu = false) : e.Unlock = none := by
  simp [Expectation.Unlock, h]

theorem fulfill_held_Unlock {e : Expectation} (h : e.mu = false) :
    e.held.fulfill.Unlock = some e.fulfill := by
  obtain ⟨⟨t, er, o, p, m⟩, ty⟩ := e
  simp only at h
  subst h
  rfl

theorem modify_length_append {α : Type} (f : α → α) (pre : List α) (e : α) (l : List α) :
    (pre ++ e :: l).modify f pre.length = pre ++ f e :: l := by
  induction pre with
  | nil => simp
  | cons a pre ih => simp [ih]

/-- On an idle queue and with a comparison that returns normally, the loop of
`findExpectationFunc` leaves as `walk` says, every mutex free again except the
one of the record at which it breaks. -/
theorem scan_idle (K : Kind) (method : String) (cmp : Expectation → Option Error) :
    ∀ (rest pre : List Expectation) (v : Locals), idle rest →
      scan K method (fun e => .ret (cmp e)) pre rest v =
        match walk K method cmp pre.length rest v with
        | .done w => .done (pre ++ rest) w
        | .break j w => .break ((pre ++ rest).modify Expectation.held j) w
        | .return r => .return (pre ++ rest) r := by
  intro rest
  induction rest with
  | nil => intro pre v _; simp [scan, walk]
  | cons e rest ih =>
    intro pre v hidle
    have he : e.mu = false := hidle e (List.mem_cons_self _ _)
    have hrest : idle rest := fun x hx => hidle x (List.mem_cons_of_mem _ hx)
    have hlen : (pre ++ [e]).length = pre.length + 1 := by simp
    have happ : pre ++ [e] ++ rest = pre ++ e :: rest := by simp
    have hf : e.held.fulfilled = e.fulfilled := rfl
    have hk : e.held.kind = e.kind := rfl
    have hr : e.held.required = !e.optional := rfl
    have hr2 : e.required = !e.optional := rfl
    unfold scan walk iteration
    rw [Lock_of_free he]
    simp only [hf, hk]
    by_cases h1 : e.fulfilled = true
    · simp only [h1, if_true, Unlock_held he]
      rw [ih (pre ++ [e]) _ hrest, hlen, happ]
    · simp only [h1, if_false]
      by_cases h2 : e.kind = K
      · simp only [h2, if_true]
        cases hc : cmp e.held with
        | none => simp [modify_length_append, Expectation.held]
        | some r =>
          simp only [afterCompare, hr, Unlock_held he]
          by_cases h3 : e.optional = true
          · simp only [h3]
            simp
            rw [ih (pre ++ [e]) _ hrest, hlen, happ]
          · simp [h3]
      · simp only [h2, if_false, afterCompare, hr, Unlock_held he]
        by_cases h3 : e.optional = true
        · simp only [h3]
          simp
          rw [ih (pre ++ [e]) _ hrest, hlen, happ]
        · simp [h3]
          by_cases h4 : v.err.isSome = true
          · simp [h4]
          · simp [h4]

theorem set_modify_same {α : Type} (f : α → α) (x : α) :
    ∀ (l : List α) (j : Nat), (l.modify f j).set j x = l.set j x := by
  intro l
  induction l with
  | nil => intro j; simp
  | cons a l ih => intro j; cases j <;> simp [ih]

theorem set_eq_modify {α : Type} (g : α → α) :
    ∀ (l : List α) (j : Nat) (e : α), l[j]? = some e → l.set j (g e) = l.modify g j := by
  intro l
  induction l with
  | nil => intro j e h; simp at h
  | cons a l ih =>
    intro j e h
    cases j with
    | zero => simp at h; simp [h]
    | succ j => simp at h; simp [ih j e h]

section WalkEquations

variable (K : Kind) (method : String) (cmp : Expectation → Option Error)

theorem walk_fulfilled {e : Expectation} (rest : List Expectation) (i : Nat) (v : Locals)
    (h1 : e.fulfilled = true) :
    walk K method cmp i (e :: rest) v =
      walk K method cmp (i + 1) rest { v with fulfilled := v.fulfilled + 1 } := by
  simp [walk, h1]

theorem walk_accept {e : Expectation} (rest : List Expectation) (i : Nat) (v : Locals)
    (h1 : e.fulfilled = false) (h2 : e.kind = K) (h3 : cmp e.held = none) :
    walk K method cmp i (e :: rest) v =
      .break i { v with expected := some i, ok := true, err := none } := by
  simp [walk, h1, h2, h3]

theorem walk_reject_optional {e : Expectation} (rest : List Expectation) (i : Nat) (v : Locals)
    {r : Error} (h1 : e.fulfilled = false) (h2 : e.kind = K) (h3 : cmp e.held = some r)
    (h4 : e.optional = true) :
    walk K method cmp i (e :: rest) v =
      walk K method cmp (i + 1) rest { v with expected := some i, ok := true, err := some r } := by
  simp [walk, h1, h2, h3, h4]

theorem walk_reject_required {e : Expectation} (rest : List Expectation) (i : Nat) (v : Locals)
    {r : Error} (h1 : e.fulfilled = false) (h2 : e.kind = K) (h3 : cmp e.held = some r)
    (h4 : e.optional = false) :
    walk K method cmp i (e :: rest) v = .return (none, some r) := by
  simp [walk, h1, h2, h3, h4]

theorem walk_other_optional {e : Expectation} (rest : List Expectation) (i : Nat) (v : Locals)
    (h1 : e.fulfilled = false) (h2 : e.kind ≠ K) (h4 : e.optional = true) :
    walk K method cmp i (e :: rest) v =
      walk K method cmp (i + 1) rest { v with expected := none, ok := false } := by
  simp [walk, h1, h2, h4]

theorem walk_other_required {e : Expectation} (rest : List Expectation) (i : Nat) (v : Locals)
    (h1 : e.fulfilled = false) (h2 : e.kind ≠ K) (h4 : e.optional = false) :
    walk K method cmp i (e :: rest) v =
      .return (none, if v.err.isSome then v.err else some (.unexpectedCall method e)) := by
  by_cases h5 : v.err.isSome = true <;> simp [walk, h1, h2, h4, h5]

/-- The six ways one iteration of the loop can go. -/
theorem walk_cases (e : Expectation) (rest : List Expectation) (i : Nat) (v : Locals) :
    (e.fulfilled = true ∧ walk K method cmp i (e :: rest) v =
        walk K method cmp (i + 1) rest { v with fulfilled := v.fulfilled + 1 }) ∨
    (e.fulfilled = false ∧ e.kind = K ∧ cmp e.held = none ∧
      walk K method cmp i (e :: rest) v =
        .break i { v with expected := some i, ok := true, err := none }) ∨
    (∃ r, e.fulfilled = false ∧ e.kind = K ∧ cmp e.held = some r ∧ e.optional = true ∧
      walk K method cmp i (e :: rest) v =
        walk K method cmp (i + 1) rest { v with expected := some i, ok := true, err := some r }) ∨
    (∃ r, e.fulfilled = false ∧ e.kind = K ∧ cmp e.held = some r ∧ e.optional = false ∧
      walk K method cmp i (e :: rest) v = .return (none, some r)) ∨
    (e.fulfilled = false ∧ e.kind ≠ K ∧ e.optional = true ∧
      walk K method cmp i (e :: rest) v =
        walk K method cmp (i + 1) rest { v with expected := none, ok := false }) ∨
    (e.fulfilled = false ∧ e.kind ≠ K ∧ e.optional = false ∧
      walk K method cmp i (e :: rest) v =
        .return (none, if v.err.isSome then v.err else some (.unexpectedCall method e))) := by
  cases h1 : e.fulfilled with
  | true => exact Or.inl ⟨rfl, walk_fulfilled K method cmp rest i v h1⟩
  | false =>
    by_cases h2 : e.kind = K
    · cases h3 : cmp e.held with
      | none => exact Or.inr (Or.inl ⟨rfl, h2, rfl, walk_accept K method cmp rest i v h1 h2 h3⟩)
      | some r =>
        cases h4 : e.optional with
        | true =>
          exact Or.inr (Or.inr (Or.inl
            ⟨r, rfl, h2, rfl, rfl, walk_reject_optional K method cmp rest i v h1 h2 h3 h4⟩))
        | false =>
          exact Or.inr (Or.inr (Or.inr (Or.inl
            ⟨r, rfl, h2, rfl, rfl, walk_reject_required K method cmp rest i v h1 h2 h3 h4⟩)))
    · cases h4 : e.optional with
      | true =>
        exact Or.inr (Or.inr (Or.inr (Or.inr (Or.inl
          ⟨rfl, h2, rfl, walk_other_optional K method cmp rest i v h1 h2 h4⟩))))
      | false =>
        exact Or.inr (Or.inr (Or.inr (Or.inr (Or.inr
          ⟨rfl, h2, rfl, walk_other_required K method cmp rest i v h1 h2 h4⟩))))

end WalkEquations

/-- A `break` of the loop happens at a position of the queue, which is the value
of `expected`, at an unfulfilled record of the requested kind that the
comparison accepts. -/
theorem walk_break (K : Kind) (method : String) (cmp : Expectation → Option Error) :
    ∀ (rest : List Expectation) (i : Nat) (v : Locals) (j : Nat) (w : Locals),
      walk K method cmp i rest v = .break j w →
        i ≤ j ∧ w.expected = some j ∧
          ∃ e, rest[j - i]? = some e ∧ e.fulfilled = false ∧ e.kind = K ∧ cmp e.held = none := by
  intro rest
  induction rest with
  | nil => intro i v j w h; simp [walk] at h
  | cons e rest ih =>
    intro i v j w h
    have hstep : ∀ v1, walk K method cmp (i + 1) rest v1 = .break j w →
        i ≤ j ∧ w.expected = some j ∧
          ∃ x, (e :: rest)[j - i]? = some x ∧ x.fulfilled = false ∧ x.kind = K ∧
            cmp x.held = none := by
      intro v1 h1
      obtain ⟨hle, hexp, x, hx, hrest⟩ := ih _ _ _ _ h1
      refine ⟨by omega, hexp, x, ?_, hrest⟩
      have : j - i = (j - (i + 1)) + 1 := by omega
      rw [this]
      simpa using hx
    rcases walk_cases K method cmp e rest i v with
      ⟨_, hw⟩ | ⟨h1, h2, h3, hw⟩ | ⟨r, _, _, _, _, hw⟩ | ⟨r, _, _, _, _, hw⟩ | ⟨_, _, _, hw⟩ |
      ⟨_, _, _, hw⟩ <;> rw [hw] at h
    · exact hstep _ h
    · simp only [Walk.break.injEq] at h
      obtain ⟨rfl, rfl⟩ := h
      exact ⟨le_refl _, rfl, e, by simp, h1, h2, h3⟩
    · exact hstep _ h
    · simp at h
    · exact hstep _ h
    · simp at h

/-- When the loop runs to the end of the queue, `expected` is nil or a position
of the queue. -/
theorem walk_done_expected (K : Kind) (method : String) (cmp : Expectation → Option Error) :
    ∀ (rest : List Expectation) (i : Nat) (v w : Locals),
      walk K method cmp i rest v = .done w → (∀ j, v.expected = some j → j < i) →
        ∀ j, w.expected = some j → j < i + rest.length := by
  intro rest
  induction rest with
  | nil =>
    intro i v w h hv j hj
    simp only [walk, Walk.done.injEq] at h
    subst h
    simpa using hv j hj
  | cons e rest ih =>
    intro i v w h hv j hj
    simp only [List.length_cons]
    rcases walk_cases K method cmp e rest i v with
      ⟨_, hw⟩ | ⟨h1, h2, h3, hw⟩ | ⟨r, _, _, _, _, hw⟩ | ⟨r, _, _, _, _, hw⟩ | ⟨_, _, _, hw⟩ |
      ⟨_, _, _, hw⟩ <;> rw [hw] at h
    · have := ih _ _ _ h (fun j hj => Nat.lt_succ_of_lt (hv j hj)) j hj; omega
    · simp at h
    · have := ih (i + 1) _ _ h (fun j hj => by simp at hj; omega) j hj; omega
    · simp at h
    · have := ih (i + 1) _ _ h (fun j hj => by simp at hj) j hj; omega
    · simp at h

/-- The whole of `findExpectationFunc` on an idle queue, for a comparison that
returns normally: an error leaves the mock as it is, a `break` increments the
record it stopped at, and a scan that ends with a stale `expected` increments
that record and then unlocks a mutex that is not held. -/
theorem findExpectationFunc_idle (c : memcachemock) (K : Kind) (method : String)
    (cmp : Expectation → Option Error) (hidle : idle c.expectations) :
    findExpectationFunc c K method (fun e => .ret (cmp e)) =
      match walk K method cmp 0 c.expectations {} with
      | .return r => (c, .ret r)
      | .break j _ => (⟨c.expectations.modify Expectation.fulfill j⟩, .ret (some j, none))
      | .done w =>
        match w.expected with
        | none =>
          (c, .ret (none, some (.notExpected (decide (w.fulfilled = c.expectations.length)) method)))
        | some j => (⟨c.expectations.modify Expectation.fulfill j⟩, .abort .fatal) := by
  obtain ⟨q⟩ := c
  simp only at hidle
  unfold findExpectationFunc
  have hs := scan_idle K method cmp q [] {} hidle
  simp only [List.length_nil, List.nil_append] at hs
  simp only [hs]
  cases hw : walk K method cmp 0 q {} with
  | «return» r => rfl
  | «break» j w =>
    obtain ⟨-, hexp, e, he, -⟩ := walk_break K method cmp q 0 {} j w hw
    have hj : j < q.length := by
      simp only [Nat.sub_zero] at he
      exact (List.getElem?_eq_some_iff.mp he).1
    have hget : q[j]? = some q[j] := List.getElem?_eq_getElem hj
    have hmu : q[j].mu = false := hidle _ (List.getElem_mem hj)
    simp only [afterLoop, hexp, List.get?_eq_getElem?, List.getElem?_modify_eq, hget,
      Option.map_some', Option.map_eq_map, fulfill_held_Unlock hmu, set_modify_same,
      set_eq_modify Expectation.fulfill q j _ hget]
  | done w =>
    cases hexp : w.expected with
    | none => simp [afterLoop, hexp]
    | some j =>
      have hj := walk_done_expected K method cmp q 0 {} w hw (by simp) j hexp
      simp only [Nat.zero_add] at hj
      have hget : q[j]? = some q[j] := List.getElem?_eq_getElem hj
      have hmu : q[j].fulfill.mu = false := hidle q[j] (List.getElem_mem hj)
      simp only [afterLoop, hexp, List.get?_eq_getElem?, hget, Unlock_of_free hmu,
        set_eq_modify Expectation.fulfill q j _ hget]

/-- The loop passes over a stretch of records each of which is fulfilled, or
optional and not an accepted record of the requested kind. -/
theorem walk_skip (K : Kind) (method : String) (cmp : Expectation → Option Error) :
    ∀ (pre rest : List Expectation) (i : Nat) (v : Locals),
      (∀ p ∈ pre, p.fulfilled = false →
        p.optional = true ∧ ¬ (p.kind = K ∧ cmp p.held = none)) →
      ∃ w, walk K method cmp i (pre ++ rest) v = walk K method cmp (i + pre.length) rest w := by
  intro pre
  induction pre with
  | nil => intro rest i v _; exact ⟨v, by simp⟩
  | cons p pre ih =>
    intro rest i v hpre
    have hp := hpre p (List.mem_cons_self _ _)
    have hrest : ∀ x ∈ pre, x.fulfilled = false →
        x.optional = true ∧ ¬ (x.kind = K ∧ cmp x.held = none) :=
      fun x hx => hpre x (List.mem_cons_of_mem _ hx)
    have hlen : i + (p :: pre).length = i + 1 + pre.length := by simp; omega
    rw [hlen, List.cons_append]
    rcases walk_cases K method cmp p (pre ++ rest) i v with
      ⟨_, hw⟩ | ⟨h1, h2, h3, hw⟩ | ⟨r, _, _, _, _, hw⟩ | ⟨r, h1, _, _, h4, hw⟩ | ⟨_, _, _, hw⟩ |
      ⟨h1, _, h4, hw⟩ <;> rw [hw]
    · exact ih rest _ _ hrest
    · exact absurd ⟨h2, h3⟩ (hp h1).2
    · exact ih rest _ _ hrest
    · have := (hp h1).1; simp [h4] at this
    · exact ih rest _ _ hrest
    · have := (hp h1).1; simp [h4] at this

/-- A queue splits at each of its positions. -/
theorem split_at_index {α : Type} (q : List α) (i : Nat) (e : α) (h : q[i]? = some e) :
    q = q.take i ++ e :: q.drop (i + 1) ∧ (q.take i).length = i ∧
      ∀ p ∈ q.take i, ∃ j, j < i ∧ q[j]? = some p := by
  obtain ⟨hi, he⟩ := List.getElem?_eq_some_iff.mp h
  refine ⟨?_, ?_, ?_⟩
  · subst he
    conv_lhs => rw [← List.take_append_drop i q]
    rw [List.drop_eq_getElem_cons hi]
  · simp; omega
  · intro p hp
    obtain ⟨j, hj, rfl⟩ := List.getElem_of_mem hp
    have hji : j < i := by simp at hj; omega
    refine ⟨j, hji, ?_⟩
    rw [List.getElem_take]
    exact List.getElem?_eq_getElem _

/-- An unfulfilled record whose planned count is a `uint` is incremented without
wrapping around. -/
theorem fulfill_of_unfulfilled (e : Expectation) (hplan : e.plannedCalls < uintSize)
    (hunf : e.fulfilled = false) :
    e.fulfill = { e with triggered := e.triggered + 1 } := by
  have hlt : e.triggered + 1 < uintSize := by
    simp only [commonExpectation.fulfilled, decide_eq_false_iff_not, ge_iff_le, not_le] at hunf
    have h1 : (1 : Nat) < uintSize := by decide
    split_ifs at hunf <;> omega
  simp [Expectation.fulfill, Nat.mod_eq_of_lt hlt]

/-- Selection of the first match, for a comparison that returns on every record: on
an idle queue, if record `i` is the first unfulfilled record of kind `K` that the
comparison accepts, and every unfulfilled record before it is optional, then
`findExpectationFunc` returns record `i` without error and the only change to the
queue is that the triggered count of record `i` is one higher. -/
theorem findExpectationFunc_selects_first_match (c : memcachemock) (K : Kind)
    (method : String) (cmp : Expectation → Option Error) (i : Nat) (e : Expectation)
    (hidle : idle c.expectations)
    (hi : c.expectations[i]? = some e)
    (hplan : e.plannedCalls < uintSize)
    (hunf : e.fulfilled = false) (hkind : e.kind = K) (hacc : cmp e.held = none)
    (hfirst : ∀ j p, j < i → c.expectations[j]? = some p →
      ¬ (p.fulfilled = false ∧ p.kind = K ∧ cmp p.held = none))
    (hopt : ∀ j p, j < i → c.expectations[j]? = some p → p.fulfilled = false →
      p.optional = true) :
    findExpectationFunc c K method (fun x => .ret (cmp x)) =
      (⟨c.expectations.set i { e with triggered := e.triggered + 1 }⟩,
        .ret (some i, none)) := by
  obtain ⟨hq, hlen, hpre⟩ := split_at_index c.expectations i e hi
  have hskip : ∀ p ∈ c.expectations.take i, p.fulfilled = false →
      p.optional = true ∧ ¬ (p.kind = K ∧ cmp p.held = none) := by
    intro p hp hpf
    obtain ⟨j, hj, hjp⟩ := hpre p hp
    exact ⟨hopt j p hj hjp hpf, fun h => hfirst j p hj hjp ⟨hpf, h.1, h.2⟩⟩
  obtain ⟨w, hw⟩ := walk_skip K method cmp (c.expectations.take i)
    (e :: c.expectations.drop (i + 1)) 0 {} hskip
  rw [← hq, walk_accept K method cmp _ _ _ hunf hkind hacc, hlen, Nat.zero_add] at hw
  rw [findExpectationFunc_idle c K method cmp hidle, hw]
  simp only
  rw [← set_eq_modify Expectation.fulfill c.expectations i e hi,
    fulfill_of_unfulfilled e hplan hunf]

/-- A run of the selection of the first match: `ExpectPing().Maybe()`,
`ExpectClose()`, then `Close()` selects the second record. -/
theorem findExpectationFunc_selects_first_match_witness :
    findExpectationFunc ⟨[{ optional := true, typ := .Ping }, { typ := .Close }]⟩
        .Close "Close()" (fun x => .ret ((fun _ => none) x)) =
      (⟨[{ optional := true, typ := .Ping }, { triggered := 1, typ := .Close }]⟩,
        .ret (some 1, none)) :=
  findExpectationFunc_selects_first_match
    ⟨[{ optional := true, typ := .Ping }, { typ := .Close }]⟩ .Close "Close()"
    (fun _ => none) 1 { typ := .Close }
    (by decide) (by decide) (by decide) (by decide) (by decide) (by decide)
    (by
      intro j p hj hp
      have hj0 : j = 0 := by omega
      subst hj0
      simp only [List.getElem?_cons_zero, Option.some.injEq] at hp
      subst hp
      decide)
    (by
      intro j p hj hp _
      have hj0 : j = 0 := by omega
      subst hj0
      simp only [List.getElem?_cons_zero, Option.some.injEq] at hp
      subst hp
      decide)

/-- The gate rule, for a comparison that returns on every record: on an idle queue,
if record `i` is the first unfulfilled required record, it is of another kind than
`K` or rejected by the comparison, and no unfulfilled optional record before it is
an accepted record of kind `K`, then `findExpectationFunc` returns nil and an error
and leaves the mock as it is, whatever records follow record `i`. -/
theorem findExpectationFunc_gate (c : memcachemock) (K : Kind) (method : String)
    (cmp : Expectation → Option Error) (i : Nat) (r : Expectation)
    (hidle : idle c.expectations)
    (hi : c.expectations[i]? = some r)
    (hunf : r.fulfilled = false) (hreq : r.optional = false)
    (hblock : r.kind ≠ K ∨ cmp r.held ≠ none)
    (hfirst : ∀ j p, j < i → c.expectations[j]? = some p → p.fulfilled = false →
      p.optional = true)
    (hnone : ∀ j p, j < i → c.expectations[j]? = some p → p.fulfilled = false →
      p.optional = true → ¬ (p.kind = K ∧ cmp p.held = none)) :
    ∃ err, findExpectationFunc c K method (fun x => .ret (cmp x)) =
      (c, .ret (none, some err)) := by
  obtain ⟨hq, hlen, hpre⟩ := split_at_index c.expectations i r hi
  have hskip : ∀ p ∈ c.expectations.take i, p.fulfilled = false →
      p.optional = true ∧ ¬ (p.kind = K ∧ cmp p.held = none) := by
    intro p hp hpf
    obtain ⟨j, hj, hjp⟩ := hpre p hp
    exact ⟨hfirst j p hj hjp hpf, hnone j p hj hjp hpf (hfirst j p hj hjp hpf)⟩
  obtain ⟨w, hw⟩ := walk_skip K method cmp (c.expectations.take i)
    (r :: c.expectations.drop (i + 1)) 0 {} hskip
  rw [← hq] at hw
  rw [findExpectationFunc_idle c K method cmp hidle, hw]
  by_cases hk : r.kind = K
  · cases hc : cmp r.held with
    | none => rcases hblock with h | h
              · exact absurd hk h
              · exact absurd hc h
    | some er =>
      rw [walk_reject_required K method cmp _ _ _ hunf hk hc hreq]
      exact ⟨er, rfl⟩
  · rw [walk_other_required K method cmp _ _ _ hunf hk hreq]
    cases hwe : w.err with
    | none => exact ⟨.unexpectedCall method r, by simp⟩
    | some er => exact ⟨er, by simp⟩

/-- A run of the gate rule: `ExpectPing()`, `ExpectClose()`, then `Close()` fails
although the second record would accept the call. -/
theorem findExpectationFunc_gate_witness :
    ∃ err, findExpectationFunc ⟨[{ typ := .Ping }, { typ := .Close }]⟩ .Close "Close()"
        (fun x => .ret ((fun _ => none) x)) =
      (⟨[{ typ := .Ping }, { typ := .Close }]⟩, .ret (none, some err)) :=
  findExpectationFunc_gate ⟨[{ typ := .Ping }, { typ := .Close }]⟩ .Close "Close()"
    (fun _ => none) 0 { typ := .Ping }
    (by decide) (by decide) (by decide) (by decide) (by decide)
    (by intro j p hj; omega) (by intro j p hj; omega)

/-- The claim C1 fails on the code when a comparison before the first match panics:
after `ExpectSet().WithItem(fooItem).Maybe()` and `ExpectSet()`, for the call
`Set(nil)` record 1 is unfulfilled, of the kind of the call and accepted by the
comparison, record 0 is optional and not accepted, so record 1 is the first match
and every unfulfilled record before it is optional; yet the lookup does not return
record 1: the comparison of record 0 dereferences the nil item and panics, with the
mutex of record 0 held and no triggered count changed. -/
theorem Set_nil_panics_before_first_match :
    ({ typ := .Set ⟨none⟩ } : Expectation).fulfilled = false ∧
    ({ typ := .Set ⟨none⟩ } : Expectation).kind = (Call.Set none).kind ∧
    (Call.Set none).cmp (Expectation.held { typ := .Set ⟨none⟩ }) = .ret none ∧
    ({ optional := true, typ := .Set ⟨some fooItem⟩ } : Expectation).optional = true ∧
    (Call.Set none).cmp (Expectation.held { optional := true, typ := .Set ⟨some fooItem⟩ }) =
      .abort .panic ∧
    (Call.Set none).lookup
        ⟨[{ optional := true, typ := .Set ⟨some fooItem⟩ }, { typ := .Set ⟨none⟩ }]⟩ =
      (⟨[{ optional := true, mu := true, typ := .Set ⟨some fooItem⟩ },
          { typ := .Set ⟨none⟩ }]⟩, .abort .panic) ∧
    memcachemock.Set
        ⟨[{ optional := true, typ := .Set ⟨some fooItem⟩ }, { typ := .Set ⟨none⟩ }]⟩ none =
      (⟨[{ optional := true, mu := true, typ := .Set ⟨some fooItem⟩ },
          { typ := .Set ⟨none⟩ }]⟩, .abort .panic) := by
  decide

/-- The claim C2 fails on the code when a comparison before the gate panics: after
`ExpectSet().WithItem(fooItem).Maybe()`, `ExpectClose()` and `ExpectSet()`, for the
call `Set(nil)` the first unfulfilled required record is record 1, of another kind,
and the only record before it is optional and not accepted; yet the call does not
fail with an error: the comparison of record 0 dereferences the nil item and
panics, with the mutex of record 0 held. -/
theorem Set_nil_panics_before_gate :
    ({ typ := .Close } : Expectation).fulfilled = false ∧
    ({ typ := .Close } : Expectation).optional = false ∧
    ({ typ := .Close } : Expectation).kind ≠ (Call.Set none).kind ∧
    ({ optional := true, typ := .Set ⟨some fooItem⟩ } : Expectation).optional = true ∧
    (Call.Set none).cmp (Expectation.held { optional := true, typ := .Set ⟨some fooItem⟩ }) =
      .abort .panic ∧
    (Call.Set none).lookup
        ⟨[{ optional := true, typ := .Set ⟨some fooItem⟩ }, { typ := .Close },
          { typ := .Set ⟨none⟩ }]⟩ =
      (⟨[{ optional := true, mu := true, typ := .Set ⟨some fooItem⟩ }, { typ := .Close },
          { typ := .Set ⟨none⟩ }]⟩, .abort .panic) ∧
    memcachemock.Set
        ⟨[{ optional := true, typ := .Set ⟨some fooItem⟩ }, { typ := .Close },
          { typ := .Set ⟨none⟩ }]⟩ none =
      (⟨[{ optional := true, mu := true, typ := .Set ⟨some fooItem⟩ }, { typ := .Close },
          { typ := .Set ⟨none⟩ }]⟩, .abort .panic) := by
  decide

/-- The claim C3 fails on the code: after `ExpectGet().WithKey("a").Maybe()`, the
call `Get("b")` does not return the error "call to method Get() was not expected";
the rejected record stays in `expected`, its triggered count is incremented and
the deferred `Unlock` hits a mutex that is not held. -/
theorem Get_rejected_optional_is_selected :
    memcachemock.Get ⟨[{ optional := true, typ := .Get ⟨"a"⟩ none }]⟩ "b" =
      (⟨[{ optional := true, triggered := 1, typ := .Get ⟨"a"⟩ none }]⟩,
        .abort .fatal) := by
  decide

theorem ExpectationsWereMet_loop_none (q : List Expectation) :
    ExpectationsWereMet.loop q = none ↔
      ∀ e ∈ q, e.fulfilled = true ∨ e.optional = true := by
  induction q with
  | nil => simp [ExpectationsWereMet.loop]
  | cons e q ih =>
    cases hf : e.fulfilled <;> cases ho : e.optional <;>
      simp [ExpectationsWereMet.loop, commonExpectation.required, hf, ho, ih]

theorem ExpectationsWereMet_loop_some (q : List Expectation) (err : Error)
    (h : ExpectationsWereMet.loop q = some err) :
    ∃ (i : Nat) (e : Expectation), q[i]? = some e ∧ err = .remaining e ∧
      e.fulfilled = false ∧ e.optional = false ∧
      ∀ (j : Nat) (p : Expectation), j < i → q[j]? = some p →
        p.fulfilled = true ∨ p.optional = true := by
  induction q with
  | nil => simp [ExpectationsWereMet.loop] at h
  | cons e q ih =>
    by_cases hs : e.fulfilled = true ∨ e.optional = true
    · have hstep : ExpectationsWereMet.loop (e :: q) = ExpectationsWereMet.loop q := by
        rcases hs with hs | hs <;>
          simp [ExpectationsWereMet.loop, commonExpectation.required, hs]
      rw [hstep] at h
      obtain ⟨i, x, hx, herr, hxf, hxo, hbefore⟩ := ih h
      refine ⟨i + 1, x, by simpa using hx, herr, hxf, hxo, ?_⟩
      intro j p hj hp
      cases j with
      | zero =>
        simp only [List.getElem?_cons_zero, Option.some.injEq] at hp
        subst hp
        exact hs
      | succ j => exact hbefore j p (by omega) (by simpa using hp)
    · have hf : e.fulfilled = false := by
        cases hf : e.fulfilled <;> simp [hf] at hs ⊢
      have ho : e.optional = false := by
        cases ho : e.optional <;> simp [ho] at hs ⊢
      simp [ExpectationsWereMet.loop, commonExpectation.required, hf, ho] at h
      refine ⟨0, e, by simp, h.symm, hf, ho, ?_⟩
      intro j p hj
      omega

/-- The claim C4: `ExpectationsWereMet` leaves the mock as it is; it returns no
error exactly when every record is fulfilled or optional; an error it returns
names the first record, in registration order, that is neither fulfilled nor
optional; and on the empty queue it returns no error. -/
theorem ExpectationsWereMet_spec (c : memcachemock) :
    c.ExpectationsWereMet.1 = c ∧
    (c.ExpectationsWereMet.2 = none ↔
      ∀ e ∈ c.expectations, e.fulfilled = true ∨ e.optional = true) ∧
    (∀ err, c.ExpectationsWereMet.2 = some err →
      ∃ (i : Nat) (e : Expectation), c.expectations[i]? = some e ∧ err = .remaining e ∧
        e.fulfilled = false ∧ e.optional = false ∧
        ∀ (j : Nat) (p : Expectation), j < i → c.expectations[j]? = some p →
          p.fulfilled = true ∨ p.optional = true) ∧
    (memcachemock.ExpectationsWereMet ⟨[]⟩).2 = none :=
  ⟨rfl, ExpectationsWereMet_loop_none c.expectations,
    fun err h => ExpectationsWereMet_loop_some c.expectations err h, rfl⟩

/-- The claim C5 fails on the code: after `ExpectGet().WithKey("a").Maybe()` and
`ExpectClose()`, the call `Get("b")` is stopped by the required record of the other
kind `ExpectedClose`, yet the error is not "call to method Get(), was not expected,
next expectation is: ExpectedClose ..." but the mismatch reason left in `err` by the
optional record skipped before. -/
theorem Get_gate_returns_stale_mismatch :
    memcachemock.Get ⟨[{ optional := true, typ := .Get ⟨"a"⟩ none }, { typ := .Close }]⟩ "b" =
      (⟨[{ optional := true, typ := .Get ⟨"a"⟩ none }, { typ := .Close }]⟩,
        .ret (none, some (.keyMismatch "a" "b"))) := by
  decide

/-- An iteration that ends in `continue` has released the mutex it took, and has
counted the record if and only if the record is fulfilled; this holds for every
comparison. -/
theorem iteration_continue (K : Kind) (method : String)
    (cmp : Expectation → Exec (Option Error)) (i : Nat) (e next : Expectation) (v w : Locals)
    (h : iteration K method cmp i e v = .continue next w) :
    next = e ∧ w.fulfilled = v.fulfilled + (if e.fulfilled = true then 1 else 0) := by
  cases hmu : e.mu with
  | true => simp [iteration, Expectation.Lock, hmu] at h
  | false =>
    have hf : e.held.fulfilled = e.fulfilled := rfl
    have hk : e.held.kind = e.kind := rfl
    have hr : e.held.required = !e.optional := rfl
    unfold iteration at h
    rw [Lock_of_free hmu] at h
    simp only [hf, hk] at h
    by_cases h1 : e.fulfilled = true
    · simp only [h1, if_true, Unlock_held hmu, Step.continue.injEq] at h
      obtain ⟨rfl, rfl⟩ := h
      simp [h1]
    · simp only [h1, if_false] at h
      by_cases h2 : e.kind = K
      · simp only [h2, if_true] at h
        cases hc : cmp e.held with
        | abort x => simp [hc] at h
        | ret r =>
          cases r with
          | none => simp [hc] at h
          | some er =>
            cases ho : e.optional with
            | false => simp [hc, afterCompare, hr, ho, Unlock_held hmu] at h
            | true =>
              simp only [hc, afterCompare, hr, ho, Unlock_held hmu] at h
              simp only [Bool.not_true, Bool.false_or, Option.isSome_some, Bool.not_true,
                Bool.and_self, if_true, Step.continue.injEq, Bool.not_false] at h
              obtain ⟨rfl, rfl⟩ := h
              simp [h1]
      · simp only [h2, if_false] at h
        cases ho : e.optional with
        | false =>
          simp [afterCompare, hr, ho, Unlock_held hmu] at h
          split_ifs at h
        | true =>
          simp only [afterCompare, hr, ho, Unlock_held hmu] at h
          simp only [Bool.not_false, Bool.true_or, Bool.not_true, Bool.and_self, if_true,
            Step.continue.injEq] at h
          obtain ⟨rfl, rfl⟩ := h
          simp [h1]

/-- When the loop runs to the end of the queue, the queue is as it was and
`fulfilled` has counted the fulfilled records; this holds for every comparison. -/
theorem scan_done (K : Kind) (method : String) (cmp : Expectation → Exec (Option Error)) :
    ∀ (rest pre : List Expectation) (v : Locals) (q : List Expectation) (w : Locals),
      scan K method cmp pre rest v = .done q w →
        q = pre ++ rest ∧
          w.fulfilled = v.fulfilled + rest.countP (fun e => e.fulfilled) := by
  intro rest
  induction rest with
  | nil =>
    intro pre v q w h
    simp only [scan, LoopExit.done.injEq] at h
    obtain ⟨rfl, rfl⟩ := h
    simp
  | cons e rest ih =>
    intro pre v q w h
    unfold scan at h
    cases hit : iteration K method cmp pre.length e v with
    | «continue» next v1 =>
      simp only [hit] at h
      obtain ⟨rfl, hv1⟩ := iteration_continue K method cmp _ _ _ _ _ hit
      obtain ⟨hq, hw⟩ := ih _ _ _ _ h
      refine ⟨by simpa using hq, ?_⟩
      rw [hw, hv1, List.countP_cons]
      by_cases h1 : next.fulfilled = true
      · simp [h1]; omega
      · simp [h1]
    | «break» next v1 => simp [hit] at h
    | «return» next r => simp [hit] at h
    | abort next x => simp [hit] at h

/-- The claim C6: whenever the loop of `findExpectationFunc` reaches the end of the
queue with no record in `expected`, the call returns nil and the error "call to
method ... was not expected", leaves the mock as it is, and the error has the
prefix "all expectations were already fulfilled, " if and only if every record of
the queue was fulfilled before the call. -/
theorem findExpectationFunc_exhaustion (c : memcachemock) (K : Kind) (method : String)
    (cmp : Expectation → Exec (Option Error)) (q : List Expectation) (w : Locals)
    (hscan : scan K method cmp [] c.expectations {} = .done q w)
    (hexp : w.expected = none) :
    ∃ b, findExpectationFunc c K method cmp = (c, .ret (none, some (.notExpected b method))) ∧
      (b = true ↔ ∀ e ∈ c.expectations, e.fulfilled = true) := by
  obtain ⟨hq, hw⟩ := scan_done K method cmp _ _ _ _ _ hscan
  simp only [List.nil_append] at hq
  subst hq
  refine ⟨decide (w.fulfilled = c.expectations.length), ?_, ?_⟩
  · simp [findExpectationFunc, hscan, afterLoop, hexp]
  · have h0 : ({} : Locals).fulfilled = 0 := rfl
    rw [hw, h0, Nat.zero_add, decide_eq_true_iff, List.countP_eq_length]

/-- A run of the claim C6: `ExpectClose()`, `Close()`, then `Ping()`. -/
theorem findExpectationFunc_exhaustion_witness :
    ∃ b, findExpectationFunc ⟨[{ triggered := 1, typ := .Close }]⟩ .Ping "Ping()"
        (fun _ => .ret none) =
        (⟨[{ triggered := 1, typ := .Close }]⟩, .ret (none, some (.notExpected b "Ping()"))) ∧
      (b = true ↔ ∀ e ∈ [({ triggered := 1, typ := .Close } : Expectation)],
        e.fulfilled = true) :=
  findExpectationFunc_exhaustion ⟨[{ triggered := 1, typ := .Close }]⟩ .Ping "Ping()"
    (fun _ => .ret none) [{ triggered := 1, typ := .Close }] { fulfilled := 1 }
    (by decide) (by decide)

/-- The claim C7: `fulfilled` holds exactly when `triggered >= max(1, plannedCalls)`,
so after `Times(0)` and after `Times(1)` a record is fulfilled at the same triggered
counts. -/
theorem fulfilled_iff_triggered_ge_max (e : commonExpectation) :
    (e.fulfilled = true ↔ e.triggered ≥ max 1 e.plannedCalls) ∧
    (∀ x : Expectation, (x.Times 0).triggered = (x.Times 1).triggered ∧
      (x.Times 0).fulfilled = (x.Times 1).fulfilled) := by
  constructor
  · simp only [commonExpectation.fulfilled, decide_eq_true_eq, ge_iff_le]
    split_ifs with h
    · rw [max_eq_right (by omega)]
    · rw [max_eq_left (by omega)]
  · intro x
    exact ⟨rfl, rfl⟩

/-- A `return` inside the loop returns nil and an error. -/
theorem walk_return (K : Kind) (method : String) (cmp : Expectation → Option Error) :
    ∀ (rest : List Expectation) (i : Nat) (v : Locals) (r : Option Nat × Option Error),
      walk K method cmp i rest v = .return r → ∃ err, r = (none, some err) := by
  intro rest
  induction rest with
  | nil => intro i v r h; simp [walk] at h
  | cons e rest ih =>
    intro i v r h
    rcases walk_cases K method cmp e rest i v with
      ⟨_, hw⟩ | ⟨h1, h2, h3, hw⟩ | ⟨x, _, _, _, _, hw⟩ | ⟨x, _, _, _, _, hw⟩ | ⟨_, _, _, hw⟩ |
      ⟨_, _, _, hw⟩ <;> rw [hw] at h
    · exact ih _ _ _ h
    · simp at h
    · exact ih _ _ _ h
    · simp only [Walk.return.injEq] at h
      exact ⟨x, h.symm⟩
    · exact ih _ _ _ h
    · simp only [Walk.return.injEq] at h
      cases hv : v.err with
      | none => exact ⟨.unexpectedCall method e, by rw [← h]; simp [hv]⟩
      | some er => exact ⟨er, by rw [← h]; simp [hv]⟩

/-- A scan in which no unfulfilled record is of the requested kind, and that
meets an unfulfilled required record, returns the error naming the first such
record. -/
theorem walk_no_candidate_blocked (K : Kind) (method : String)
    (cmp : Expectation → Option Error) :
    ∀ (rest : List Expectation) (i : Nat) (v : Locals) (r : Expectation), v.err = none →
      (∀ p ∈ rest, p.fulfilled = true ∨ p.kind ≠ K) →
      rest.find? Expectation.blocks = some r →
      walk K method cmp i rest v = .return (none, some (.unexpectedCall method r)) := by
  intro rest
  induction rest with
  | nil => intro i v r _ _ h; simp at h
  | cons e rest ih =>
    intro i v r hv hno hfind
    have he := hno e (List.mem_cons_self _ _)
    have hrest : ∀ p ∈ rest, p.fulfilled = true ∨ p.kind ≠ K :=
      fun p hp => hno p (List.mem_cons_of_mem _ hp)
    rcases walk_cases K method cmp e rest i v with
      ⟨h1, hw⟩ | ⟨h1, h2, h3, hw⟩ | ⟨x, h1, h2, _, _, hw⟩ | ⟨x, h1, h2, _, _, hw⟩ |
      ⟨h1, _, h4, hw⟩ | ⟨h1, _, h4, hw⟩ <;> rw [hw]
    · have hb : e.blocks = false := by simp [Expectation.blocks, h1]
      rw [List.find?_cons_of_neg _ (by simp [hb])] at hfind
      exact ih _ _ r hv hrest hfind
    · rcases he with he | he
      · simp [h1] at he
      · exact absurd h2 he
    · rcases he with he | he
      · simp [h1] at he
      · exact absurd h2 he
    · rcases he with he | he
      · simp [h1] at he
      · exact absurd h2 he
    · have hb : e.blocks = false := by
        simp [Expectation.blocks, commonExpectation.required, h4]
      rw [List.find?_cons_of_neg _ (by simp [hb])] at hfind
      exact ih _ _ r hv hrest hfind
    · have hb : e.blocks = true := by
        simp [Expectation.blocks, commonExpectation.required, h1, h4]
      rw [List.find?_cons_of_pos _ hb] at hfind
      simp only [Option.some.injEq] at hfind
      subst hfind
      simp [hv]

/-- A scan in which no unfulfilled record is of the requested kind, and that
meets no unfulfilled required record, runs to the end of the queue, selects
nothing and counts the fulfilled records. -/
theorem walk_no_candidate_done (K : Kind) (method : String)
    (cmp : Expectation → Option Error) :
    ∀ (rest : List Expectation) (i : Nat) (v : Locals), v.expected = none →
      (∀ p ∈ rest, p.fulfilled = true ∨ p.kind ≠ K) →
      rest.find? Expectation.blocks = none →
      ∃ w, walk K method cmp i rest v = .done w ∧ w.expected = none ∧
        w.fulfilled = v.fulfilled + rest.countP (fun e => e.fulfilled) := by
  intro rest
  induction rest with
  | nil => intro i v hv _ _; exact ⟨v, by simp [walk], hv, by simp⟩
  | cons e rest ih =>
    intro i v hv hno hfind
    have he := hno e (List.mem_cons_self _ _)
    have hrest : ∀ p ∈ rest, p.fulfilled = true ∨ p.kind ≠ K :=
      fun p hp => hno p (List.mem_cons_of_mem _ hp)
    have hb : e.blocks = false := by
      cases hb : e.blocks with
      | false => rfl
      | true => rw [List.find?_cons_of_pos _ hb] at hfind; simp at hfind
    rw [List.find?_cons_of_neg _ (by simp [hb])] at hfind
    rcases walk_cases K method cmp e rest i v with
      ⟨h1, hw⟩ | ⟨h1, h2, h3, hw⟩ | ⟨x, h1, h2, _, _, hw⟩ | ⟨x, h1, h2, _, _, hw⟩ |
      ⟨h1, _, h4, hw⟩ | ⟨h1, _, h4, hw⟩ <;> rw [hw]
    · obtain ⟨w, hw1, hw2, hw3⟩ := ih (i + 1) { v with fulfilled := v.fulfilled + 1 } hv hrest hfind
      refine ⟨w, hw1, hw2, ?_⟩
      rw [hw3, List.countP_cons]
      simp [h1]
      omega
    · rcases he with he | he
      · simp [h1] at he
      · exact absurd h2 he
    · rcases he with he | he
      · simp [h1] at he
      · exact absurd h2 he
    · rcases he with he | he
      · simp [h1] at he
      · exact absurd h2 he
    · obtain ⟨w, hw1, hw2, hw3⟩ :=
        ih (i + 1) { v with expected := none, ok := false } rfl hrest hfind
      refine ⟨w, hw1, hw2, ?_⟩
      rw [hw3, List.countP_cons]
      simp [h1]
    · simp [Expectation.blocks, commonExpectation.required, h1, h4] at hb

/-- The claim C8 as amended: let record `i` of an idle queue have planned count 0
and be the only record of its kind, and let an invocation select it. Then its
triggered count went from 0 to 1 and it is fulfilled, and the same invocation
issued again returns nil and an error and leaves the mock as it is: the error
"call to method ... was not expected" when no unfulfilled required record is
left in the queue (with the prefix "all expectations were already fulfilled, "
exactly when every record is fulfilled), and otherwise the error "call to method
..., was not expected, next expectation is: ..." naming the first unfulfilled
required record. -/
theorem plannedCalls_zero_second_call (c c1 : memcachemock) (K : Kind) (method : String)
    (cmp : Expectation → Option Error) (i : Nat) (e : Expectation)
    (hidle : idle c.expectations)
    (hi : c.expectations[i]? = some e)
    (hplan : e.plannedCalls = 0)
    (honly : ∀ j p, j ≠ i → c.expectations[j]? = some p → p.kind ≠ K)
    (hcall : findExpectationFunc c K method (fun x => .ret (cmp x)) =
      (c1, .ret (some i, none))) :
    e.triggered = 0 ∧
    c1.expectations = c.expectations.set i { e with triggered := 1 } ∧
    ({ e with triggered := 1 } : Expectation).fulfilled = true ∧
    findExpectationFunc c1 K method (fun x => .ret (cmp x)) =
      (c1, .ret (none, some
        (match c1.expectations.find? Expectation.blocks with
         | some r => .unexpectedCall method r
         | none => .notExpected (c1.expectations.all (fun p => p.fulfilled)) method))) := by
  -- the first call left the loop by `break` at record `i`
  rw [findExpectationFunc_idle c K method cmp hidle] at hcall
  have hbreak : ∃ w, walk K method cmp 0 c.expectations {} = .break i w ∧
      c1 = ⟨c.expectations.modify Expectation.fulfill i⟩ := by
    cases hw : walk K method cmp 0 c.expectations {} with
    | «return» r =>
      obtain ⟨err, rfl⟩ := walk_return K method cmp _ _ _ _ hw
      simp [hw] at hcall
    | «break» j w =>
      simp only [hw, Prod.mk.injEq, Exec.ret.injEq, Option.some.injEq, and_true] at hcall
      obtain ⟨h1, h2⟩ := hcall
      subst h2
      exact ⟨w, rfl, h1.symm⟩
    | done w =>
      simp only [hw] at hcall
      cases hexp : w.expected with
      | none => simp [hexp] at hcall
      | some j => simp [hexp] at hcall
  obtain ⟨w, hw, hc1⟩ := hbreak
  obtain ⟨-, -, x, hx, hunf, -, -⟩ := walk_break K method cmp _ _ _ _ _ hw
  simp only [Nat.sub_zero, hi, Option.some.injEq] at hx
  subst hx
  have hplan64 : e.plannedCalls < uintSize := by rw [hplan]; decide
  have htrig : e.triggered = 0 := by
    simp only [commonExpectation.fulfilled, hplan, decide_eq_false_iff_not] at hunf
    simp at hunf
    exact hunf
  have hful : e.fulfill = { e with triggered := 1 } := by
    rw [fulfill_of_unfulfilled e hplan64 hunf, htrig]
  have hdone : ({ e with triggered := 1 } : Expectation).fulfilled = true := by
    simp [commonExpectation.fulfilled, hplan]
  have hq1 : c1.expectations = c.expectations.set i { e with triggered := 1 } := by
    rw [hc1, ← hful]
    exact (set_eq_modify Expectation.fulfill c.expectations i e hi).symm
  have hmue : e.mu = false := hidle e (List.getElem?_mem hi)
  -- the queue after the first call
  have hidle1 : idle c1.expectations := by
    intro p hp
    rw [hq1] at hp
    rcases List.mem_or_eq_of_mem_set hp with h | h
    · exact hidle p h
    · rw [h]; exact hmue
  have hno : ∀ p ∈ c1.expectations, p.fulfilled = true ∨ p.kind ≠ K := by
    intro p hp
    obtain ⟨j, hj⟩ := List.getElem?_of_mem hp
    rw [hq1, List.getElem?_set] at hj
    by_cases hij : i = j
    · simp only [hij, if_true] at hj
      split_ifs at hj
      · simp only [Option.some.injEq] at hj
        rw [← hj]
        exact Or.inl hdone
    · simp only [hij, if_false] at hj
      exact Or.inr (honly j p (fun h => hij h.symm) hj)
  refine ⟨htrig, hq1, hdone, ?_⟩
  rw [findExpectationFunc_idle c1 K method cmp hidle1]
  cases hfind : c1.expectations.find? Expectation.blocks with
  | some r =>
    rw [walk_no_candidate_blocked K method cmp _ 0 {} r rfl hno hfind]
  | none =>
    obtain ⟨w1, hw1, hexp1, hcount⟩ :=
      walk_no_candidate_done K method cmp _ 0 {} rfl hno hfind
    rw [hw1]
    simp only [hexp1]
    have hall : decide (w1.fulfilled = c1.expectations.length) =
        c1.expectations.all (fun p => p.fulfilled) := by
      have h0 : ({} : Locals).fulfilled = 0 := rfl
      rw [hcount, h0, Nat.zero_add, Bool.eq_iff_iff]
      simp [List.countP_eq_length]
    rw [hall]

/-- A run of the amended claim C8: `ExpectPing().Maybe()`, `ExpectClose()`, then
`Close()` twice; the second call finds no unfulfilled required record. -/
theorem plannedCalls_zero_second_call_witness :
    ({ typ := .Close } : Expectation).triggered = 0 ∧
    (⟨[{ optional := true, typ := .Ping }, { triggered := 1, typ := .Close }]⟩ :
        memcachemock).expectations =
      [{ optional := true, typ := .Ping }, { typ := .Close }].set 1
        { ({ typ := .Close } : Expectation) with triggered := 1 } ∧
    ({ ({ typ := .Close } : Expectation) with triggered := 1 } : Expectation).fulfilled
      = true ∧
    findExpectationFunc
        ⟨[{ optional := true, typ := .Ping }, { triggered := 1, typ := .Close }]⟩
        .Close "Close()" (fun x => .ret ((fun _ => none) x)) =
      (⟨[{ optional := true, typ := .Ping }, { triggered := 1, typ := .Close }]⟩,
        .ret (none, some
          (match
              (⟨[{ optional := true, typ := .Ping }, { triggered := 1, typ := .Close }]⟩ :
                memcachemock).expectations.find? Expectation.blocks with
           | some r => .unexpectedCall "Close()" r
           | none =>
             .notExpected
               ((⟨[{ optional := true, typ := .Ping }, { triggered := 1, typ := .Close }]⟩ :
                  memcachemock).expectations.all (fun p => p.fulfilled)) "Close()"))) :=
  plannedCalls_zero_second_call
    ⟨[{ optional := true, typ := .Ping }, { typ := .Close }]⟩
    ⟨[{ optional := true, typ := .Ping }, { triggered := 1, typ := .Close }]⟩
    .Close "Close()" (fun _ => none) 1 { typ := .Close }
    (by decide) (by decide) (by decide)
    (by
      intro j p hj hp
      cases j with
      | zero =>
        simp only [List.getElem?_cons_zero, Option.some.injEq] at hp
        subst hp
        decide
      | succ j =>
        cases j with
        | zero => exact absurd rfl hj
        | succ j => simp at hp)
    (by decide)

/-- The claim C8 fails as stated: after `ExpectPing()` and `ExpectClose()`, the
record `ExpectedPing` has planned count 0 and is the only one of its kind; the
first `Ping()` selects it, and the second `Ping()` does not fail with the
exhaustion error "call to method Ping() was not expected" but with the ordering
error naming the `ExpectedClose` record. -/
theorem Ping_twice_before_Close :
    memcachemock.Ping ⟨[{ typ := .Ping }, { typ := .Close }]⟩ =
      (⟨[{ triggered := 1, typ := .Ping }, { typ := .Close }]⟩, .ret none) ∧
    memcachemock.Ping ⟨[{ triggered := 1, typ := .Ping }, { typ := .Close }]⟩ =
      (⟨[{ triggered := 1, typ := .Ping }, { typ := .Close }]⟩,
        .ret (some (.unexpectedCall "Ping()" { typ := .Close }))) ∧
    (memcachemock.Ping ⟨[{ triggered := 1, typ := .Ping }, { typ := .Close }]⟩).2 ≠
      .ret (some (.notExpected true "Ping()")) ∧
    (memcachemock.Ping ⟨[{ triggered := 1, typ := .Ping }, { typ := .Close }]⟩).2 ≠
      .ret (some (.notExpected false "Ping()")) := by
  decide

theorem ExpectationsWereMet_loop_single (x : Expectation) (hu : x.fulfilled = false)
    (ho : x.optional = false) :
    ExpectationsWereMet.loop [x] = some (.remaining x) := by
  simp [ExpectationsWereMet.loop, commonExpectation.required, hu, ho]

/-- The claim C9: let `r` be a fresh required record with planned count `N > 1` of
kind `K` that the comparison accepts, alone in the queue. Then the state after `k`
invocations, for `k` up to `N`, is the record with triggered count `k`; each of
the first `N` invocations returns the record without error; after `k < N`
invocations the record is unfulfilled and `ExpectationsWereMet` returns an error
naming it; after `N` it is fulfilled and `ExpectationsWereMet` returns no error;
and the invocation after that returns nil and the error "all expectations were
already fulfilled, call to method ... was not expected", changing nothing. -/
theorem Times_N_calls (N : Nat) (r : Expectation) (K : Kind) (method : String)
    (cmp : Expectation → Option Error)
    (hN : 1 < N) (huint : N < uintSize)
    (hplan : r.plannedCalls = N) (htrig : r.triggered = 0) (hreq : r.optional = false)
    (hmu : r.mu = false) (hkind : r.kind = K)
    (hacc : ∀ k, cmp ({ r with triggered := k } : Expectation).held = none) :
    (∀ k, k ≤ N →
      (fun c => (findExpectationFunc c K method (fun x => .ret (cmp x))).1)^[k] ⟨[r]⟩ =
        single r k) ∧
    (∀ k, k < N →
      findExpectationFunc (single r k) K method (fun x => .ret (cmp x)) =
        (single r (k + 1), .ret (some 0, none))) ∧
    (∀ k, k < N →
      ({ r with triggered := k } : Expectation).fulfilled = false ∧
      (single r k).ExpectationsWereMet.2 = some (.remaining { r with triggered := k })) ∧
    (({ r with triggered := N } : Expectation).fulfilled = true ∧
      (single r N).ExpectationsWereMet.2 = none) ∧
    findExpectationFunc (single r N) K method (fun x => .ret (cmp x)) =
      (single r N, .ret (none, some (.notExpected true method))) := by
  have hunf : ∀ k, k < N → ({ r with triggered := k } : Expectation).fulfilled = false := by
    intro k hk
    simp only [commonExpectation.fulfilled, hplan, decide_eq_false_iff_not]
    split_ifs <;> omega
  have hful : ({ r with triggered := N } : Expectation).fulfilled = true := by
    simp only [commonExpectation.fulfilled, hplan, decide_eq_true_eq]
    split_ifs <;> omega
  have hidle : ∀ k, idle (single r k).expectations := by
    intro k p hp
    simp only [single, List.mem_singleton] at hp
    rw [hp]
    exact hmu
  have hstep : ∀ k, k < N →
      findExpectationFunc (single r k) K method (fun x => .ret (cmp x)) =
        (single r (k + 1), .ret (some 0, none)) := by
    intro k hk
    rw [findExpectationFunc_idle _ K method cmp (hidle k)]
    have hw : walk K method cmp 0 (single r k).expectations {} =
        .break 0 { expected := some 0, ok := true, err := none } :=
      walk_accept K method cmp [] 0 {} (hunf k hk) hkind (hacc k)
    rw [hw]
    have hf := fulfill_of_unfulfilled ({ r with triggered := k } : Expectation)
      (by show r.plannedCalls < uintSize; omega) (hunf k hk)
    simp only [single, List.modify_zero_cons, hf]
  have h0 : (⟨[r]⟩ : memcachemock) = single r 0 := by
    simp only [single, ← htrig]
  refine ⟨?_, hstep, ?_, ⟨hful, ?_⟩, ?_⟩
  · intro k
    induction k with
    | zero => intro _; simpa using h0
    | succ k ih =>
      intro hk
      rw [Function.iterate_succ_apply', ih (by omega), hstep k (by omega)]
  · intro k hk
    exact ⟨hunf k hk, ExpectationsWereMet_loop_single _ (hunf k hk) hreq⟩
  · simp [memcachemock.ExpectationsWereMet, single, ExpectationsWereMet.loop, hful]
  · rw [findExpectationFunc_idle _ K method cmp (hidle N)]
    have hw : walk K method cmp 0 (single r N).expectations {} = .done { fulfilled := 1 } := by
      simp only [single]
      rw [walk_fulfilled K method cmp [] 0 {} hful]
      rfl
    rw [hw]
    simp [single]

/-- A run of the claim C9: `ExpectPing().Times(3)`. -/
theorem Times_N_calls_witness :
    (∀ k, k ≤ 3 →
      (fun c => (findExpectationFunc c .Ping "Ping()"
          (fun x => .ret ((fun _ => none) x))).1)^[k]
          ⟨[{ plannedCalls := 3, typ := .Ping }]⟩ =
        single { plannedCalls := 3, typ := .Ping } k) ∧
    (∀ k, k < 3 →
      findExpectationFunc (single { plannedCalls := 3, typ := .Ping } k) .Ping "Ping()"
          (fun x => .ret ((fun _ => none) x)) =
        (single { plannedCalls := 3, typ := .Ping } (k + 1), .ret (some 0, none))) ∧
    (∀ k, k < 3 →
      ({ ({ plannedCalls := 3, typ := .Ping } : Expectation) with triggered := k } :
          Expectation).fulfilled = false ∧
      (single { plannedCalls := 3, typ := .Ping } k).ExpectationsWereMet.2 =
        some (.remaining
          { ({ plannedCalls := 3, typ := .Ping } : Expectation) with triggered := k })) ∧
    (({ ({ plannedCalls := 3, typ := .Ping } : Expectation) with triggered := 3 } :
          Expectation).fulfilled = true ∧
      (single { plannedCalls := 3, typ := .Ping } 3).ExpectationsWereMet.2 = none) ∧
    findExpectationFunc (single { plannedCalls := 3, typ := .Ping } 3) .Ping "Ping()"
        (fun x => .ret ((fun _ => none) x)) =
      (single { plannedCalls := 3, typ := .Ping } 3,
        .ret (none, some (.notExpected true "Ping()"))) :=
  Times_N_calls 3 { plannedCalls := 3, typ := .Ping } .Ping "Ping()" (fun _ => none)
    (by decide) (by decide) (by decide) (by decide) (by decide) (by decide) (by decide)
    (by intro k; rfl)

/-- The claim C10 fails on the code: with `ExpectGet().WithKey("a").Maybe()` and then
`ExpectPing().Maybe()` registered, `Get("b")` returns the error "call to method Get()
was not expected" and changes nothing; with the unfulfilled optional record
`ExpectedPing`, of another kind, removed from the queue, the same call does not
return: the rejected `ExpectedGet` record is incremented and the deferred `Unlock`
hits a mutex that is not held. -/
theorem Get_depends_on_skipped_optional :
    memcachemock.Get
        ⟨[{ optional := true, typ := .Get ⟨"a"⟩ none }, { optional := true, typ := .Ping }]⟩
        "b" =
      (⟨[{ optional := true, typ := .Get ⟨"a"⟩ none }, { optional := true, typ := .Ping }]⟩,
        .ret (none, some (.notExpected false "Get()"))) ∧
    memcachemock.Get
        ⟨[{ optional := true, typ := .Get ⟨"a"⟩ none }]⟩ "b" =
      (⟨[{ optional := true, triggered := 1, typ := .Get ⟨"a"⟩ none }]⟩, .abort .fatal) := by
  decide

/-! ## The loop for every comparison and every queue -/

section IterationEquations

variable (K : Kind) (method : String) (cmp : Expectation → Exec (Option Error))

theorem iteration_locked {e : Expectation} (i : Nat) (v : Locals) (hmu : e.mu = true) :
    iteration K method cmp i e v = .abort e .deadlock := by
  simp [iteration, Expectation.Lock, hmu]

theorem iteration_fulfilled {e : Expectation} (i : Nat) (v : Locals) (hmu : e.mu = false)
    (h1 : e.fulfilled = true) :
    iteration K method cmp i e v = .continue e { v with fulfilled := v.fulfilled + 1 } := by
  have hf : e.held.fulfilled = e.fulfilled := rfl
  unfold iteration
  rw [Lock_of_free hmu]
  simp only [hf, h1, if_true, Unlock_held hmu]

theorem iteration_abort {e : Expectation} (i : Nat) (v : Locals) {x : Abnormal}
    (hmu : e.mu = false) (h1 : e.fulfilled = false) (h2 : e.kind = K)
    (h3 : cmp e.held = .abort x) :
    iteration K method cmp i e v = .abort e.held x := by
  have hf : e.held.fulfilled = e.fulfilled := rfl
  have hk : e.held.kind = e.kind := rfl
  unfold iteration
  rw [Lock_of_free hmu]
  simp [hf, hk, h1, h2, h3]

theorem iteration_accept {e : Expectation} (i : Nat) (v : Locals)
    (hmu : e.mu = false) (h1 : e.fulfilled = false) (h2 : e.kind = K)
    (h3 : cmp e.held = .ret none) :
    iteration K method cmp i e v =
      .break e.held { v with expected := some i, ok := true, err := none } := by
  have hf : e.held.fulfilled = e.fulfilled := rfl
  have hk : e.held.kind = e.kind := rfl
  unfold iteration
  rw [Lock_of_free hmu]
  simp [hf, hk, h1, h2, h3]

theorem iteration_reject_optional {e : Expectation} (i : Nat) (v : Locals) {r : Error}
    (hmu : e.mu = false) (h1 : e.fulfilled = false) (h2 : e.kind = K)
    (h3 : cmp e.held = .ret (some r)) (h4 : e.optional = true) :
    iteration K method cmp i e v =
      .continue e { v with expected := some i, ok := true, err := some r } := by
  have hf : e.held.fulfilled = e.fulfilled := rfl
  have hk : e.held.kind = e.kind := rfl
  have hr : e.held.required = !e.optional := rfl
  unfold iteration
  rw [Lock_of_free hmu]
  simp [hf, hk, hr, h1, h2, h3, h4, afterCompare, Unlock_held hmu]

theorem iteration_reject_required {e : Expectation} (i : Nat) (v : Locals) {r : Error}
    (hmu : e.mu = false) (h1 : e.fulfilled = false) (h2 : e.kind = K)
    (h3 : cmp e.held = .ret (some r)) (h4 : e.optional = false) :
    iteration K method cmp i e v = .return e (none, some r) := by
  have hf : e.held.fulfilled = e.fulfilled := rfl
  have hk : e.held.kind = e.kind := rfl
  have hr : e.held.required = !e.optional := rfl
  unfold iteration
  rw [Lock_of_free hmu]
  simp [hf, hk, hr, h1, h2, h3, h4, afterCompare, Unlock_held hmu]

theorem iteration_other_optional {e : Expectation} (i : Nat) (v : Locals)
    (hmu : e.mu = false) (h1 : e.fulfilled = false) (h2 : e.kind ≠ K)
    (h4 : e.optional = true) :
    iteration K method cmp i e v = .continue e { v with expected := none, ok := false } := by
  have hf : e.held.fulfilled = e.fulfilled := rfl
  have hk : e.held.kind = e.kind := rfl
  have hr : e.held.required = !e.optional := rfl
  unfold iteration
  rw [Lock_of_free hmu]
  simp [hf, hk, hr, h1, h2, h4, afterCompare, Unlock_held hmu]

theorem iteration_other_required {e : Expectation} (i : Nat) (v : Locals)
    (hmu : e.mu = false) (h1 : e.fulfilled = false) (h2 : e.kind ≠ K)
    (h4 : e.optional = false) :
    iteration K method cmp i e v =
      .return e (none, if v.err.isSome then v.err else some (.unexpectedCall method e)) := by
  have hf : e.held.fulfilled = e.fulfilled := rfl
  have hk : e.held.kind = e.kind := rfl
  have hr : e.held.required = !e.optional := rfl
  unfold iteration
  rw [Lock_of_free hmu]
  by_cases h5 : v.err.isSome = true <;>
    simp [hf, hk, hr, h1, h2, h4, h5, afterCompare, Unlock_held hmu]

/-- The eight ways one iteration of the loop can go, for every comparison and
every state of the mutex. -/
theorem iteration_cases (e : Expectation) (i : Nat) (v : Locals) :
    (e.mu = true ∧ iteration K method cmp i e v = .abort e .deadlock) ∨
    (e.mu = false ∧ e.fulfilled = true ∧
      iteration K method cmp i e v = .continue e { v with fulfilled := v.fulfilled + 1 }) ∨
    (∃ x, e.mu = false ∧ e.fulfilled = false ∧ e.kind = K ∧ cmp e.held = .abort x ∧
      iteration K method cmp i e v = .abort e.held x) ∨
    (e.mu = false ∧ e.fulfilled = false ∧ e.kind = K ∧ cmp e.held = .ret none ∧
      iteration K method cmp i e v =
        .break e.held { v with expected := some i, ok := true, err := none }) ∨
    (∃ r, e.mu = false ∧ e.fulfilled = false ∧ e.kind = K ∧ cmp e.held = .ret (some r) ∧
      e.optional = true ∧
      iteration K method cmp i e v =
        .continue e { v with expected := some i, ok := true, err := some r }) ∨
    (∃ r, e.mu = false ∧ e.fulfilled = false ∧ e.kind = K ∧ cmp e.held = .ret (some r) ∧
      e.optional = false ∧ iteration K method cmp i e v = .return e (none, some r)) ∨
    (e.mu = false ∧ e.fulfilled = false ∧ e.kind ≠ K ∧ e.optional = true ∧
      iteration K method cmp i e v = .continue e { v with expected := none, ok := false }) ∨
    (e.mu = false ∧ e.fulfilled = false ∧ e.kind ≠ K ∧ e.optional = false ∧
      iteration K method cmp i e v =
        .return e (none, if v.err.isSome then v.err else some (.unexpectedCall method e))) := by
  cases hmu : e.mu with
  | true => exact Or.inl ⟨rfl, iteration_locked K method cmp i v hmu⟩
  | false =>
    refine Or.inr ?_
    cases h1 : e.fulfilled with
    | true => exact Or.inl ⟨rfl, rfl, iteration_fulfilled K method cmp i v hmu h1⟩
    | false =>
      refine Or.inr ?_
      by_cases h2 : e.kind = K
      · cases h3 : cmp e.held with
        | abort x => exact Or.inl ⟨x, rfl, rfl, h2, rfl, iteration_abort K method cmp i v hmu h1 h2 h3⟩
        | ret r =>
          refine Or.inr ?_
          cases r with
          | none =>
            exact Or.inl ⟨rfl, rfl, h2, rfl, iteration_accept K method cmp i v hmu h1 h2 h3⟩
          | some r =>
            refine Or.inr ?_
            cases h4 : e.optional with
            | true =>
              exact Or.inl ⟨r, rfl, rfl, h2, rfl, rfl,
                iteration_reject_optional K method cmp i v hmu h1 h2 h3 h4⟩
            | false =>
              exact Or.inr (Or.inl ⟨r, rfl, rfl, h2, rfl, rfl,
                iteration_reject_required K method cmp i v hmu h1 h2 h3 h4⟩)
      · refine Or.inr (Or.inr (Or.inr (Or.inr ?_)))
        cases h4 : e.optional with
        | true =>
          exact Or.inl ⟨rfl, rfl, h2, rfl, iteration_other_optional K method cmp i v hmu h1 h2 h4⟩
        | false =>
          exact Or.inr ⟨rfl, rfl, h2, rfl, iteration_other_required K method cmp i v hmu h1 h2 h4⟩

end IterationEquations

/-- A `break` of the loop, for every comparison: it happens at an unfulfilled
record of the requested kind whose mutex was free and which the comparison
accepts; that record is left locked and is the value of `expected`. -/
theorem scan_inv_break (K : Kind) (method : String) (cmp : Expectation → Exec (Option Error)) :
    ∀ (rest pre : List Expectation) (v : Locals) (q : List Expectation) (w : Locals),
      scan K method cmp pre rest v = .break q w →
        ∃ a e b, rest = a ++ e :: b ∧ e.mu = false ∧ e.fulfilled = false ∧ e.kind = K ∧
          cmp e.held = .ret none ∧ q = pre ++ a ++ e.held :: b ∧
          w.expected = some (pre.length + a.length) := by
  intro rest
  induction rest with
  | nil => intro pre v q w h; simp [scan] at h
  | cons e rest ih =>
    intro pre v q w h
    have hstep : ∀ v1, scan K method cmp (pre ++ [e]) rest v1 = .break q w →
        ∃ a x b, e :: rest = a ++ x :: b ∧ x.mu = false ∧ x.fulfilled = false ∧ x.kind = K ∧
          cmp x.held = .ret none ∧ q = pre ++ a ++ x.held :: b ∧
          w.expected = some (pre.length + a.length) := by
      intro v1 h1
      obtain ⟨a, x, b, hr, h2, h3, h4, h5, h6, h7⟩ := ih _ _ _ _ h1
      refine ⟨e :: a, x, b, by simp [hr], h2, h3, h4, h5, by simp [h6], ?_⟩
      rw [h7]
      simp
      omega
    unfold scan at h
    rcases iteration_cases K method cmp e pre.length v with
      ⟨_, hit⟩ | ⟨_, _, hit⟩ | ⟨x, _, _, _, _, hit⟩ | ⟨h1, h2, h3, h4, hit⟩ |
      ⟨r, _, _, _, _, _, hit⟩ | ⟨r, _, _, _, _, _, hit⟩ | ⟨_, _, _, _, hit⟩ |
      ⟨_, _, _, _, hit⟩ <;> rw [hit] at h <;> simp only at h
    · simp at h
    · exact hstep _ h
    · simp at h
    · simp only [LoopExit.break.injEq] at h
      obtain ⟨rfl, rfl⟩ := h
      exact ⟨[], e, rest, rfl, h1, h2, h3, h4, by simp, by simp⟩
    · exact hstep _ h
    · simp at h
    · exact hstep _ h
    · simp at h

/-- A `return` inside the loop, for every comparison: every mutex is free again,
the queue is as it was, and nil and an error are returned. -/
theorem scan_inv_return (K : Kind) (method : String)
    (cmp : Expectation → Exec (Option Error)) :
    ∀ (rest pre : List Expectation) (v : Locals) (q : List Expectation)
      (r : Option Nat × Option Error),
      scan K method cmp pre rest v = .return q r →
        q = pre ++ rest ∧ ∃ err, r = (none, some err) := by
  intro rest
  induction rest with
  | nil => intro pre v q r h; simp [scan] at h
  | cons e rest ih =>
    intro pre v q r h
    have hstep : ∀ v1, scan K method cmp (pre ++ [e]) rest v1 = .return q r →
        q = pre ++ e :: rest ∧ ∃ err, r = (none, some err) := by
      intro v1 h1
      obtain ⟨hq, herr⟩ := ih _ _ _ _ h1
      exact ⟨by simpa using hq, herr⟩
    unfold scan at h
    rcases iteration_cases K method cmp e pre.length v with
      ⟨_, hit⟩ | ⟨_, _, hit⟩ | ⟨x, _, _, _, _, hit⟩ | ⟨h1, h2, h3, h4, hit⟩ |
      ⟨x, _, _, _, _, _, hit⟩ | ⟨x, _, _, _, _, _, hit⟩ | ⟨_, _, _, _, hit⟩ |
      ⟨_, _, _, _, hit⟩ <;> rw [hit] at h <;> simp only at h
    · simp at h
    · exact hstep _ h
    · simp at h
    · simp at h
    · exact hstep _ h
    · simp only [LoopExit.return.injEq] at h
      obtain ⟨rfl, rfl⟩ := h
      exact ⟨rfl, x, rfl⟩
    · exact hstep _ h
    · simp only [LoopExit.return.injEq] at h
      obtain ⟨rfl, rfl⟩ := h
      refine ⟨rfl, ?_⟩
      cases hv : v.err with
      | none => exact ⟨.unexpectedCall method e, by simp⟩
      | some er => exact ⟨er, by simp⟩

/-- When the loop runs to the end of the queue, every mutex it met was free. -/
theorem scan_done_idle (K : Kind) (method : String)
    (cmp : Expectation → Exec (Option Error)) :
    ∀ (rest pre : List Expectation) (v : Locals) (q : List Expectation) (w : Locals),
      scan K method cmp pre rest v = .done q w → idle rest := by
  intro rest
  induction rest with
  | nil => intro pre v q w _ x hx; simp at hx
  | cons e rest ih =>
    intro pre v q w h
    have hstep : e.mu = false → ∀ v1, scan K method cmp (pre ++ [e]) rest v1 = .done q w →
        idle (e :: rest) := by
      intro he v1 h1 x hx
      rcases List.mem_cons.mp hx with hx | hx
      · rw [hx]; exact he
      · exact ih _ _ _ _ h1 x hx
    unfold scan at h
    rcases iteration_cases K method cmp e pre.length v with
      ⟨_, hit⟩ | ⟨he, _, hit⟩ | ⟨x, _, _, _, _, hit⟩ | ⟨h1, h2, h3, h4, hit⟩ |
      ⟨x, he, _, _, _, _, hit⟩ | ⟨x, _, _, _, _, _, hit⟩ | ⟨he, _, _, _, hit⟩ |
      ⟨_, _, _, _, hit⟩ <;> rw [hit] at h <;> simp only at h
    · simp at h
    · exact hstep he _ h
    · simp at h
    · simp at h
    · exact hstep he _ h
    · simp at h
    · exact hstep he _ h
    · simp at h

theorem getElem?_length_append {α : Type} (a : List α) (e : α) (b : List α) :
    (a ++ e :: b)[a.length]? = some e := by
  induction a with
  | nil => simp
  | cons y a ih => simpa using ih

theorem set_length_append {α : Type} (a : List α) (e x : α) (b : List α) :
    (a ++ e :: b).set a.length x = a ++ x :: b := by
  induction a with
  | nil => simp
  | cons y a ih => simp [ih]

/-- The three ways `findExpectationFunc` can end, for every queue and every
comparison: it does not return; or it returns nil and an error and leaves the
mock as it is; or it returns an unfulfilled record of the requested kind whose
mutex was free and which the comparison accepts, and the only change to the mock
is `fulfill` on that record. -/
theorem findExpectationFunc_cases (c : memcachemock) (K : Kind) (method : String)
    (cmp : Expectation → Exec (Option Error)) :
    (∃ c1 x, findExpectationFunc c K method cmp = (c1, .abort x)) ∨
    (∃ err, findExpectationFunc c K method cmp = (c, .ret (none, some err))) ∨
    (∃ i e, c.expectations[i]? = some e ∧ e.mu = false ∧ e.fulfilled = false ∧
      e.kind = K ∧ cmp e.held = .ret none ∧
      findExpectationFunc c K method cmp =
        (⟨c.expectations.set i e.fulfill⟩, .ret (some i, none))) := by
  obtain ⟨q0⟩ := c
  unfold findExpectationFunc
  cases hs : scan K method cmp [] q0 {} with
  | «return» q r =>
    obtain ⟨hq, err, hr⟩ := scan_inv_return K method cmp _ _ _ _ _ hs
    simp only [List.nil_append] at hq
    subst hq hr
    exact Or.inr (Or.inl ⟨err, rfl⟩)
  | abort q x => exact Or.inl ⟨⟨q⟩, x, rfl⟩
  | «break» q w =>
    obtain ⟨a, e, b, hq0, hmu, hunf, hkind, hacc, hq, hexp⟩ :=
      scan_inv_break K method cmp _ _ _ _ _ hs
    simp only [List.nil_append, List.length_nil, Nat.zero_add] at hq hexp
    subst hq0 hq
    refine Or.inr (Or.inr ⟨a.length, e, getElem?_length_append a e b, hmu, hunf, hkind,
      hacc, ?_⟩)
    simp only [afterLoop, hexp, List.get?_eq_getElem?]
    have hget : (a ++ e.held :: b)[a.length]? = some e.held :=
      getElem?_length_append a e.held b
    simp only [hget, fulfill_held_Unlock hmu, set_length_append]
  | done q w =>
    obtain ⟨hq, -⟩ := scan_done K method cmp _ _ _ _ _ hs
    have hidle := scan_done_idle K method cmp _ _ _ _ _ hs
    simp only [List.nil_append] at hq
    subst hq
    cases hexp : w.expected with
    | none =>
      exact Or.inr (Or.inl ⟨.notExpected (decide (w.fulfilled = q.length)) method,
        by simp [afterLoop, hexp]⟩)
    | some j =>
      refine Or.inl ?_
      simp only [afterLoop, hexp, List.get?_eq_getElem?]
      cases hget : q[j]? with
      | none => exact ⟨_, _, rfl⟩
      | some x =>
        have hmu : x.fulfill.mu = false := hidle x (List.getElem?_mem hget)
        simp only [Unlock_of_free hmu]
        exact ⟨_, _, rfl⟩

/-- When `findExpectationFunc` returns a record, for every queue and every
comparison: the record was unfulfilled, of the requested kind, with a free mutex,
accepted by the comparison, and the only change to the mock is `fulfill` on it. -/
theorem findExpectationFunc_selected (c c1 : memcachemock) (K : Kind) (method : String)
    (cmp : Expectation → Exec (Option Error)) (i : Nat) (err : Option Error)
    (h : findExpectationFunc c K method cmp = (c1, .ret (some i, err))) :
    err = none ∧ ∃ e, c.expectations[i]? = some e ∧ e.mu = false ∧ e.fulfilled = false ∧
      e.kind = K ∧ cmp e.held = .ret none ∧ c1 = ⟨c.expectations.set i e.fulfill⟩ := by
  rcases findExpectationFunc_cases c K method cmp with
    ⟨c2, x, h1⟩ | ⟨er, h1⟩ | ⟨j, e, h1, h2, h3, h4, h5, h6⟩
  · rw [h1] at h; simp at h
  · rw [h1] at h; simp at h
  · rw [h6] at h
    simp only [Prod.mk.injEq, Exec.ret.injEq, Option.some.injEq] at h
    obtain ⟨hc, hj, he⟩ := h
    subst hj
    exact ⟨he.symm, e, h1, h2, h3, h4, h5, hc.symm⟩

/-- When `findExpectationFunc` returns an error, for every queue and every
comparison: it returns a nil record and leaves the mock as it is. -/
theorem findExpectationFunc_failed (c c1 : memcachemock) (K : Kind) (method : String)
    (cmp : Expectation → Exec (Option Error)) (ex : Option Nat) (err : Error)
    (h : findExpectationFunc c K method cmp = (c1, .ret (ex, some err))) :
    ex = none ∧ c1 = c := by
  rcases findExpectationFunc_cases c K method cmp with
    ⟨c2, x, h1⟩ | ⟨er, h1⟩ | ⟨j, e, h1, h2, h3, h4, h5, h6⟩
  · rw [h1] at h; simp at h
  · rw [h1] at h
    simp only [Prod.mk.injEq, Exec.ret.injEq, Option.some.injEq] at h
    exact ⟨h.2.1.symm, h.1.symm⟩
  · rw [h6] at h; simp at h

/-- `findExpectationFunc` never returns nil for both the record and the error. -/
theorem findExpectationFunc_not_nil_nil (c c1 : memcachemock) (K : Kind) (method : String)
    (cmp : Expectation → Exec (Option Error)) :
    findExpectationFunc c K method cmp ≠ (c1, .ret (none, none)) := by
  intro h
  rcases findExpectationFunc_cases c K method cmp with
    ⟨c2, x, h1⟩ | ⟨er, h1⟩ | ⟨j, e, h1, h2, h3, h4, h5, h6⟩
  · rw [h1] at h; simp at h
  · rw [h1] at h; simp at h
  · rw [h6] at h; simp at h

/-! ## The mocked client methods in terms of their lookup -/

/-- When the lookup does not return, neither does the method. -/
theorem invoke_abort (c c1 : memcachemock) (call : Call) (x : Abnormal)
    (h : call.lookup c = (c1, .abort x)) :
    c.invoke call = (c1, .abort x) := by
  cases call <;>
    simp only [Call.lookup, Call.kind, Call.method, Call.cmp] at h <;>
    simp [memcachemock.invoke, memcachemock.Add, memcachemock.Append, memcachemock.Close,
      memcachemock.CompareAndSwap, memcachemock.Decrement, memcachemock.Delete,
      memcachemock.DeleteAll, memcachemock.FlushAll, memcachemock.Get, memcachemock.GetMulti,
      memcachemock.Increment, memcachemock.Ping, memcachemock.Prepend, memcachemock.Replace,
      memcachemock.Set, memcachemock.Touch, findExpectation, h, returnError, noPayload,
      withPayload]

/-- When the lookup returns an error, the method returns that error and its zero
payload. -/
theorem invoke_failed (c c1 : memcachemock) (call : Call) (ex : Option Nat) (err : Error)
    (h : call.lookup c = (c1, .ret (ex, some err))) :
    c.invoke call = (c1, .ret (call.zero, some err)) := by
  cases call <;>
    simp only [Call.lookup, Call.kind, Call.method, Call.cmp] at h <;>
    simp [memcachemock.invoke, memcachemock.Add, memcachemock.Append, memcachemock.Close,
      memcachemock.CompareAndSwap, memcachemock.Decrement, memcachemock.Delete,
      memcachemock.DeleteAll, memcachemock.FlushAll, memcachemock.Get, memcachemock.GetMulti,
      memcachemock.Increment, memcachemock.Ping, memcachemock.Prepend, memcachemock.Replace,
      memcachemock.Set, memcachemock.Touch, findExpectation, h, returnError, noPayload,
      withPayload, Call.zero]

/-- When the lookup returns the record `e` and no error, the method returns the
payload and the configured error stored on `e`. -/
theorem invoke_selected (c c1 : memcachemock) (call : Call) (ex : Option Nat)
    (e : Expectation) (h : call.lookup c = (c1, .ret (ex, none)))
    (he : c1.deref ex = some e) :
    c.invoke call = (c1, .ret (call.payload e, e.error)) := by
  cases call <;>
    simp only [Call.lookup, Call.kind, Call.method, Call.cmp] at h <;>
    simp [memcachemock.invoke, memcachemock.Add, memcachemock.Append, memcachemock.Close,
      memcachemock.CompareAndSwap, memcachemock.Decrement, memcachemock.Delete,
      memcachemock.DeleteAll, memcachemock.FlushAll, memcachemock.Get, memcachemock.GetMulti,
      memcachemock.Increment, memcachemock.Ping, memcachemock.Prepend, memcachemock.Replace,
      memcachemock.Set, memcachemock.Touch, findExpectation, h, he, returnError, noPayload,
      withPayload, Call.payload]

/-- Every method leaves the mock in the state in which its lookup leaves it. -/
theorem invoke_fst (c : memcachemock) (call : Call) :
    (c.invoke call).1 = (call.lookup c).1 := by
  rcases hl : call.lookup c with ⟨c1, ⟨ex, err⟩ | x⟩
  · cases err with
    | some err => rw [invoke_failed c c1 call ex err hl]
    | none =>
      cases hd : c1.deref ex with
      | some e => rw [invoke_selected c c1 call ex e hl hd]
      | none =>
        rcases findExpectationFunc_cases c call.kind call.method call.cmp with
          ⟨c2, x, h1⟩ | ⟨er, h1⟩ | ⟨j, e, h1, h2, h3, h4, h5, h6⟩
        · simp [Call.lookup, h1] at hl
        · simp [Call.lookup, h1] at hl
        · simp only [Call.lookup, h6, Prod.mk.injEq, Exec.ret.injEq] at hl
          obtain ⟨rfl, rfl, -⟩ := hl
          have hj : j < c.expectations.length := (List.getElem?_eq_some_iff.mp h1).1
          simp [memcachemock.deref, List.getElem?_set, hj] at hd
  · rw [invoke_abort c c1 call x hl]

/-! ## Calls that meet only fulfilled records before their own -/

/-- The loop passes over a stretch of fulfilled records with free mutexes and
counts them, for every comparison. -/
theorem scan_fulfilled_stretch (K : Kind) (method : String)
    (cmp : Expectation → Exec (Option Error)) :
    ∀ (a pre rest : List Expectation) (v : Locals), idle a →
      (∀ p ∈ a, p.fulfilled = true) →
      scan K method cmp pre (a ++ rest) v =
        scan K method cmp (pre ++ a) rest { v with fulfilled := v.fulfilled + a.length } := by
  intro a
  induction a with
  | nil => intro pre rest v _ _; simp
  | cons p a ih =>
    intro pre rest v hidle hful
    have hp : p.mu = false := hidle p (List.mem_cons_self _ _)
    have hpf : p.fulfilled = true := hful p (List.mem_cons_self _ _)
    have hidle1 : idle a := fun x hx => hidle x (List.mem_cons_of_mem _ hx)
    have hful1 : ∀ x ∈ a, x.fulfilled = true := fun x hx => hful x (List.mem_cons_of_mem _ hx)
    rw [List.cons_append]
    conv_lhs => unfold scan
    rw [iteration_fulfilled K method cmp _ _ hp hpf]
    simp only
    rw [ih (pre ++ [p]) rest _ hidle1 hful1]
    have h1 : pre ++ [p] ++ a = pre ++ p :: a := by simp
    have h2 : v.fulfilled + 1 + a.length = v.fulfilled + (p :: a).length := by
      simp only [List.length_cons]; omega
    rw [h1, h2]

/-- A call whose record is the first unfulfilled one and accepts the call
returns that record; the only change to the mock is `fulfill` on it. This holds
for every comparison. -/
theorem findExpectationFunc_next_accept (K : Kind) (method : String)
    (cmp : Expectation → Exec (Option Error)) (a : List Expectation) (e : Expectation)
    (rest : List Expectation) (hidle : idle a) (hful : ∀ p ∈ a, p.fulfilled = true)
    (hmu : e.mu = false) (hunf : e.fulfilled = false) (hkind : e.kind = K)
    (hacc : cmp e.held = .ret none) :
    findExpectationFunc ⟨a ++ e :: rest⟩ K method cmp =
      (⟨a ++ e.fulfill :: rest⟩, .ret (some a.length, none)) := by
  unfold findExpectationFunc
  simp only
  rw [scan_fulfilled_stretch K method cmp a [] (e :: rest) _ hidle hful]
  unfold scan
  rw [iteration_accept K method cmp _ _ hmu hunf hkind hacc]
  simp only [List.nil_append, afterLoop, List.get?_eq_getElem?,
    getElem?_length_append, fulfill_held_Unlock hmu, set_length_append]

/-- A call that is rejected by the first unfulfilled record, a required record of
its kind, returns the reason of the rejection and changes nothing. This holds for
every comparison. -/
theorem findExpectationFunc_next_reject (K : Kind) (method : String)
    (cmp : Expectation → Exec (Option Error)) (a : List Expectation) (e : Expectation)
    (rest : List Expectation) (r : Error) (hidle : idle a)
    (hful : ∀ p ∈ a, p.fulfilled = true)
    (hmu : e.mu = false) (hunf : e.fulfilled = false) (hkind : e.kind = K)
    (hreq : e.optional = false) (hrej : cmp e.held = .ret (some r)) :
    findExpectationFunc ⟨a ++ e :: rest⟩ K method cmp =
      (⟨a ++ e :: rest⟩, .ret (none, some r)) := by
  unfold findExpectationFunc
  simp only
  rw [scan_fulfilled_stretch K method cmp a [] (e :: rest) _ hidle hful]
  unfold scan
  rw [iteration_reject_required K method cmp _ _ hmu hunf hkind hrej hreq]
  simp only [List.nil_append]

/-! ## In-order replay -/

theorem fulfilled_eq_decide (e : commonExpectation) :
    e.fulfilled = decide (max 1 e.plannedCalls ≤ e.triggered) := by
  simp only [commonExpectation.fulfilled, ge_iff_le]
  split_ifs with h
  · rw [max_eq_right (by omega)]
  · rw [max_eq_left (by omega)]

/-- The comparison of a call reads only the fields of the concrete type of the
record, not the embedded `commonExpectation`. -/
theorem Call.cmp_typ (call : Call) (e e1 : Expectation) (h : e.typ = e1.typ) :
    call.cmp e = call.cmp e1 := by
  cases call <;>
    simp only [Call.cmp, itemCmp, keyCmp, keyDeltaCmp, keysCmp, keySecondsCmp,
      Expectation.itemBased, Expectation.keyBased, Expectation.keysBased,
      Expectation.deltaBased, Expectation.secondsBased, h]

/-- The calls for one record, replayed in a row while the record is unfulfilled,
all return that record and count up its triggered count. -/
theorem replayRecord_spec (call : Call) (a : List Expectation) (r : Expectation)
    (rest : List Expectation) (hidle : idle a) (hful : ∀ p ∈ a, p.fulfilled = true)
    (hmu : r.mu = false) (hrange : r.plannedCalls < uintSize)
    (hkind : call.kind = r.kind) (hacc : call.cmp r.held = .ret none) :
    ∀ (n k : Nat), k + n ≤ max 1 r.plannedCalls →
      replayRecord call n ⟨a ++ { r with triggered := k } :: rest⟩ =
        (⟨a ++ { r with triggered := k + n } :: rest⟩,
          List.replicate n (.ret (some a.length, none))) := by
  intro n
  induction n with
  | zero => intro k _; simp [replayRecord]
  | succ n ih =>
    intro k hk
    have hunf : ({ r with triggered := k } : Expectation).fulfilled = false := by
      rw [fulfilled_eq_decide, decide_eq_false_iff_not]
      show ¬ max 1 r.plannedCalls ≤ k
      omega
    have hacc1 : call.cmp ({ r with triggered := k } : Expectation).held = .ret none := by
      rw [← hacc]
      exact Call.cmp_typ call _ _ rfl
    have hstep := findExpectationFunc_next_accept call.kind call.method call.cmp a
      { r with triggered := k } rest hidle hful hmu hunf hkind.symm hacc1
    have hf := fulfill_of_unfulfilled ({ r with triggered := k } : Expectation) hrange hunf
    rw [hf] at hstep
    have hnext := ih (k + 1) (by omega)
    have hk1 : k + 1 + n = k + (n + 1) := by omega
    rw [hk1] at hnext
    simp only [replayRecord, Call.lookup, hstep, hnext, List.replicate_succ]

/-- The in-order replay from a state in which the records `a` already replayed are
fulfilled and the records `todo` are fresh. -/
theorem replay_spec (calls : Nat → Call) :
    ∀ (todo a : List Expectation), idle a → (∀ p ∈ a, p.fulfilled = true) →
      idle todo → (∀ r ∈ todo, r.triggered = 0) → (∀ r ∈ todo, r.plannedCalls < uintSize) →
      (∀ k r, todo[k]? = some r →
        (calls (a.length + k)).kind = r.kind ∧
        (calls (a.length + k)).cmp r.held = .ret none) →
      replay calls a.length todo ⟨a ++ todo⟩ =
        (⟨a ++ todo.map (fun r => { r with triggered := max 1 r.plannedCalls })⟩,
          (todo.enumFrom a.length).flatMap
            (fun jr => List.replicate (max 1 jr.2.plannedCalls) (.ret (some jr.1, none)))) := by
  intro todo
  induction todo with
  | nil => intro a _ _ _ _ _ _; simp [replay]
  | cons r todo ih =>
    intro a hidle hful hidle1 hfresh hrange hcalls
    have hr0 : r.triggered = 0 := hfresh r (List.mem_cons_self _ _)
    have hrmu : r.mu = false := hidle1 r (List.mem_cons_self _ _)
    have hreta : ({ r with triggered := 0 } : Expectation) = r := by
      obtain ⟨⟨t, er, o, pl, m⟩, ty⟩ := r
      simp only at hr0
      subst hr0
      rfl
    obtain ⟨hk, hc⟩ := hcalls 0 r (by simp)
    simp only [Nat.add_zero] at hk hc
    have hone := replayRecord_spec (calls a.length) a r todo hidle hful hrmu
      (hrange r (List.mem_cons_self _ _)) hk hc (max 1 r.plannedCalls) 0 (by omega)
    rw [hreta, Nat.zero_add] at hone
    have hdone : ({ r with triggered := max 1 r.plannedCalls } : Expectation).fulfilled
        = true := by
      rw [fulfilled_eq_decide, decide_eq_true_iff]
    have hidle2 : idle (a ++ [{ r with triggered := max 1 r.plannedCalls }]) := by
      intro x hx
      rcases List.mem_append.mp hx with hx | hx
      · exact hidle x hx
      · rw [List.mem_singleton.mp hx]; exact hrmu
    have hful2 : ∀ p ∈ a ++ [{ r with triggered := max 1 r.plannedCalls }],
        p.fulfilled = true := by
      intro x hx
      rcases List.mem_append.mp hx with hx | hx
      · exact hful x hx
      · rw [List.mem_singleton.mp hx]; exact hdone
    have hnext := ih (a ++ [{ r with triggered := max 1 r.plannedCalls }]) hidle2 hful2
      (fun x hx => hidle1 x (List.mem_cons_of_mem _ hx))
      (fun x hx => hfresh x (List.mem_cons_of_mem _ hx))
      (fun x hx => hrange x (List.mem_cons_of_mem _ hx))
      (by
        intro k x hx
        have := hcalls (k + 1) x (by simpa using hx)
        have hlen : (a ++ [{ r with triggered := max 1 r.plannedCalls }]).length + k
            = a.length + (k + 1) := by simp; omega
        rw [hlen]
        exact this)
    have hlen1 : (a ++ [{ r with triggered := max 1 r.plannedCalls }]).length
        = a.length + 1 := by simp
    have happ : a ++ [{ r with triggered := max 1 r.plannedCalls }] ++ todo
        = a ++ { r with triggered := max 1 r.plannedCalls } :: todo := by simp
    rw [hlen1, happ] at hnext
    simp only [replay, hone, hnext, List.map_cons, List.enumFrom_cons, List.flatMap_cons,
      List.append_assoc, List.singleton_append]

/-! ## Payloads and errors of the methods -/

/-- The payload that a method reads from a record depends only on the fields of
the concrete type of the record. -/
theorem Call.payload_typ (call : Call) (e e1 : Expectation) (h : e.typ = e1.typ) :
    call.payload e = call.payload e1 := by
  cases call <;>
    simp only [Call.payload, Expectation.item, Expectation.items, Expectation.value, h]

theorem itemCmp_eq (item : Option Item) (e : Expectation) :
    itemCmp item e = e.itemBased.itemMatches item := by
  unfold itemCmp
  rcases e.itemBased.itemMatches item with (_ | _) | _ <;> rfl

theorem keyCmp_eq (key : String) (e : Expectation) :
    keyCmp key e = .ret (e.keyBased.keyMatches key) := by
  unfold keyCmp
  cases e.keyBased.keyMatches key <;> rfl

theorem keysCmp_eq (keys : Option (List String)) (e : Expectation) :
    keysCmp keys e = .ret (e.keysBased.keysMatch keys) := by
  unfold keysCmp
  cases e.keysBased.keysMatch keys <;> rfl

theorem keyDeltaCmp_eq (key : String) (delta : Nat) (e : Expectation) :
    keyDeltaCmp key delta e =
      .ret ((e.keyBased.keyMatches key).or (e.deltaBased.deltaMatches delta)) := by
  unfold keyDeltaCmp
  cases e.keyBased.keyMatches key <;> cases e.deltaBased.deltaMatches delta <;> rfl

theorem keySecondsCmp_eq (key : String) (seconds : Int) (e : Expectation) :
    keySecondsCmp key seconds e =
      .ret ((e.keyBased.keyMatches key).or (e.secondsBased.secondsMatch seconds)) := by
  unfold keySecondsCmp
  cases e.keyBased.keyMatches key <;> cases e.secondsBased.secondsMatch seconds <;> rfl

theorem itemMatches_not_configured (e : itemBasedExpectation) (item : Option Item)
    (m : Error) (h : e.itemMatches item = .ret (some m)) (E : String) :
    m ≠ .configured E := by
  intro hm
  subst hm
  unfold itemBasedExpectation.itemMatches at h
  rcases he : e.expectedItem with _ | x <;> rcases item with _ | y <;>
    simp only [he] at h
  · simp at h
  · simp at h
  · simp at h
  · split_ifs at h <;> simp at h

theorem keyMatches_not_configured (e : keyBasedExpectation) (key : String) (m : Error)
    (h : e.keyMatches key = some m) (E : String) : m ≠ .configured E := by
  intro hm
  subst hm
  unfold keyBasedExpectation.keyMatches at h
  split_ifs at h
  simp at h

theorem keysMatch_not_configured (e : keysBasedExpectation) (keys : Option (List String))
    (m : Error) (h : e.keysMatch keys = some m) (E : String) : m ≠ .configured E := by
  intro hm
  subst hm
  unfold keysBasedExpectation.keysMatch at h
  split_ifs at h <;> simp at h

theorem deltaMatches_not_configured (e : deltaBasedExpectation) (delta : Nat) (m : Error)
    (h : e.deltaMatches delta = some m) (E : String) : m ≠ .configured E := by
  intro hm
  subst hm
  unfold deltaBasedExpectation.deltaMatches at h
  split_ifs at h
  simp at h

theorem secondsMatch_not_configured (e : secondsBasedExpectation) (seconds : Int)
    (m : Error) (h : e.secondsMatch seconds = some m) (E : String) : m ≠ .configured E := by
  intro hm
  subst hm
  unfold secondsBasedExpectation.secondsMatch at h
  split_ifs at h
  simp at h

theorem or_not_configured (a b : Option Error) (m : Error) (h : a.or b = some m)
    (ha : ∀ E, a = some m → m ≠ .configured E) (hb : ∀ E, b = some m → m ≠ .configured E)
    (E : String) : m ≠ .configured E := by
  cases a with
  | some x => exact ha E (by simpa using h)
  | none => exact hb E (by simpa using h)

/-- The error with which a comparison of a method rejects a record is never a
configured error. -/
theorem Call.cmp_not_configured (call : Call) (e : Expectation) (m : Error)
    (h : call.cmp e = .ret (some m)) (E : String) : m ≠ .configured E := by
  cases call <;> simp only [Call.cmp, itemCmp_eq, keyCmp_eq, keysCmp_eq, keyDeltaCmp_eq,
    keySecondsCmp_eq, Exec.ret.injEq] at h
  case Close => simp at h
  case DeleteAll => simp at h
  case FlushAll => simp at h
  case Ping => simp at h
  case Add => exact itemMatches_not_configured _ _ m h E
  case Append => exact itemMatches_not_configured _ _ m h E
  case CompareAndSwap => exact itemMatches_not_configured _ _ m h E
  case Prepend => exact itemMatches_not_configured _ _ m h E
  case Replace => exact itemMatches_not_configured _ _ m h E
  case Set => exact itemMatches_not_configured _ _ m h E
  case Delete => exact keyMatches_not_configured _ _ m h E
  case Get => exact keyMatches_not_configured _ _ m h E
  case GetMulti => exact keysMatch_not_configured _ _ m h E
  case Decrement =>
    exact or_not_configured _ _ m h (fun E h1 => keyMatches_not_configured _ _ m h1 E)
      (fun E h1 => deltaMatches_not_configured _ _ m h1 E) E
  case Increment =>
    exact or_not_configured _ _ m h (fun E h1 => keyMatches_not_configured _ _ m h1 E)
      (fun E h1 => deltaMatches_not_configured _ _ m h1 E) E
  case Touch =>
    exact or_not_configured _ _ m h (fun E h1 => keyMatches_not_configured _ _ m h1 E)
      (fun E h1 => secondsMatch_not_configured _ _ m h1 E) E

theorem invoke_Get (c c1 : memcachemock) (key : String) (it : Option Item)
    (err : Option Error) (h : c.invoke (.Get key) = (c1, .ret (.item it, err))) :
    c.Get key = (c1, .ret (it, err)) := by
  simp only [memcachemock.invoke, withPayload] at h
  rcases hg : c.Get key with ⟨c2, ⟨a, er⟩ | x⟩ <;> simp_all

theorem invoke_GetMulti (c c1 : memcachemock) (keys : Option (List String))
    (its : Option (List (String × Option Item))) (err : Option Error)
    (h : c.invoke (.GetMulti keys) = (c1, .ret (.items its, err))) :
    c.GetMulti keys = (c1, .ret (its, err)) := by
  simp only [memcachemock.invoke, withPayload] at h
  rcases hg : c.GetMulti keys with ⟨c2, ⟨a, er⟩ | x⟩ <;> simp_all

theorem invoke_Increment (c c1 : memcachemock) (key : String) (delta n : Nat)
    (err : Option Error) (h : c.invoke (.Increment key delta) = (c1, .ret (.value n, err))) :
    c.Increment key delta = (c1, .ret (n, err)) := by
  simp only [memcachemock.invoke, withPayload] at h
  rcases hg : c.Increment key delta with ⟨c2, ⟨a, er⟩ | x⟩ <;> simp_all

theorem invoke_Decrement (c c1 : memcachemock) (key : String) (delta n : Nat)
    (err : Option Error) (h : c.invoke (.Decrement key delta) = (c1, .ret (.value n, err))) :
    c.Decrement key delta = (c1, .ret (n, err)) := by
  simp only [memcachemock.invoke, withPayload] at h
  rcases hg : c.Decrement key delta with ⟨c2, ⟨a, er⟩ | x⟩ <;> simp_all

/-! ## Claims on replay, configured errors and payloads -/

/-- The claim C11: let the queue be idle and fresh, with planned counts that are
`uint` values, and let the call chosen for each record be of the kind of that
record and accepted by its matcher. Then replaying the records in registration
order, `max(1, plannedCalls)` calls for each, makes every lookup return the
record it is meant for and no error; afterwards every record has exactly
`max(1, plannedCalls)` triggers and `ExpectationsWereMet` returns no error. -/
theorem replay_in_order (q : List Expectation) (calls : Nat → Call)
    (hidle : idle q) (hfresh : ∀ r ∈ q, r.triggered = 0)
    (hrange : ∀ r ∈ q, r.plannedCalls < uintSize)
    (hcalls : ∀ j r, q[j]? = some r →
      (calls j).kind = r.kind ∧ (calls j).cmp r.held = .ret none) :
    (replay calls 0 q ⟨q⟩).2 =
      (q.enumFrom 0).flatMap
        (fun jr => List.replicate (max 1 jr.2.plannedCalls) (.ret (some jr.1, none))) ∧
    (replay calls 0 q ⟨q⟩).1 =
      ⟨q.map (fun r => { r with triggered := max 1 r.plannedCalls })⟩ ∧
    (replay calls 0 q ⟨q⟩).1.ExpectationsWereMet.2 = none := by
  have h := replay_spec calls q [] (fun x hx => by simp at hx) (fun x hx => by simp at hx)
    hidle hfresh hrange (by simpa using hcalls)
  simp only [List.length_nil, List.nil_append] at h
  rw [h]
  refine ⟨rfl, rfl, ?_⟩
  show ExpectationsWereMet.loop _ = none
  rw [ExpectationsWereMet_loop_none]
  intro e he
  obtain ⟨r, -, rfl⟩ := List.mem_map.mp he
  left
  rw [fulfilled_eq_decide, decide_eq_true_iff]

/-- A run of the claim C11: `ExpectSet().WithItem(fooItem)`, then
`ExpectGet().WithKey("foo").WillReturnItem(fooItem)`, replayed by `Set(fooItem)`
and `Get("foo")`. -/
theorem replay_in_order_witness :
    (replay fooCalls 0 fooQueue ⟨fooQueue⟩).2 =
      (fooQueue.enumFrom 0).flatMap
        (fun jr => List.replicate (max 1 jr.2.plannedCalls) (.ret (some jr.1, none))) ∧
    (replay fooCalls 0 fooQueue ⟨fooQueue⟩).1 =
      ⟨fooQueue.map (fun r => { r with triggered := max 1 r.plannedCalls })⟩ ∧
    (replay fooCalls 0 fooQueue ⟨fooQueue⟩).1.ExpectationsWereMet.2 = none :=
  replay_in_order fooQueue fooCalls (by decide) (by decide) (by decide)
    (by
      intro j r hj
      cases j with
      | zero =>
        simp only [fooQueue, List.getElem?_cons_zero, Option.some.injEq] at hj
        subst hj
        decide
      | succ j =>
        cases j with
        | zero =>
          simp only [fooQueue, List.getElem?_cons_succ, List.getElem?_cons_zero,
            Option.some.injEq] at hj
          subst hj
          decide
        | succ j => simp [fooQueue] at hj)

/-- The claim C12: for every call of every method, when the lookup selects a record
on which the error `E` is configured, the method returns exactly `E` (together
with the payload stored on the record), and the only change to the mock is that
the triggered count of that record is one higher. -/
theorem forced_error_returned (c c1 : memcachemock) (call : Call) (i : Nat)
    (e : Expectation) (E : String)
    (hi : c.expectations[i]? = some e) (herr : e.err = some E)
    (hrange : e.plannedCalls < uintSize)
    (hsel : call.lookup c = (c1, .ret (some i, none))) :
    c.invoke call = (c1, .ret (call.payload e, some (.configured E))) ∧
    c1.expectations = c.expectations.set i { e with triggered := e.triggered + 1 } := by
  obtain ⟨-, x, hx, -, hunf, -, -, hc1⟩ :=
    findExpectationFunc_selected c c1 call.kind call.method call.cmp i none hsel
  rw [hi, Option.some.injEq] at hx
  subst hx
  have hlt : i < c.expectations.length := (List.getElem?_eq_some_iff.mp hi).1
  have hd : c1.deref (some i) = some e.fulfill := by
    simp [memcachemock.deref, hc1, List.getElem?_set, hlt]
  have hinv := invoke_selected c c1 call (some i) e.fulfill hsel hd
  have hp : call.payload e.fulfill = call.payload e := Call.payload_typ call _ _ rfl
  have he : e.fulfill.error = some (.configured E) := by
    show e.err.map Error.configured = _
    rw [herr]
    rfl
  rw [hp, he] at hinv
  refine ⟨hinv, ?_⟩
  rw [hc1, fulfill_of_unfulfilled e hrange hunf]

/-- A run of the claim C12: `ExpectPing().WillReturnError(ErrServerError)`, then
`Ping()`. -/
theorem forced_error_returned_witness :
    memcachemock.invoke ⟨[{ err := some "memcache: server error", typ := .Ping }]⟩ .Ping =
      (⟨[{ err := some "memcache: server error", triggered := 1, typ := .Ping }]⟩,
        .ret (Call.Ping.payload { err := some "memcache: server error", typ := .Ping },
          some (.configured "memcache: server error"))) ∧
    (⟨[{ err := some "memcache: server error", triggered := 1, typ := .Ping }]⟩ :
        memcachemock).expectations =
      [({ err := some "memcache: server error", typ := .Ping } : Expectation)].set 0
        { ({ err := some "memcache: server error", typ := .Ping } : Expectation) with
          triggered :=
            ({ err := some "memcache: server error", typ := .Ping } : Expectation).triggered
              + 1 } :=
  forced_error_returned ⟨[{ err := some "memcache: server error", typ := .Ping }]⟩
    ⟨[{ err := some "memcache: server error", triggered := 1, typ := .Ping }]⟩ .Ping 0
    { err := some "memcache: server error", typ := .Ping } "memcache: server error"
    (by decide) (by decide) (by decide) (by decide)

/-- The claim C13: on an idle queue, let record `i` be the first unfulfilled
record, required, of the kind of the call, with the error `E` configured, and let
the comparison of the call reject it with the reason `m`. Then the method returns
its zero payload and `m`, which is not the configured error of the record, and
leaves the mock as it is, so the triggered count of the record is unchanged. -/
theorem mismatch_before_forced_error (c : memcachemock) (call : Call) (i : Nat)
    (r : Expectation) (E : String) (m : Error)
    (hidle : idle c.expectations)
    (hi : c.expectations[i]? = some r)
    (hfirst : ∀ j p, j < i → c.expectations[j]? = some p → p.fulfilled = true)
    (hunf : r.fulfilled = false) (hreq : r.optional = false) (hkind : r.kind = call.kind)
    (herr : r.err = some E) (hrej : call.cmp r.held = .ret (some m)) :
    c.invoke call = (c, .ret (call.zero, some m)) ∧ some m ≠ r.error := by
  obtain ⟨hq, hlen, hpre⟩ := split_at_index c.expectations i r hi
  have hful : ∀ p ∈ c.expectations.take i, p.fulfilled = true := by
    intro p hp
    obtain ⟨j, hj, hjp⟩ := hpre p hp
    exact hfirst j p hj hjp
  have hidle1 : idle (c.expectations.take i) :=
    fun p hp => hidle p (List.mem_of_mem_take hp)
  have hmu : r.mu = false := hidle r (List.getElem?_mem hi)
  have hfind := findExpectationFunc_next_reject call.kind call.method call.cmp
    (c.expectations.take i) r (c.expectations.drop (i + 1)) m hidle1 hful hmu hunf hkind
    hreq hrej
  rw [← hq] at hfind
  refine ⟨invoke_failed c c call none m hfind, ?_⟩
  have he : r.error = some (.configured E) := by
    show r.err.map Error.configured = _
    rw [herr]
    rfl
  rw [he]
  intro h
  exact Call.cmp_not_configured call r.held m hrej E (Option.some.inj h)

/-- A run of the claim C13: `ExpectGet().WithKey("a").WillReturnError(ErrServerError)`,
then `Get("b")`. -/
theorem mismatch_before_forced_error_witness :
    memcachemock.invoke
        ⟨[{ err := some "memcache: server error", typ := .Get ⟨"a"⟩ none }]⟩ (.Get "b") =
      (⟨[{ err := some "memcache: server error", typ := .Get ⟨"a"⟩ none }]⟩,
        .ret ((Call.Get "b").zero, some (.keyMismatch "a" "b"))) ∧
    some (Error.keyMismatch "a" "b") ≠
      ({ err := some "memcache: server error", typ := .Get ⟨"a"⟩ none } : Expectation).error :=
  mismatch_before_forced_error
    ⟨[{ err := some "memcache: server error", typ := .Get ⟨"a"⟩ none }]⟩ (.Get "b") 0
    { err := some "memcache: server error", typ := .Get ⟨"a"⟩ none }
    "memcache: server error" (.keyMismatch "a" "b")
    (by decide) (by decide) (by intro j p hj; omega) (by decide) (by decide) (by decide)
    (by decide) (by decide)

/-- The claim C14 fails as stated: after
`ExpectGet().WithKey("foo").WillReturnItem(fooItem)` with the error `ErrServerError`
configured on the same record, `Get("foo")` returns the item together with the
error, not a nil item. -/
theorem Get_returns_item_with_forced_error :
    memcachemock.Get
        ⟨[{ err := some "memcache: server error", typ := .Get ⟨"foo"⟩ (some fooItem) }]⟩
        "foo" =
      (⟨[{ err := some "memcache: server error", triggered := 1,
           typ := .Get ⟨"foo"⟩ (some fooItem) }]⟩,
        .ret (some fooItem, some (.configured "memcache: server error"))) := by
  decide

/-- The claim C14 as amended: whenever a method returns, either its lookup failed,
and then the result is the zero payload of the method (nil item, nil map, counter
0) together with the error of the lookup, and the mock is as it was; or its lookup
selected a record, and then the result is the payload stored on that record
together with the error configured on it, nil if none is configured. -/
theorem payload_and_error_of_result (c c1 : memcachemock) (call : Call) (p : Payload)
    (err : Option Error) (h : c.invoke call = (c1, .ret (p, err))) :
    (∃ lerr, call.lookup c = (c, .ret (none, some lerr)) ∧ c1 = c ∧ p = call.zero ∧
      err = some lerr) ∨
    (∃ i e, call.lookup c = (c1, .ret (some i, none)) ∧ c1.expectations[i]? = some e ∧
      p = call.payload e ∧ err = e.error) := by
  rcases findExpectationFunc_cases c call.kind call.method call.cmp with
    ⟨c2, x, h1⟩ | ⟨er, h1⟩ | ⟨j, e, h1, h2, h3, h4, h5, h6⟩
  · rw [invoke_abort c c2 call x h1] at h
    simp at h
  · rw [invoke_failed c c call none er h1] at h
    simp only [Prod.mk.injEq, Exec.ret.injEq] at h
    obtain ⟨hc, hp, he⟩ := h
    exact Or.inl ⟨er, h1, hc.symm, hp.symm, he.symm⟩
  · have hlt : j < c.expectations.length := (List.getElem?_eq_some_iff.mp h1).1
    have hget : (c.expectations.set j e.fulfill)[j]? = some e.fulfill := by
      simp [List.getElem?_set, hlt]
    have hd : memcachemock.deref ⟨c.expectations.set j e.fulfill⟩ (some j)
        = some e.fulfill := by
      simp [memcachemock.deref, hget]
    rw [invoke_selected c _ call (some j) e.fulfill h6 hd] at h
    simp only [Prod.mk.injEq, Exec.ret.injEq] at h
    obtain ⟨hc, hp, he⟩ := h
    subst hc
    exact Or.inr ⟨j, e.fulfill, h6, hget, hp.symm, he.symm⟩

/-- A run of the amended claim C14: the record has both an item and an error. -/
theorem payload_and_error_of_result_witness :
    (∃ lerr, (Call.Get "foo").lookup
          ⟨[{ err := some "memcache: server error", typ := .Get ⟨"foo"⟩ (some fooItem) }]⟩ =
        (⟨[{ err := some "memcache: server error", typ := .Get ⟨"foo"⟩ (some fooItem) }]⟩,
          .ret (none, some lerr)) ∧
      (⟨[{ err := some "memcache: server error", triggered := 1,
           typ := .Get ⟨"foo"⟩ (some fooItem) }]⟩ : memcachemock) =
        ⟨[{ err := some "memcache: server error", typ := .Get ⟨"foo"⟩ (some fooItem) }]⟩ ∧
      Payload.item (some fooItem) = (Call.Get "foo").zero ∧
      some (Error.configured "memcache: server error") = some lerr) ∨
    (∃ i e, (Call.Get "foo").lookup
          ⟨[{ err := some "memcache: server error", typ := .Get ⟨"foo"⟩ (some fooItem) }]⟩ =
        (⟨[{ err := some "memcache: server error", triggered := 1,
             typ := .Get ⟨"foo"⟩ (some fooItem) }]⟩, .ret (some i, none)) ∧
      (⟨[{ err := some "memcache: server error", triggered := 1,
           typ := .Get ⟨"foo"⟩ (some fooItem) }]⟩ : memcachemock).expectations[i]? = some e ∧
      Payload.item (some fooItem) = (Call.Get "foo").payload e ∧
      some (Error.configured "memcache: server error") = e.error) :=
  payload_and_error_of_result
    ⟨[{ err := some "memcache: server error", typ := .Get ⟨"foo"⟩ (some fooItem) }]⟩
    ⟨[{ err := some "memcache: server error", triggered := 1,
        typ := .Get ⟨"foo"⟩ (some fooItem) }]⟩
    (.Get "foo") (.item (some fooItem)) (some (.configured "memcache: server error"))
    (by decide)

/-- The claim C15: for every call, when the lookup selects a record on which no
error is configured, the method returns the payload stored on that record and no
error; for `Get`, `GetMulti`, `Increment` and `Decrement` that payload is the field
`item`, `items` or `value` of the record, which is what `WillReturnItem`,
`WillReturnItems` or `WillReturnValue` stored there, and the zero value on a record
as it was registered. -/
theorem stored_payload_returned (c c1 : memcachemock) (call : Call) (i : Nat)
    (e : Expectation) (hi : c.expectations[i]? = some e) (herr : e.err = none)
    (hsel : call.lookup c = (c1, .ret (some i, none))) :
    c.invoke call = (c1, .ret (call.payload e, none)) ∧
    (∀ key, call = .Get key → c.Get key = (c1, .ret (e.item, none))) ∧
    (∀ keys, call = .GetMulti keys → c.GetMulti keys = (c1, .ret (e.items, none))) ∧
    (∀ key delta, call = .Increment key delta →
      c.Increment key delta = (c1, .ret (e.value, none))) ∧
    (∀ key delta, call = .Decrement key delta →
      c.Decrement key delta = (c1, .ret (e.value, none))) ∧
    (∀ k it item, e.typ = .Get k it → (e.WillReturnItem item).item = item) ∧
    (∀ ks its items, e.typ = .GetMulti ks its → (e.WillReturnItems items).items = items) ∧
    (∀ k d v value, e.typ = .Increment k d v → (e.WillReturnValue value).value = value) ∧
    (∀ k d v value, e.typ = .Decrement k d v → (e.WillReturnValue value).value = value) ∧
    (({ typ := Expected.zero .Get } : Expectation).item = none ∧
      ({ typ := Expected.zero .GetMulti } : Expectation).items = none ∧
      ({ typ := Expected.zero .Increment } : Expectation).value = 0 ∧
      ({ typ := Expected.zero .Decrement } : Expectation).value = 0) := by
  obtain ⟨-, x, hx, -, -, -, -, hc1⟩ :=
    findExpectationFunc_selected c c1 call.kind call.method call.cmp i none hsel
  rw [hi, Option.some.injEq] at hx
  subst hx
  have hlt : i < c.expectations.length := (List.getElem?_eq_some_iff.mp hi).1
  have hd : c1.deref (some i) = some e.fulfill := by
    simp [memcachemock.deref, hc1, List.getElem?_set, hlt]
  have hinv := invoke_selected c c1 call (some i) e.fulfill hsel hd
  have hp : call.payload e.fulfill = call.payload e := Call.payload_typ call _ _ rfl
  have he : e.fulfill.error = none := by
    show e.err.map Error.configured = _
    rw [herr]
    rfl
  rw [hp, he] at hinv
  refine ⟨hinv, ?_, ?_, ?_, ?_, ?_, ?_, ?_, ?_, ⟨rfl, rfl, rfl, rfl⟩⟩
  · intro key hcall
    subst hcall
    exact invoke_Get c c1 key _ _ hinv
  · intro keys hcall
    subst hcall
    exact invoke_GetMulti c c1 keys _ _ hinv
  · intro key delta hcall
    subst hcall
    exact invoke_Increment c c1 key delta _ _ hinv
  · intro key delta hcall
    subst hcall
    exact invoke_Decrement c c1 key delta _ _ hinv
  · intro k it item ht
    simp [Expectation.WillReturnItem, Expectation.item, ht]
  · intro ks its items ht
    simp [Expectation.WillReturnItems, Expectation.items, ht]
  · intro k d v value ht
    simp [Expectation.WillReturnValue, Expectation.value, ht]
  · intro k d v value ht
    simp [Expectation.WillReturnValue, Expectation.value, ht]

/-- A run of the claim C15: `ExpectDecrement().WithKeyAndDelta("some-key", 10).
WillReturnValue(20)`, then `Decrement("some-key", 10)` returns 20 and no error. -/
theorem stored_payload_returned_witness :
    memcachemock.invoke ⟨[{ typ := .Decrement ⟨"some-key"⟩ ⟨10⟩ 20 }]⟩
        (.Decrement "some-key" 10) =
      (⟨[{ triggered := 1, typ := .Decrement ⟨"some-key"⟩ ⟨10⟩ 20 }]⟩,
        .ret (.value 20, none)) ∧
    memcachemock.Decrement ⟨[{ typ := .Decrement ⟨"some-key"⟩ ⟨10⟩ 20 }]⟩ "some-key" 10 =
      (⟨[{ triggered := 1, typ := .Decrement ⟨"some-key"⟩ ⟨10⟩ 20 }]⟩, .ret (20, none)) :=
  ⟨(stored_payload_returned ⟨[{ typ := .Decrement ⟨"some-key"⟩ ⟨10⟩ 20 }]⟩
      ⟨[{ triggered := 1, typ := .Decrement ⟨"some-key"⟩ ⟨10⟩ 20 }]⟩
      (.Decrement "some-key" 10) 0 { typ := .Decrement ⟨"some-key"⟩ ⟨10⟩ 20 }
      (by decide) (by decide) (by decide)).1,
    (stored_payload_returned ⟨[{ typ := .Decrement ⟨"some-key"⟩ ⟨10⟩ 20 }]⟩
      ⟨[{ triggered := 1, typ := .Decrement ⟨"some-key"⟩ ⟨10⟩ 20 }]⟩
      (.Decrement "some-key" 10) 0 { typ := .Decrement ⟨"some-key"⟩ ⟨10⟩ 20 }
      (by decide) (by decide) (by decide)).2.2.2.2.1 "some-key" 10 rfl⟩

/-- The claim C16: for every call, when the lookup returns an error, the method
returns that error unchanged together with its zero payload, and the mock is as
it was: `Get` returns a nil item, `GetMulti` a nil map, `Increment` and `Decrement`
the counter 0, whatever is stored on the records. -/
theorem lookup_error_propagates (c c1 : memcachemock) (call : Call) (ex : Option Nat)
    (err : Error) (h : call.lookup c = (c1, .ret (ex, some err))) :
    c.invoke call = (c, .ret (call.zero, some err)) ∧ c1 = c ∧
    (∀ key, call = .Get key → c.Get key = (c, .ret (none, some err))) ∧
    (∀ keys, call = .GetMulti keys → c.GetMulti keys = (c, .ret (none, some err))) ∧
    (∀ key delta, call = .Increment key delta →
      c.Increment key delta = (c, .ret (0, some err))) ∧
    (∀ key delta, call = .Decrement key delta →
      c.Decrement key delta = (c, .ret (0, some err))) := by
  obtain ⟨-, hc⟩ := findExpectationFunc_failed c c1 call.kind call.method call.cmp ex err h
  have hinv := invoke_failed c c1 call ex err h
  rw [hc] at hinv
  refine ⟨hinv, hc, ?_, ?_, ?_, ?_⟩
  · intro key hcall
    subst hcall
    exact invoke_Get c c key _ _ hinv
  · intro keys hcall
    subst hcall
    exact invoke_GetMulti c c keys _ _ hinv
  · intro key delta hcall
    subst hcall
    exact invoke_Increment c c key delta _ _ hinv
  · intro key delta hcall
    subst hcall
    exact invoke_Decrement c c key delta _ _ hinv

/-- A run of the claim C16: `ExpectDecrement().WithKeyAndDelta("some-key", 10).
WillReturnValue(20)`, then `Decrement("some-key", 15)` returns 0 and the mismatch. -/
theorem lookup_error_propagates_witness :
    memcachemock.Decrement ⟨[{ typ := .Decrement ⟨"some-key"⟩ ⟨10⟩ 20 }]⟩ "some-key" 15 =
      (⟨[{ typ := .Decrement ⟨"some-key"⟩ ⟨10⟩ 20 }]⟩,
        .ret (0, some (.deltaMismatch 10 15))) :=
  (lookup_error_propagates ⟨[{ typ := .Decrement ⟨"some-key"⟩ ⟨10⟩ 20 }]⟩
    ⟨[{ typ := .Decrement ⟨"some-key"⟩ ⟨10⟩ 20 }]⟩ (.Decrement "some-key" 15) none
    (.deltaMismatch 10 15) (by decide)).2.2.2.2.2 "some-key" 15 rfl

/-! ## Claims on the matchers -/

theorem itemMatches_some_some (expected actual : Item) :
    itemBasedExpectation.itemMatches ⟨some expected⟩ (some actual) =
      if actual.Key ≠ expected.Key then .ret (some (.itemKey expected.Key actual.Key))
      else if actual.Value ≠ expected.Value then
        .ret (some (.itemValue expected.Value actual.Value))
      else if actual.Flags ≠ expected.Flags then
        .ret (some (.itemFlags expected.Flags actual.Flags))
      else if actual.Expiration ≠ expected.Expiration then
        .ret (some (.itemExpiration expected.Expiration actual.Expiration))
      else if actual.CasID ≠ expected.CasID then
        .ret (some (.itemCasID expected.CasID actual.CasID))
      else .ret none := rfl

/-- The claim C17: `itemMatches` reports no discrepancy when the expected and the
actual item are both nil; for two items that are set it returns normally, and
reports no discrepancy exactly when key, value bytes, flags, expiration and CAS id
are all equal; so an item matches itself, and changing one of the five fields
gives the mismatch error of that field. -/
theorem itemMatches_iff_fields_equal :
    itemBasedExpectation.itemMatches ⟨none⟩ none = .ret none ∧
    (∀ expected actual : Item,
      (itemBasedExpectation.itemMatches ⟨some expected⟩ (some actual) = .ret none ↔
        actual.Key = expected.Key ∧ actual.Value = expected.Value ∧
        actual.Flags = expected.Flags ∧ actual.Expiration = expected.Expiration ∧
        actual.CasID = expected.CasID) ∧
      ∃ r, itemBasedExpectation.itemMatches ⟨some expected⟩ (some actual) = .ret r) ∧
    (∀ a : Item, itemBasedExpectation.itemMatches ⟨some a⟩ (some a) = .ret none) ∧
    (∀ (a : Item) (k : String), k ≠ a.Key →
      itemBasedExpectation.itemMatches ⟨some a⟩ (some { a with Key := k }) =
        .ret (some (.itemKey a.Key k))) ∧
    (∀ (a : Item) (v : List Nat), v ≠ a.Value →
      itemBasedExpectation.itemMatches ⟨some a⟩ (some { a with Value := v }) =
        .ret (some (.itemValue a.Value v))) ∧
    (∀ (a : Item) (f : Nat), f ≠ a.Flags →
      itemBasedExpectation.itemMatches ⟨some a⟩ (some { a with Flags := f }) =
        .ret (some (.itemFlags a.Flags f))) ∧
    (∀ (a : Item) (x : Int), x ≠ a.Expiration →
      itemBasedExpectation.itemMatches ⟨some a⟩ (some { a with Expiration := x }) =
        .ret (some (.itemExpiration a.Expiration x))) ∧
    (∀ (a : Item) (n : Nat), n ≠ a.CasID →
      itemBasedExpectation.itemMatches ⟨some a⟩ (some { a with CasID := n }) =
        .ret (some (.itemCasID a.CasID n))) := by
  refine ⟨rfl, ?_, ?_, ?_, ?_, ?_, ?_, ?_⟩
  · intro expected actual
    rw [itemMatches_some_some]
    constructor
    · constructor
      · intro h
        split_ifs at h with h1 h2 h3 h4 h5 <;>
          first
          | exact ⟨not_not.mp h1, not_not.mp h2, not_not.mp h3, not_not.mp h4,
              not_not.mp h5⟩
          | simp at h
      · rintro ⟨h1, h2, h3, h4, h5⟩
        simp [h1, h2, h3, h4, h5]
    · split_ifs <;> exact ⟨_, rfl⟩
  · intro a
    rw [itemMatches_some_some]
    simp
  · intro a k hk
    rw [itemMatches_some_some]
    simp [hk]
  · intro a v hv
    rw [itemMatches_some_some]
    simp [hv]
  · intro a f hf
    rw [itemMatches_some_some]
    simp [hf]
  · intro a x hx
    rw [itemMatches_some_some]
    simp [hx]
  · intro a n hn
    rw [itemMatches_some_some]
    simp [hn]

/-- The claim C18 fails on the code when the expected item is set and the actual
item is nil: `itemMatches` does not report a mismatch but dereferences the nil
item (`item.Key`) and panics; so after `ExpectSet().WithItem(fooItem)` the call
`Set(nil)` panics inside the comparison, with the mutex of the record still held.
The other half of the claim holds: an unset expected item and a set actual item
give the error "did not expect item, but got item with key ...". -/
theorem Set_nil_item_panics :
    itemBasedExpectation.itemMatches ⟨some fooItem⟩ none = .abort .panic ∧
    memcachemock.Set ⟨[{ typ := .Set ⟨some fooItem⟩ }]⟩ none =
      (⟨[{ mu := true, typ := .Set ⟨some fooItem⟩ }]⟩, .abort .panic) ∧
    itemBasedExpectation.itemMatches ⟨none⟩ (some fooItem) =
      .ret (some (.unexpectedItem "foo")) := by
  decide

/-- The claim C19 fails on the code for a nil against an empty key sequence: with no
keys configured (`expectedKeys` nil) and the actual keys `[]string{}`, the two
sequences have the same length 0 and no position at which they differ, yet
`reflect.DeepEqual` tells a nil slice from an empty one and `keysMatch` reports
"expected keys [], but got keys []"; the same happens for `WithKeys([]string{})`
and actual keys nil. So `ExpectGetMulti()` followed by `GetMulti([]string{})`
fails. -/
theorem keysMatch_nil_versus_empty :
    keysBasedExpectation.keysMatch ⟨none⟩ (some []) = some (.keysMismatch [] []) ∧
    keysBasedExpectation.keysMatch ⟨some []⟩ none = some (.keysMismatch [] []) ∧
    memcachemock.GetMulti ⟨[{ typ := .GetMulti ⟨none⟩ none }]⟩ (some []) =
      (⟨[{ typ := .GetMulti ⟨none⟩ none }]⟩, .ret (none, some (.keysMismatch [] []))) :=
  ⟨rfl, rfl, rfl⟩

/-- The claim C20: the comparison of `Delete` and of `Get` accepts a record exactly
when the actual key equals the expected key; the comparison of `Increment` and of
`Decrement` exactly when both the key and the delta are equal; the comparison of
`Touch` exactly when both the key and the seconds are equal; and none of them
panics. -/
theorem scalar_matchers (c0 : commonExpectation) (key k : String) (delta d : Nat)
    (seconds t : Int) (item : Option Item) (value : Nat) :
    (keyCmp key ⟨c0, .Delete ⟨k⟩⟩ = .ret none ↔ key = k) ∧
    (keyCmp key ⟨c0, .Get ⟨k⟩ item⟩ = .ret none ↔ key = k) ∧
    (keyDeltaCmp key delta ⟨c0, .Increment ⟨k⟩ ⟨d⟩ value⟩ = .ret none ↔
      key = k ∧ delta = d) ∧
    (keyDeltaCmp key delta ⟨c0, .Decrement ⟨k⟩ ⟨d⟩ value⟩ = .ret none ↔
      key = k ∧ delta = d) ∧
    (keySecondsCmp key seconds ⟨c0, .Touch ⟨k⟩ ⟨t⟩⟩ = .ret none ↔ key = k ∧ seconds = t) ∧
    (∀ e : Expectation, (∃ r, keyCmp key e = .ret r) ∧ (∃ r, keyDeltaCmp key delta e = .ret r) ∧
      ∃ r, keySecondsCmp key seconds e = .ret r) ∧
    (Call.Delete key).cmp = keyCmp key ∧ (Call.Get key).cmp = keyCmp key ∧
    (Call.Increment key delta).cmp = keyDeltaCmp key delta ∧
    (Call.Decrement key delta).cmp = keyDeltaCmp key delta ∧
    (Call.Touch key seconds).cmp = keySecondsCmp key seconds := by
  refine ⟨?_, ?_, ?_, ?_, ?_, ?_, rfl, rfl, rfl, rfl, rfl⟩
  · by_cases h : key = k <;>
      simp [keyCmp, Expectation.keyBased, keyBasedExpectation.keyMatches, h]
  · by_cases h : key = k <;>
      simp [keyCmp, Expectation.keyBased, keyBasedExpectation.keyMatches, h]
  · by_cases h : key = k <;> by_cases h1 : delta = d <;>
      simp [keyDeltaCmp, Expectation.keyBased, Expectation.deltaBased,
        keyBasedExpectation.keyMatches, deltaBasedExpectation.deltaMatches, h, h1]
  · by_cases h : key = k <;> by_cases h1 : delta = d <;>
      simp [keyDeltaCmp, Expectation.keyBased, Expectation.deltaBased,
        keyBasedExpectation.keyMatches, deltaBasedExpectation.deltaMatches, h, h1]
  · by_cases h : key = k <;> by_cases h1 : seconds = t <;>
      simp [keySecondsCmp, Expectation.keyBased, Expectation.secondsBased,
        keyBasedExpectation.keyMatches, secondsBasedExpectation.secondsMatch, h, h1]
  · intro e
    exact ⟨⟨_, keyCmp_eq key e⟩, ⟨_, keyDeltaCmp_eq key delta e⟩,
      ⟨_, keySecondsCmp_eq key seconds e⟩⟩

/-! ## What a call leaves behind, however it ends -/

/-- A `break` of the loop, for every comparison, with the gate rule: beside what
`scan_inv_break` says, every record passed before the `break` is fulfilled or
optional. -/
theorem scan_inv_break_gate (K : Kind) (method : String)
    (cmp : Expectation → Exec (Option Error)) :
    ∀ (rest pre : List Expectation) (v : Locals) (q : List Expectation) (w : Locals),
      scan K method cmp pre rest v = .break q w →
        ∃ a e b, rest = a ++ e :: b ∧ e.mu = false ∧ e.fulfilled = false ∧ e.kind = K ∧
          cmp e.held = .ret none ∧ q = pre ++ a ++ e.held :: b ∧
          w.expected = some (pre.length + a.length) ∧
          ∀ p ∈ a, p.fulfilled = true ∨ p.optional = true := by
  intro rest
  induction rest with
  | nil => intro pre v q w h; simp [scan] at h
  | cons e rest ih =>
    intro pre v q w h
    have hstep : (e.fulfilled = true ∨ e.optional = true) →
        ∀ v1, scan K method cmp (pre ++ [e]) rest v1 = .break q w →
        ∃ a x b, e :: rest = a ++ x :: b ∧ x.mu = false ∧ x.fulfilled = false ∧ x.kind = K ∧
          cmp x.held = .ret none ∧ q = pre ++ a ++ x.held :: b ∧
          w.expected = some (pre.length + a.length) ∧
          ∀ p ∈ a, p.fulfilled = true ∨ p.optional = true := by
      intro he v1 h1
      obtain ⟨a, x, b, hr, h2, h3, h4, h5, h6, h7, h8⟩ := ih _ _ _ _ h1
      refine ⟨e :: a, x, b, by simp [hr], h2, h3, h4, h5, by simp [h6], ?_, ?_⟩
      · rw [h7]
        simp
        omega
      · intro p hp
        rcases List.mem_cons.mp hp with hp | hp
        · rw [hp]; exact he
        · exact h8 p hp
    unfold scan at h
    rcases iteration_cases K method cmp e pre.length v with
      ⟨_, hit⟩ | ⟨_, hf, hit⟩ | ⟨x, _, _, _, _, hit⟩ | ⟨h1, h2, h3, h4, hit⟩ |
      ⟨r, _, _, _, _, ho, hit⟩ | ⟨r, _, _, _, _, _, hit⟩ | ⟨_, _, _, ho, hit⟩ |
      ⟨_, _, _, _, hit⟩ <;> rw [hit] at h <;> simp only at h
    · simp at h
    · exact hstep (Or.inl hf) _ h
    · simp at h
    · simp only [LoopExit.break.injEq] at h
      obtain ⟨rfl, rfl⟩ := h
      exact ⟨[], e, rest, rfl, h1, h2, h3, h4, by simp, by simp, by simp⟩
    · exact hstep (Or.inr ho) _ h
    · simp at h
    · exact hstep (Or.inr ho) _ h
    · simp at h

/-- An abnormal end inside the loop, for every comparison: either the queue is as
it was, or the comparison did not return at a record that is left locked. -/
theorem scan_inv_abort (K : Kind) (method : String)
    (cmp : Expectation → Exec (Option Error)) :
    ∀ (rest pre : List Expectation) (v : Locals) (q : List Expectation) (x : Abnormal),
      scan K method cmp pre rest v = .abort q x →
        q = pre ++ rest ∨
        ∃ a e b, rest = a ++ e :: b ∧ q = pre ++ a ++ e.held :: b := by
  intro rest
  induction rest with
  | nil => intro pre v q x h; simp [scan] at h
  | cons e rest ih =>
    intro pre v q x h
    have hstep : ∀ v1, scan K method cmp (pre ++ [e]) rest v1 = .abort q x →
        q = pre ++ e :: rest ∨
        ∃ a y b, e :: rest = a ++ y :: b ∧ q = pre ++ a ++ y.held :: b := by
      intro v1 h1
      rcases ih _ _ _ _ h1 with hq | ⟨a, y, b, hr, hq⟩
      · exact Or.inl (by simpa using hq)
      · exact Or.inr ⟨e :: a, y, b, by simp [hr], by simp [hq]⟩
    unfold scan at h
    rcases iteration_cases K method cmp e pre.length v with
      ⟨_, hit⟩ | ⟨_, _, hit⟩ | ⟨y, _, _, _, _, hit⟩ | ⟨h1, h2, h3, h4, hit⟩ |
      ⟨r, _, _, _, _, _, hit⟩ | ⟨r, _, _, _, _, _, hit⟩ | ⟨_, _, _, _, hit⟩ |
      ⟨_, _, _, _, hit⟩ <;> rw [hit] at h <;> simp only at h
    · simp only [LoopExit.abort.injEq] at h
      exact Or.inl h.1.symm
    · exact hstep _ h
    · simp only [LoopExit.abort.injEq] at h
      exact Or.inr ⟨[], e, rest, rfl, by simp [h.1]⟩
    · simp at h
    · exact hstep _ h
    · simp at h
    · exact hstep _ h
    · simp at h

/-- When the loop runs to the end of the queue, for every comparison: every record
it passed is fulfilled or optional, and a record that it leaves in `expected` is
the one that was there at the start or an unfulfilled record of the queue. -/
theorem scan_done_gate (K : Kind) (method : String)
    (cmp : Expectation → Exec (Option Error)) :
    ∀ (rest pre : List Expectation) (v : Locals) (q : List Expectation) (w : Locals),
      scan K method cmp pre rest v = .done q w →
        (∀ p ∈ rest, p.fulfilled = true ∨ p.optional = true) ∧
        ∀ j, w.expected = some j → v.expected = some j ∨
          ∃ e, pre.length ≤ j ∧ rest[j - pre.length]? = some e ∧ e.fulfilled = false := by
  intro rest
  induction rest with
  | nil =>
    intro pre v q w h
    simp only [scan, LoopExit.done.injEq] at h
    obtain ⟨-, rfl⟩ := h
    exact ⟨by simp, fun j hj => Or.inl hj⟩
  | cons e rest ih =>
    intro pre v q w h
    have hlen : (pre ++ [e]).length = pre.length + 1 := by simp
    have hstep : (e.fulfilled = true ∨ e.optional = true) →
        ∀ v1, (∀ j, v1.expected = some j → v.expected = some j ∨
            (j = pre.length ∧ e.fulfilled = false)) →
          scan K method cmp (pre ++ [e]) rest v1 = .done q w →
          (∀ p ∈ e :: rest, p.fulfilled = true ∨ p.optional = true) ∧
          ∀ j, w.expected = some j → v.expected = some j ∨
            ∃ y, pre.length ≤ j ∧ (e :: rest)[j - pre.length]? = some y ∧
              y.fulfilled = false := by
      intro he v1 hv1 h1
      obtain ⟨hall, hexp⟩ := ih _ _ _ _ h1
      refine ⟨?_, ?_⟩
      · intro p hp
        rcases List.mem_cons.mp hp with hp | hp
        · rw [hp]; exact he
        · exact hall p hp
      · intro j hj
        rcases hexp j hj with h2 | ⟨y, hle, hy, hyf⟩
        · rcases hv1 j h2 with h3 | ⟨h3, h4⟩
          · exact Or.inl h3
          · exact Or.inr ⟨e, by omega, by simp [h3], h4⟩
        · rw [hlen] at hle hy
          refine Or.inr ⟨y, by omega, ?_, hyf⟩
          have : j - pre.length = (j - (pre.length + 1)) + 1 := by omega
          rw [this]
          simpa using hy
    unfold scan at h
    rcases iteration_cases K method cmp e pre.length v with
      ⟨_, hit⟩ | ⟨_, hf, hit⟩ | ⟨y, _, _, _, _, hit⟩ | ⟨h1, h2, h3, h4, hit⟩ |
      ⟨r, _, hf, _, _, ho, hit⟩ | ⟨r, _, _, _, _, _, hit⟩ | ⟨_, _, _, ho, hit⟩ |
      ⟨_, _, _, _, hit⟩ <;> rw [hit] at h <;> simp only at h
    · simp at h
    · exact hstep (Or.inl hf) { v with fulfilled := v.fulfilled + 1 }
        (fun j hj => Or.inl hj) h
    · simp at h
    · simp at h
    · refine hstep (Or.inr ho) _ (fun j hj => Or.inr ⟨?_, hf⟩) h
      simp only [Option.some.injEq] at hj
      exact hj.symm
    · simp at h
    · refine hstep (Or.inr ho) _ (fun j hj => ?_) h
      simp at hj
    · simp at h

/-- The five ways `findExpectationFunc` can end, for every queue and every
comparison, with the mock that each leaves behind: it waits for a mutex and the
mock is as it was; the comparison does not return and its record stays locked; it
returns nil and an error and the mock is as it was; it returns an unfulfilled
record, before which every record is fulfilled or optional, and has incremented
it; or the loop ran through a queue of fulfilled and optional records with a
stale `expected`, an unfulfilled record, which is incremented before the `Unlock`
of its free mutex aborts the process. -/
theorem findExpectationFunc_gate_cases (c : memcachemock) (K : Kind) (method : String)
    (cmp : Expectation → Exec (Option Error)) :
    (∃ x, findExpectationFunc c K method cmp = (c, .abort x)) ∨
    (∃ i e x, c.expectations[i]? = some e ∧
      findExpectationFunc c K method cmp = (⟨c.expectations.set i e.held⟩, .abort x)) ∨
    (∃ err, findExpectationFunc c K method cmp = (c, .ret (none, some err))) ∨
    (∃ i e, c.expectations[i]? = some e ∧ e.mu = false ∧ e.fulfilled = false ∧
      e.kind = K ∧ cmp e.held = .ret none ∧
      (∀ j p, j < i → c.expectations[j]? = some p →
        p.fulfilled = true ∨ p.optional = true) ∧
      findExpectationFunc c K method cmp =
        (⟨c.expectations.set i e.fulfill⟩, .ret (some i, none))) ∨
    (∃ i e, c.expectations[i]? = some e ∧ e.mu = false ∧ e.fulfilled = false ∧
      (∀ p ∈ c.expectations, p.fulfilled = true ∨ p.optional = true) ∧
      findExpectationFunc c K method cmp =
        (⟨c.expectations.set i e.fulfill⟩, .abort .fatal)) := by
  obtain ⟨q0⟩ := c
  unfold findExpectationFunc
  cases hs : scan K method cmp [] q0 {} with
  | «return» q r =>
    obtain ⟨hq, err, hr⟩ := scan_inv_return K method cmp _ _ _ _ _ hs
    simp only [List.nil_append] at hq
    subst hq hr
    exact Or.inr (Or.inr (Or.inl ⟨err, rfl⟩))
  | abort q x =>
    rcases scan_inv_abort K method cmp _ _ _ _ _ hs with hq | ⟨a, e, b, hq0, hq⟩
    · simp only [List.nil_append] at hq
      subst hq
      exact Or.inl ⟨x, rfl⟩
    · simp only [List.nil_append] at hq
      subst hq0 hq
      refine Or.inr (Or.inl ⟨a.length, e, x, getElem?_length_append a e b, ?_⟩)
      simp only [set_length_append]
  | «break» q w =>
    obtain ⟨a, e, b, hq0, hmu, hunf, hkind, hacc, hq, hexp, hbefore⟩ :=
      scan_inv_break_gate K method cmp _ _ _ _ _ hs
    simp only [List.nil_append, List.length_nil, Nat.zero_add] at hq hexp
    subst hq0 hq
    refine Or.inr (Or.inr (Or.inr (Or.inl ⟨a.length, e, getElem?_length_append a e b, hmu,
      hunf, hkind, hacc, ?_, ?_⟩)))
    · intro j p hj hp
      rw [List.getElem?_append_left hj] at hp
      exact hbefore p (List.getElem?_mem hp)
    · simp only [afterLoop, hexp, List.get?_eq_getElem?]
      have hget : (a ++ e.held :: b)[a.length]? = some e.held :=
        getElem?_length_append a e.held b
      simp only [hget, fulfill_held_Unlock hmu, set_length_append]
  | done q w =>
    obtain ⟨hq, -⟩ := scan_done K method cmp _ _ _ _ _ hs
    have hidle := scan_done_idle K method cmp _ _ _ _ _ hs
    obtain ⟨hall, hexpd⟩ := scan_done_gate K method cmp _ _ _ _ _ hs
    simp only [List.nil_append] at hq
    subst hq
    cases hexp : w.expected with
    | none =>
      exact Or.inr (Or.inr (Or.inl ⟨.notExpected (decide (w.fulfilled = q.length)) method,
        by simp [afterLoop, hexp]⟩))
    | some j =>
      rcases hexpd j hexp with h0 | ⟨e, -, he, hunf⟩
      · simp at h0
      · simp only [List.length_nil, Nat.sub_zero] at he
        have hmu : e.mu = false := hidle e (List.getElem?_mem he)
        have hmu1 : e.fulfill.mu = false := hmu
        refine Or.inr (Or.inr (Or.inr (Or.inr ⟨j, e, he, hmu, hunf, hall, ?_⟩)))
        simp only [afterLoop, hexp, List.get?_eq_getElem?, he, Unlock_of_free hmu1]

/-- Whatever way a call ends, the mock it leaves behind is the mock as it was, or
differs from it in one record, which is left locked or is an unfulfilled record
that has been incremented after a scan that met only fulfilled and optional
records before it. -/
theorem findExpectationFunc_state (c : memcachemock) (K : Kind) (method : String)
    (cmp : Expectation → Exec (Option Error)) :
    (findExpectationFunc c K method cmp).1 = c ∨
    (∃ i e, c.expectations[i]? = some e ∧
      (findExpectationFunc c K method cmp).1 = ⟨c.expectations.set i e.held⟩) ∨
    (∃ i e, c.expectations[i]? = some e ∧ e.fulfilled = false ∧
      (∀ j p, j < i → c.expectations[j]? = some p →
        p.fulfilled = true ∨ p.optional = true) ∧
      (findExpectationFunc c K method cmp).1 = ⟨c.expectations.set i e.fulfill⟩) := by
  rcases findExpectationFunc_gate_cases c K method cmp with
    ⟨x, h⟩ | ⟨i, e, x, hi, h⟩ | ⟨err, h⟩ | ⟨i, e, hi, -, hunf, -, -, hbefore, h⟩ |
    ⟨i, e, hi, -, hunf, hall, h⟩
  · exact Or.inl (by rw [h])
  · exact Or.inr (Or.inl ⟨i, e, hi, by rw [h]⟩)
  · exact Or.inl (by rw [h])
  · exact Or.inr (Or.inr ⟨i, e, hi, hunf, hbefore, by rw [h]⟩)
  · exact Or.inr (Or.inr ⟨i, e, hi, hunf,
      fun j p _ hp => hall p (List.getElem?_mem hp), by rw [h]⟩)

/-! ## Sequences of calls -/

/-- A method that returns has a lookup that returns, and leaves the same mock. -/
theorem invoke_ret_lookup (c c1 : memcachemock) (call : Call) (r : Payload × Option Error)
    (h : c.invoke call = (c1, .ret r)) :
    (call.lookup c = (c, .ret (none, r.2)) ∧ c1 = c ∧ r.2 ≠ none) ∨
    ∃ i e, c.expectations[i]? = some e ∧ e.fulfilled = false ∧ e.kind = call.kind ∧
      call.lookup c = (c1, .ret (some i, none)) ∧ c1 = ⟨c.expectations.set i e.fulfill⟩ := by
  rcases findExpectationFunc_cases c call.kind call.method call.cmp with
    ⟨c2, x, h1⟩ | ⟨er, h1⟩ | ⟨j, e, h1, h2, h3, h4, h5, h6⟩
  · rw [invoke_abort c c2 call x h1] at h
    simp at h
  · rw [invoke_failed c c call none er h1] at h
    simp only [Prod.mk.injEq, Exec.ret.injEq] at h
    obtain ⟨hc, hr⟩ := h
    subst hr
    exact Or.inl ⟨h1, hc.symm, by simp⟩
  · have hlt : j < c.expectations.length := (List.getElem?_eq_some_iff.mp h1).1
    have hd : memcachemock.deref ⟨c.expectations.set j e.fulfill⟩ (some j)
        = some e.fulfill := by
      simp [memcachemock.deref, List.getElem?_set, hlt]
    rw [invoke_selected c _ call (some j) e.fulfill h6 hd] at h
    simp only [Prod.mk.injEq, Exec.ret.injEq] at h
    obtain ⟨hc, -⟩ := h
    subst hc
    exact Or.inr ⟨j, e, h1, h3, h4, h6, rfl⟩

/-- A property of the queue that survives locking a record and incrementing an
unfulfilled record that has only fulfilled and optional records before it,
survives every call, however the call ends. -/
theorem invoke_preserves (P : List Expectation → Prop) (c : memcachemock) (call : Call)
    (hP : P c.expectations)
    (hheld : ∀ i e, c.expectations[i]? = some e → P (c.expectations.set i e.held))
    (hful : ∀ i e, c.expectations[i]? = some e → e.fulfilled = false →
      (∀ j p, j < i → c.expectations[j]? = some p →
        p.fulfilled = true ∨ p.optional = true) →
      P (c.expectations.set i e.fulfill)) :
    P (c.invoke call).1.expectations := by
  rw [invoke_fst]
  rcases findExpectationFunc_state c call.kind call.method call.cmp with
    h | ⟨i, e, hi, h⟩ | ⟨i, e, hi, hunf, hbefore, h⟩
  · simp only [Call.lookup, h]
    exact hP
  · simp only [Call.lookup, h]
    exact hheld i e hi
  · simp only [Call.lookup, h]
    exact hful i e hi hunf hbefore

/-- An invariant of single calls is an invariant of sequences of calls. -/
theorem after_preserves (P : memcachemock → Prop)
    (hstep : ∀ c call, P c → P (c.invoke call).1) :
    ∀ (calls : List Call) (c : memcachemock), P c → P (c.after calls) := by
  intro calls
  induction calls with
  | nil => intro c hc; exact hc
  | cons call calls ih =>
    intro c hc
    exact ih _ (hstep c call hc)

/-- A sequence of calls that all return leaves the mock that `after` computes. -/
theorem run_eq_after : ∀ (calls : List Call) (c c1 : memcachemock),
    c.run calls = some c1 → c.after calls = c1 := by
  intro calls
  induction calls with
  | nil =>
    intro c c1 h
    simp only [memcachemock.run, Option.some.injEq] at h
    exact h
  | cons call calls ih =>
    intro c c1 h
    simp only [memcachemock.run] at h
    rcases hi : c.invoke call with ⟨c2, r | x⟩
    · rw [hi] at h
      simp only at h
      have := ih c2 c1 h
      simp only [memcachemock.after, List.foldl_cons, hi] at this ⊢
      exact this
    · rw [hi] at h
      simp at h

/-! ## Claims on unset matchers, failed calls, kinds, registration and builders -/

/-- The claim C21 fails as stated: after `ExpectGet()` with no `WithKey`, the call
`Get("foo")` is rejected with "expected key , but got key foo"; after `ExpectSet()`
with no `WithItem`, the call `Set(fooItem)` is rejected with "did not expect item,
but got item with key foo". -/
theorem unset_matcher_rejects :
    memcachemock.Get (memcachemock.Expect {} .Get).1 "foo" =
      ((memcachemock.Expect {} .Get).1, .ret (none, some (.keyMismatch "" "foo"))) ∧
    memcachemock.Set (memcachemock.Expect {} .Set).1 (some fooItem) =
      ((memcachemock.Expect {} .Set).1, .ret (some (.unexpectedItem "foo"))) := by
  decide

/-- The claim C21 as amended: a record whose argument matcher was never configured
(the fields of its concrete type are zero, whatever its `commonExpectation`) is
accepted by the comparison of a call of its kind exactly when the actual arguments
are the zero values: the empty key for `Get` and `Delete`, the empty key and delta
0 for `Increment` and `Decrement`, the empty key and 0 seconds for `Touch`, a nil
item for the six item-taking kinds; for `GetMulti` nil keys are accepted and a
non-empty key sequence is rejected; the argument-less kinds are always accepted. -/
theorem unset_matcher_accepts_zero_arguments (c0 : commonExpectation) :
    (∀ key, (Call.Get key).cmp ⟨c0, Expected.zero .Get⟩ = .ret none ↔ key = "") ∧
    (∀ key, (Call.Delete key).cmp ⟨c0, Expected.zero .Delete⟩ = .ret none ↔ key = "") ∧
    (∀ key delta, (Call.Increment key delta).cmp ⟨c0, Expected.zero .Increment⟩ = .ret none ↔
      key = "" ∧ delta = 0) ∧
    (∀ key delta, (Call.Decrement key delta).cmp ⟨c0, Expected.zero .Decrement⟩ = .ret none ↔
      key = "" ∧ delta = 0) ∧
    (∀ key seconds, (Call.Touch key seconds).cmp ⟨c0, Expected.zero .Touch⟩ = .ret none ↔
      key = "" ∧ seconds = 0) ∧
    (∀ item, (Call.Add item).cmp ⟨c0, Expected.zero .Add⟩ = .ret none ↔ item = none) ∧
    (∀ item, (Call.Append item).cmp ⟨c0, Expected.zero .Append⟩ = .ret none ↔
      item = none) ∧
    (∀ item, (Call.CompareAndSwap item).cmp ⟨c0, Expected.zero .CompareAndSwap⟩ = .ret none ↔
      item = none) ∧
    (∀ item, (Call.Prepend item).cmp ⟨c0, Expected.zero .Prepend⟩ = .ret none ↔
      item = none) ∧
    (∀ item, (Call.Replace item).cmp ⟨c0, Expected.zero .Replace⟩ = .ret none ↔
      item = none) ∧
    (∀ item, (Call.Set item).cmp ⟨c0, Expected.zero .Set⟩ = .ret none ↔ item = none) ∧
    (Call.GetMulti none).cmp ⟨c0, Expected.zero .GetMulti⟩ = .ret none ∧
    (∀ k ks, (Call.GetMulti (some (k :: ks))).cmp ⟨c0, Expected.zero .GetMulti⟩ =
      .ret (some (.keysMismatch [] (k :: ks)))) ∧
    Call.Close.cmp ⟨c0, Expected.zero .Close⟩ = .ret none ∧
    Call.Ping.cmp ⟨c0, Expected.zero .Ping⟩ = .ret none ∧
    Call.DeleteAll.cmp ⟨c0, Expected.zero .DeleteAll⟩ = .ret none ∧
    Call.FlushAll.cmp ⟨c0, Expected.zero .FlushAll⟩ = .ret none := by
  have hitem : ∀ item : Option Item,
      itemBasedExpectation.itemMatches {} item = .ret none ↔ item = none := by
    intro item
    cases item <;> simp [itemBasedExpectation.itemMatches]
  refine ⟨?_, ?_, ?_, ?_, ?_, ?_, ?_, ?_, ?_, ?_, ?_, rfl, ?_, rfl, rfl, rfl, rfl⟩
  · intro key
    by_cases h : key = "" <;>
      simp [Call.cmp, keyCmp, Expected.zero, Expectation.keyBased,
        keyBasedExpectation.keyMatches, h]
  · intro key
    by_cases h : key = "" <;>
      simp [Call.cmp, keyCmp, Expected.zero, Expectation.keyBased,
        keyBasedExpectation.keyMatches, h]
  · intro key delta
    by_cases h : key = "" <;> by_cases h1 : delta = 0 <;>
      simp [Call.cmp, keyDeltaCmp, Expected.zero, Expectation.keyBased,
        Expectation.deltaBased, keyBasedExpectation.keyMatches,
        deltaBasedExpectation.deltaMatches, h, h1]
  · intro key delta
    by_cases h : key = "" <;> by_cases h1 : delta = 0 <;>
      simp [Call.cmp, keyDeltaCmp, Expected.zero, Expectation.keyBased,
        Expectation.deltaBased, keyBasedExpectation.keyMatches,
        deltaBasedExpectation.deltaMatches, h, h1]
  · intro key seconds
    by_cases h : key = "" <;> by_cases h1 : seconds = 0 <;>
      simp [Call.cmp, keySecondsCmp, Expected.zero, Expectation.keyBased,
        Expectation.secondsBased, keyBasedExpectation.keyMatches,
        secondsBasedExpectation.secondsMatch, h, h1]
  · intro item
    rw [← hitem item]
    simp only [Call.cmp, itemCmp_eq, Expected.zero, Expectation.itemBased]
  · intro item
    rw [← hitem item]
    simp only [Call.cmp, itemCmp_eq, Expected.zero, Expectation.itemBased]
  · intro item
    rw [← hitem item]
    simp only [Call.cmp, itemCmp_eq, Expected.zero, Expectation.itemBased]
  · intro item
    rw [← hitem item]
    simp only [Call.cmp, itemCmp_eq, Expected.zero, Expectation.itemBased]
  · intro item
    rw [← hitem item]
    simp only [Call.cmp, itemCmp_eq, Expected.zero, Expectation.itemBased]
  · intro item
    rw [← hitem item]
    simp only [Call.cmp, itemCmp_eq, Expected.zero, Expectation.itemBased]
  · intro k ks
    simp [Call.cmp, keysCmp, Expected.zero, Expectation.keysBased,
      keysBasedExpectation.keysMatch, len]

/-- The claim C22: for every queue and every call whose lookup returns an error,
the mock that the lookup and the method leave is the mock as it was, with every
record and every triggered count unchanged; so `ExpectationsWereMet` returns what
it returned before, and an unfulfilled required record is still there and still
makes `ExpectationsWereMet` fail. -/
theorem failed_call_changes_nothing (c c1 : memcachemock) (call : Call) (ex : Option Nat)
    (err : Error) (h : call.lookup c = (c1, .ret (ex, some err))) :
    c1 = c ∧ (c.invoke call).1 = c ∧
    c1.ExpectationsWereMet.2 = c.ExpectationsWereMet.2 ∧
    ∀ (i : Nat) (r : Expectation), c.expectations[i]? = some r → r.fulfilled = false →
      r.optional = false →
      c1.expectations[i]? = some r ∧ c1.ExpectationsWereMet.2 ≠ none := by
  obtain ⟨-, hc⟩ := findExpectationFunc_failed c c1 call.kind call.method call.cmp ex err h
  subst hc
  refine ⟨rfl, ?_, rfl, ?_⟩
  · rw [invoke_fst, h]
  · intro i r hi hunf hreq
    refine ⟨hi, ?_⟩
    intro hnone
    have hall := (ExpectationsWereMet_loop_none c1.expectations).mp hnone r
      (List.getElem?_mem hi)
    rcases hall with h1 | h1
    · rw [hunf] at h1; simp at h1
    · rw [hreq] at h1; simp at h1

/-- A run of the claim C22: `ExpectDecrement().WithKeyAndDelta("k", 10).
WillReturnValue(20)`, then `Decrement("k", 15)`. -/
theorem failed_call_changes_nothing_witness :
    (⟨[{ typ := .Decrement ⟨"k"⟩ ⟨10⟩ 20 }]⟩ : memcachemock) =
      ⟨[{ typ := .Decrement ⟨"k"⟩ ⟨10⟩ 20 }]⟩ ∧
    (memcachemock.invoke ⟨[{ typ := .Decrement ⟨"k"⟩ ⟨10⟩ 20 }]⟩ (.Decrement "k" 15)).1 =
      ⟨[{ typ := .Decrement ⟨"k"⟩ ⟨10⟩ 20 }]⟩ ∧
    (memcachemock.ExpectationsWereMet ⟨[{ typ := .Decrement ⟨"k"⟩ ⟨10⟩ 20 }]⟩).2 =
      (memcachemock.ExpectationsWereMet ⟨[{ typ := .Decrement ⟨"k"⟩ ⟨10⟩ 20 }]⟩).2 ∧
    ∀ (i : Nat) (r : Expectation),
      (⟨[{ typ := .Decrement ⟨"k"⟩ ⟨10⟩ 20 }]⟩ : memcachemock).expectations[i]? = some r →
      r.fulfilled = false → r.optional = false →
      (⟨[{ typ := .Decrement ⟨"k"⟩ ⟨10⟩ 20 }]⟩ : memcachemock).expectations[i]? = some r ∧
      (memcachemock.ExpectationsWereMet ⟨[{ typ := .Decrement ⟨"k"⟩ ⟨10⟩ 20 }]⟩).2 ≠ none :=
  failed_call_changes_nothing ⟨[{ typ := .Decrement ⟨"k"⟩ ⟨10⟩ 20 }]⟩
    ⟨[{ typ := .Decrement ⟨"k"⟩ ⟨10⟩ 20 }]⟩ (.Decrement "k" 15) none (.deltaMismatch 10 15)
    (by decide)

/-- The claim C25: for every queue and every call, a record that the lookup returns
is of the kind of the call, and every record of another kind is left as it was;
the sixteen methods ask for sixteen different kinds, so the item-taking methods do
not consume each other's records and neither do the argument-less ones. -/
theorem selected_record_has_kind (c c1 : memcachemock) (call : Call) (i : Nat)
    (hsel : call.lookup c = (c1, .ret (some i, none))) :
    (∃ e, c.expectations[i]? = some e ∧ e.kind = call.kind) ∧
    (∀ (j : Nat) (r : Expectation), c.expectations[j]? = some r → r.kind ≠ call.kind →
      c1.expectations[j]? = some r) ∧
    (∀ item, [(Call.Add item).kind, (Call.Append item).kind, (Call.CompareAndSwap item).kind,
      (Call.Prepend item).kind, (Call.Replace item).kind, (Call.Set item).kind].Nodup) ∧
    [Call.Close.kind, Call.Ping.kind, Call.DeleteAll.kind, Call.FlushAll.kind].Nodup := by
  obtain ⟨-, e, hi, -, -, hkind, -, hc1⟩ :=
    findExpectationFunc_selected c c1 call.kind call.method call.cmp i none hsel
  refine ⟨⟨e, hi, hkind⟩, ?_, ?_, by decide⟩
  · intro j r hj hr
    have hne : i ≠ j := by
      intro hij
      subst hij
      rw [hi, Option.some.injEq] at hj
      subst hj
      exact hr hkind
    rw [hc1]
    simp only [List.getElem?_set, hne, if_false]
    exact hj
  · intro item
    simp [Call.kind]

/-- A run of the claim C25: `ExpectAdd().WithItem(fooItem).Maybe()`, then
`ExpectSet().WithItem(fooItem)`; the call `Set(fooItem)` returns the second record
and leaves the `ExpectedAdd` record as it was, although its item is the same. -/
theorem selected_record_has_kind_witness :
    (∃ e, (⟨[{ optional := true, typ := .Add ⟨some fooItem⟩ },
          { typ := .Set ⟨some fooItem⟩ }]⟩ : memcachemock).expectations[1]? = some e ∧
      e.kind = (Call.Set (some fooItem)).kind) ∧
    ∀ (j : Nat) (r : Expectation),
      (⟨[{ optional := true, typ := .Add ⟨some fooItem⟩ },
          { typ := .Set ⟨some fooItem⟩ }]⟩ : memcachemock).expectations[j]? = some r →
      r.kind ≠ (Call.Set (some fooItem)).kind →
      (⟨[{ optional := true, typ := .Add ⟨some fooItem⟩ },
          { triggered := 1, typ := .Set ⟨some fooItem⟩ }]⟩ : memcachemock).expectations[j]?
        = some r :=
  ⟨(selected_record_has_kind
      ⟨[{ optional := true, typ := .Add ⟨some fooItem⟩ }, { typ := .Set ⟨some fooItem⟩ }]⟩
      ⟨[{ optional := true, typ := .Add ⟨some fooItem⟩ },
        { triggered := 1, typ := .Set ⟨some fooItem⟩ }]⟩
      (.Set (some fooItem)) 1 (by decide)).1,
    (selected_record_has_kind
      ⟨[{ optional := true, typ := .Add ⟨some fooItem⟩ }, { typ := .Set ⟨some fooItem⟩ }]⟩
      ⟨[{ optional := true, typ := .Add ⟨some fooItem⟩ },
        { triggered := 1, typ := .Set ⟨some fooItem⟩ }]⟩
      (.Set (some fooItem)) 1 (by decide)).2.1⟩

/-- The claim C26: each `Expect*` method appends one record at the end of the queue
and returns it; the record is of the kind of the method, required, with planned
count 0, triggered count 0, no configured error, a free mutex and zero matcher and
payload fields; the records registered before keep their positions and contents. -/
theorem Expect_appends_zero_record (c : memcachemock) (K : Kind) :
    (c.Expect K).1.expectations = c.expectations ++ [{ typ := Expected.zero K }] ∧
    (c.Expect K).1.expectations.length = c.expectations.length + 1 ∧
    (c.Expect K).2 = c.expectations.length ∧
    (c.Expect K).1.expectations[(c.Expect K).2]? = some { typ := Expected.zero K } ∧
    (∀ j, j < c.expectations.length →
      (c.Expect K).1.expectations[j]? = c.expectations[j]?) ∧
    ({ typ := Expected.zero K } : Expectation).kind = K ∧
    ({ typ := Expected.zero K } : Expectation).required = true ∧
    ({ typ := Expected.zero K } : Expectation).optional = false ∧
    ({ typ := Expected.zero K } : Expectation).plannedCalls = 0 ∧
    ({ typ := Expected.zero K } : Expectation).triggered = 0 ∧
    ({ typ := Expected.zero K } : Expectation).err = none ∧
    ({ typ := Expected.zero K } : Expectation).mu = false ∧
    ({ typ := Expected.zero K } : Expectation).keyBased = ⟨""⟩ ∧
    ({ typ := Expected.zero K } : Expectation).keysBased = ⟨none⟩ ∧
    ({ typ := Expected.zero K } : Expectation).itemBased = ⟨none⟩ ∧
    ({ typ := Expected.zero K } : Expectation).deltaBased = ⟨0⟩ ∧
    ({ typ := Expected.zero K } : Expectation).secondsBased = ⟨0⟩ ∧
    ({ typ := Expected.zero K } : Expectation).value = 0 ∧
    ({ typ := Expected.zero K } : Expectation).item = none ∧
    ({ typ := Expected.zero K } : Expectation).items = none := by
  refine ⟨rfl, by simp [memcachemock.Expect], rfl, by simp [memcachemock.Expect], ?_, ?_,
    rfl, rfl, rfl, rfl, rfl, rfl, ?_, ?_, ?_, ?_, ?_, ?_, ?_, ?_⟩
  · intro j hj
    simp [memcachemock.Expect, List.getElem?_append_left hj]
  all_goals cases K <;> rfl

/-- The claim C27: `Maybe` sets only the optional flag, to true; `Times(n)` sets only
the planned count, to `n`, and the last call wins; `WillReturnError` sets only the
configured error; the `With*` and `WillReturn*` setters set only their own matcher
or payload field and leave the embedded `commonExpectation` alone; none of them
changes the triggered count; and `Maybe` and `Times` commute. -/
theorem builder_frame (e : Expectation) (c0 : commonExpectation) (n m : Nat)
    (err : Option String) (key k : String) (delta d value v : Nat) (seconds t : Int)
    (item it : Option Item) (keys ks : Option (List String))
    (items its : Option (List (String × Option Item))) :
    e.Maybe = { e with optional := true } ∧
    e.Times n = { e with plannedCalls := n } ∧
    (e.Times n).Times m = e.Times m ∧
    e.WillReturnError err = { e with err := err } ∧
    e.Maybe.triggered = e.triggered ∧ (e.Times n).triggered = e.triggered ∧
    (e.WillReturnError err).triggered = e.triggered ∧
    e.Maybe.Times n = (e.Times n).Maybe ∧
    ((e.WithItem item).tocommonExpectation = e.tocommonExpectation ∧
      (e.WithKey key).tocommonExpectation = e.tocommonExpectation ∧
      (e.WithKeys keys).tocommonExpectation = e.tocommonExpectation ∧
      (e.WithKeyAndDelta key delta).tocommonExpectation = e.tocommonExpectation ∧
      (e.WithKeyAndSeconds key seconds).tocommonExpectation = e.tocommonExpectation ∧
      (e.WillReturnItem item).tocommonExpectation = e.tocommonExpectation ∧
      (e.WillReturnItems items).tocommonExpectation = e.tocommonExpectation ∧
      (e.WillReturnValue value).tocommonExpectation = e.tocommonExpectation) ∧
    ((⟨c0, .Add ⟨it⟩⟩ : Expectation).WithItem item = ⟨c0, .Add ⟨item⟩⟩ ∧
      (⟨c0, .Append ⟨it⟩⟩ : Expectation).WithItem item = ⟨c0, .Append ⟨item⟩⟩ ∧
      (⟨c0, .CompareAndSwap ⟨it⟩⟩ : Expectation).WithItem item =
        ⟨c0, .CompareAndSwap ⟨item⟩⟩ ∧
      (⟨c0, .Prepend ⟨it⟩⟩ : Expectation).WithItem item = ⟨c0, .Prepend ⟨item⟩⟩ ∧
      (⟨c0, .Replace ⟨it⟩⟩ : Expectation).WithItem item = ⟨c0, .Replace ⟨item⟩⟩ ∧
      (⟨c0, .Set ⟨it⟩⟩ : Expectation).WithItem item = ⟨c0, .Set ⟨item⟩⟩) ∧
    ((⟨c0, .Delete ⟨k⟩⟩ : Expectation).WithKey key = ⟨c0, .Delete ⟨key⟩⟩ ∧
      (⟨c0, .Get ⟨k⟩ it⟩ : Expectation).WithKey key = ⟨c0, .Get ⟨key⟩ it⟩ ∧
      (⟨c0, .Get ⟨k⟩ it⟩ : Expectation).WillReturnItem item = ⟨c0, .Get ⟨k⟩ item⟩) ∧
    ((⟨c0, .GetMulti ⟨ks⟩ its⟩ : Expectation).WithKeys keys = ⟨c0, .GetMulti ⟨keys⟩ its⟩ ∧
      (⟨c0, .GetMulti ⟨ks⟩ its⟩ : Expectation).WillReturnItems items =
        ⟨c0, .GetMulti ⟨ks⟩ items⟩) ∧
    ((⟨c0, .Decrement ⟨k⟩ ⟨d⟩ v⟩ : Expectation).WithKeyAndDelta key delta =
        ⟨c0, .Decrement ⟨key⟩ ⟨delta⟩ v⟩ ∧
      (⟨c0, .Increment ⟨k⟩ ⟨d⟩ v⟩ : Expectation).WithKeyAndDelta key delta =
        ⟨c0, .Increment ⟨key⟩ ⟨delta⟩ v⟩ ∧
      (⟨c0, .Decrement ⟨k⟩ ⟨d⟩ v⟩ : Expectation).WillReturnValue value =
        ⟨c0, .Decrement ⟨k⟩ ⟨d⟩ value⟩ ∧
      (⟨c0, .Increment ⟨k⟩ ⟨d⟩ v⟩ : Expectation).WillReturnValue value =
        ⟨c0, .Increment ⟨k⟩ ⟨d⟩ value⟩) ∧
    (⟨c0, .Touch ⟨k⟩ ⟨t⟩⟩ : Expectation).WithKeyAndSeconds key seconds =
      ⟨c0, .Touch ⟨key⟩ ⟨seconds⟩⟩ := by
  refine ⟨rfl, rfl, rfl, rfl, rfl, rfl, rfl, rfl, ⟨?_, ?_, ?_, ?_, ?_, ?_, ?_, ?_⟩,
    ⟨rfl, rfl, rfl, rfl, rfl, rfl⟩, ⟨rfl, rfl, rfl⟩, ⟨rfl, rfl⟩, ⟨rfl, rfl, rfl, rfl⟩, rfl⟩
  · unfold Expectation.WithItem; split <;> rfl
  · unfold Expectation.WithKey; split <;> rfl
  · unfold Expectation.WithKeys; split <;> rfl
  · unfold Expectation.WithKeyAndDelta; split <;> rfl
  · unfold Expectation.WithKeyAndSeconds; split <;> rfl
  · unfold Expectation.WillReturnItem; split <;> rfl
  · unfold Expectation.WillReturnItems; split <;> rfl
  · unfold Expectation.WillReturnValue; split <;> rfl

/-! ## Frame and invariants of sequences of calls -/

theorem getElem?_set_cases {α : Type} (l : List α) (k i : Nat) (x y : α)
    (h : (l.set k x)[i]? = some y) :
    (i = k ∧ y = x) ∨ (i ≠ k ∧ l[i]? = some y) := by
  rw [List.getElem?_set] at h
  by_cases hik : k = i
  · simp only [hik, if_true] at h
    split_ifs at h
    · exact Or.inl ⟨hik.symm, (Option.some.inj h).symm⟩
  · simp only [hik, if_false] at h
    exact Or.inr ⟨fun h1 => hik h1.symm, h⟩

theorem grows_refl (q : List Expectation) : grows q q := by
  induction q with
  | nil => exact List.Forall₂.nil
  | cons e q ih => exact List.Forall₂.cons ⟨rfl, rfl, rfl, rfl, le_refl _⟩ ih

/-- Replacing a record of the later queue by a still later one keeps `grows`. -/
theorem grows_set (q : List Expectation) :
    ∀ (q1 : List Expectation) (i : Nat) (e1 x : Expectation), grows q q1 →
      q1[i]? = some e1 → (∀ e : Expectation, e.laterOf e1 → e.laterOf x) →
      grows q (q1.set i x) := by
  induction q with
  | nil =>
    intro q1 i e1 x h hi _
    cases h
    simp at hi
  | cons e q ih =>
    intro q1 i e1 x h hi hx
    cases h with
    | cons hhead htail =>
      cases i with
      | zero =>
        simp only [List.getElem?_cons_zero, Option.some.injEq] at hi
        subst hi
        exact List.Forall₂.cons (hx e hhead) htail
      | succ i =>
        simp only [List.getElem?_cons_succ] at hi
        exact List.Forall₂.cons hhead (ih _ i e1 x htail hi hx)

theorem grows_getElem? (q : List Expectation) :
    ∀ (q1 : List Expectation) (j : Nat) (e : Expectation), grows q q1 → q[j]? = some e →
      ∃ e1, q1[j]? = some e1 ∧ e.laterOf e1 := by
  induction q with
  | nil => intro q1 j e _ hj; simp at hj
  | cons x q ih =>
    intro q1 j e h hj
    cases h with
    | cons hhead htail =>
      cases j with
      | zero =>
        simp only [List.getElem?_cons_zero, Option.some.injEq] at hj
        subst hj
        exact ⟨_, by simp, hhead⟩
      | succ j =>
        simp only [List.getElem?_cons_succ] at hj
        obtain ⟨e1, h1, h2⟩ := ih _ j e htail hj
        exact ⟨e1, by simpa using h1, h2⟩

theorem grows_mem (q : List Expectation) :
    ∀ (q1 : List Expectation) (e1 : Expectation), grows q q1 → e1 ∈ q1 →
      ∃ e ∈ q, e.laterOf e1 := by
  induction q with
  | nil => intro q1 e1 h he; cases h; simp at he
  | cons x q ih =>
    intro q1 e1 h he
    cases h with
    | cons hhead htail =>
      rcases List.mem_cons.mp he with he | he
      · subst he
        exact ⟨x, List.mem_cons_self _ _, hhead⟩
      · obtain ⟨e, hq, hl⟩ := ih _ e1 htail he
        exact ⟨e, List.mem_cons_of_mem _ hq, hl⟩

theorem grows_length (q q1 : List Expectation) (h : grows q q1) : q1.length = q.length :=
  (List.Forall₂.length_eq h).symm

/-- Sequences of calls on a queue whose planned counts are `uint` values only let
the queue grow: every call, however it ends, leaves each record in place with its
fields unchanged except the mutex and a triggered count that is not lower. -/
theorem after_grows (c : memcachemock) (hrange : ∀ e ∈ c.expectations, e.plannedCalls < uintSize)
    (calls : List Call) : grows c.expectations (c.after calls).expectations := by
  refine after_preserves (fun c1 => grows c.expectations c1.expectations) ?_ calls c
    (grows_refl _)
  intro c1 call hg
  refine invoke_preserves (fun l => grows c.expectations l) c1 call hg ?_ ?_
  · intro i e hi
    exact grows_set _ _ i e e.held hg hi (fun x hx => hx)
  · intro i e hi hunf _
    obtain ⟨x, hx, hl⟩ := grows_mem _ _ e hg (List.getElem?_mem hi)
    have hplan : e.plannedCalls < uintSize := by
      rw [hl.2.2.2.1]
      exact hrange x hx
    rw [fulfill_of_unfulfilled e hplan hunf]
    refine grows_set _ _ i e _ hg hi ?_
    rintro y ⟨h1, h2, h3, h4, h5⟩
    exact ⟨h1, h2, h3, h4, Nat.le_succ_of_le h5⟩

/-- The claim C24: on a queue whose planned counts are `uint` values, a call whose
lookup returns record `i` changes nothing but the triggered count of record `i`,
which is one higher: the queue keeps its length, every other position keeps its
record, and record `i` keeps all its other fields. Hence over every sequence of
calls each position keeps a record with the same fields of the concrete type,
configured error, optional flag and planned count, and a triggered count that is
not lower. -/
theorem successful_call_frame (c c1 : memcachemock) (call : Call) (i : Nat)
    (hrange : ∀ e ∈ c.expectations, e.plannedCalls < uintSize)
    (hsel : call.lookup c = (c1, .ret (some i, none))) :
    (∃ e, c.expectations[i]? = some e ∧
      c1.expectations = c.expectations.set i { e with triggered := e.triggered + 1 }) ∧
    (c.invoke call).1 = c1 ∧
    c1.expectations.length = c.expectations.length ∧
    (∀ j, j ≠ i → c1.expectations[j]? = c.expectations[j]?) ∧
    (∀ (calls : List Call) (j : Nat) (e : Expectation), c.expectations[j]? = some e →
      ∃ e1, (c.after calls).expectations[j]? = some e1 ∧ e.triggered ≤ e1.triggered ∧
        e1.typ = e.typ ∧ e1.err = e.err ∧ e1.optional = e.optional ∧
        e1.plannedCalls = e.plannedCalls) ∧
    ∀ calls : List Call, (c.after calls).expectations.length = c.expectations.length := by
  obtain ⟨-, e, hi, -, hunf, -, -, hc1⟩ :=
    findExpectationFunc_selected c c1 call.kind call.method call.cmp i none hsel
  have hplan : e.plannedCalls < uintSize := hrange e (List.getElem?_mem hi)
  have hset : c1.expectations = c.expectations.set i { e with triggered := e.triggered + 1 } := by
    rw [hc1, fulfill_of_unfulfilled e hplan hunf]
  refine ⟨⟨e, hi, hset⟩, ?_, ?_, ?_, ?_, ?_⟩
  · rw [invoke_fst, hsel]
  · rw [hset, List.length_set]
  · intro j hj
    have hne : ¬ i = j := fun h => hj h.symm
    rw [hset, List.getElem?_set]
    simp only [hne, if_false]
  · intro calls j x hj
    obtain ⟨e1, h1, h2, h3, h4, h5, h6⟩ :=
      grows_getElem? _ _ j x (after_grows c hrange calls) hj
    exact ⟨e1, h1, h6, h2, h3, h4, h5⟩
  · intro calls
    exact grows_length _ _ (after_grows c hrange calls)

/-- A run of the claim C24: `ExpectPing().Maybe()`, `ExpectClose()`, then `Close()`. -/
theorem successful_call_frame_witness :
    (∃ e, (⟨[{ optional := true, typ := .Ping }, { typ := .Close }]⟩ :
          memcachemock).expectations[1]? = some e ∧
      (⟨[{ optional := true, typ := .Ping }, { triggered := 1, typ := .Close }]⟩ :
          memcachemock).expectations =
        (⟨[{ optional := true, typ := .Ping }, { typ := .Close }]⟩ :
          memcachemock).expectations.set 1 { e with triggered := e.triggered + 1 }) ∧
    (memcachemock.invoke ⟨[{ optional := true, typ := .Ping }, { typ := .Close }]⟩ .Close).1 =
      ⟨[{ optional := true, typ := .Ping }, { triggered := 1, typ := .Close }]⟩ :=
  ⟨(successful_call_frame ⟨[{ optional := true, typ := .Ping }, { typ := .Close }]⟩
      ⟨[{ optional := true, typ := .Ping }, { triggered := 1, typ := .Close }]⟩ .Close 1
      (by decide) (by decide)).1,
    (successful_call_frame ⟨[{ optional := true, typ := .Ping }, { typ := .Close }]⟩
      ⟨[{ optional := true, typ := .Ping }, { triggered := 1, typ := .Close }]⟩ .Close 1
      (by decide) (by decide)).2.1⟩

/-- Every call keeps the gate invariant, however it ends. -/
theorem invoke_gated (c : memcachemock) (call : Call) (h : gated c.expectations) :
    gated (c.invoke call).1.expectations := by
  refine invoke_preserves gated c call h ?_ ?_
  · intro k e hk i j ri rj hij hi hj hreq htrig
    have hback : ∀ (n : Nat) (y : Expectation), (c.expectations.set k e.held)[n]? = some y →
        ∃ y0, c.expectations[n]? = some y0 ∧ y.optional = y0.optional ∧
          y.triggered = y0.triggered ∧ y.fulfilled = y0.fulfilled := by
      intro n y hn
      rcases getElem?_set_cases _ _ _ _ _ hn with ⟨h1, h2⟩ | ⟨-, h2⟩
      · subst h1 h2
        exact ⟨e, hk, rfl, rfl, rfl⟩
      · exact ⟨y, h2, rfl, rfl, rfl⟩
    obtain ⟨ri0, hi0, ho, -, hf⟩ := hback i ri hi
    obtain ⟨rj0, hj0, -, ht, -⟩ := hback j rj hj
    rw [hf]
    exact h i j ri0 rj0 hij hi0 hj0 (by rw [← ho]; exact hreq) (by rw [← ht]; exact htrig)
  · intro k e hk hunf hbefore i j ri rj hij hi hj hreq htrig
    rcases getElem?_set_cases _ _ _ _ _ hj with ⟨h1, -⟩ | ⟨hjk, hj0⟩
    · -- the incremented record is `rj`: every record before it was passed by the scan
      subst h1
      rcases getElem?_set_cases _ _ _ _ _ hi with ⟨h2, -⟩ | ⟨-, hi0⟩
      · omega
      · rcases hbefore i ri hij hi0 with h3 | h3
        · exact h3
        · rw [hreq] at h3; simp at h3
    · rcases getElem?_set_cases _ _ _ _ _ hi with ⟨h2, h3⟩ | ⟨-, hi0⟩
      · -- the incremented record is `ri`: it was unfulfilled, so nothing after it was triggered
        subst h2 h3
        have := h i j e rj hij hk hj0 hreq htrig
        rw [hunf] at this
        simp at this
      · exact h i j ri rj hij hi0 hj0 hreq htrig

/-- Every call keeps every triggered count within the planned count, however it
ends. -/
theorem invoke_bounded (c : memcachemock) (call : Call) (h : bounded c.expectations) :
    bounded (c.invoke call).1.expectations := by
  refine invoke_preserves bounded c call h ?_ ?_
  · intro k e hk y hy
    rcases List.mem_or_eq_of_mem_set hy with h1 | h1
    · exact h y h1
    · rw [h1]
      exact h e (List.getElem?_mem hk)
  · intro k e hk hunf _ y hy
    rcases List.mem_or_eq_of_mem_set hy with h1 | h1
    · exact h y h1
    · rw [h1]
      have hlt : e.triggered < max 1 e.plannedCalls := by
        rw [fulfilled_eq_decide, decide_eq_false_iff_not] at hunf
        omega
      show (e.triggered + 1) % uintSize ≤ max 1 e.plannedCalls
      exact le_trans (Nat.mod_le _ _) hlt

theorem gated_of_fresh (q : List Expectation) (hfresh : ∀ e ∈ q, e.triggered = 0) :
    gated q := by
  intro i j ri rj _ _ hj _ htrig
  rw [hfresh rj (List.getElem?_mem hj)] at htrig
  omega

theorem bounded_of_fresh (q : List Expectation) (hfresh : ∀ e ∈ q, e.triggered = 0) :
    bounded q := by
  intro e he
  rw [hfresh e he]
  omega

/-- The claim C28: starting from a fresh queue (all triggered counts 0), after every
sequence of calls, however each of them ends, every required record that stands
before a record with a triggered count above 0 is fulfilled. -/
theorem gate_invariant (q : List Expectation) (hfresh : ∀ e ∈ q, e.triggered = 0)
    (calls : List Call) (i j : Nat) (ri rj : Expectation) (hij : i < j)
    (hi : (memcachemock.after ⟨q⟩ calls).expectations[i]? = some ri)
    (hj : (memcachemock.after ⟨q⟩ calls).expectations[j]? = some rj)
    (hreq : ri.optional = false) (htrig : 0 < rj.triggered) :
    ri.fulfilled = true :=
  after_preserves (fun c => gated c.expectations) invoke_gated calls ⟨q⟩
    (gated_of_fresh q hfresh) i j ri rj hij hi hj hreq htrig

/-- A run of the claim C28: `ExpectSet().WithItem(fooItem)`, then
`ExpectGet().WithKey("foo").WillReturnItem(fooItem)`; after `Get("foo")`, which is
refused, `Set(fooItem)` and `Get("foo")`, the `ExpectedGet` record has been
triggered and the required record before it is fulfilled. -/
theorem gate_invariant_witness :
    ({ triggered := 1, typ := .Set ⟨some fooItem⟩ } : Expectation).fulfilled = true :=
  gate_invariant fooQueue (by decide) [.Get "foo", .Set (some fooItem), .Get "foo"] 0 1
    { triggered := 1, typ := .Set ⟨some fooItem⟩ }
    { triggered := 1, typ := .Get ⟨"foo"⟩ (some fooItem) }
    (by decide) (by decide) (by decide) (by decide) (by decide)

/-- The claim C29: starting from a fresh queue whose planned counts are `uint`
values, after every sequence of calls, however each of them ends, every record has
a triggered count of at most `max(1, plannedCalls)`, its planned count is the one
it was registered with, and so the triggered count is a `uint` value that was
never reduced modulo `uintSize`. -/
theorem no_over_consumption (q : List Expectation) (hfresh : ∀ e ∈ q, e.triggered = 0)
    (hrange : ∀ e ∈ q, e.plannedCalls < uintSize) (calls : List Call) :
    (∀ e ∈ (memcachemock.after ⟨q⟩ calls).expectations,
      e.triggered ≤ max 1 e.plannedCalls ∧ e.plannedCalls < uintSize ∧
      e.triggered < uintSize) ∧
    (memcachemock.after ⟨q⟩ calls).expectations.map (fun e => e.plannedCalls) =
      q.map (fun e => e.plannedCalls) := by
  have hb := after_preserves (fun c => bounded c.expectations) invoke_bounded calls ⟨q⟩
    (bounded_of_fresh q hfresh)
  have hg := after_grows ⟨q⟩ hrange calls
  refine ⟨?_, ?_⟩
  · intro e he
    obtain ⟨e0, he0, hl⟩ := grows_mem _ _ e hg he
    have hp : e.plannedCalls < uintSize := by
      rw [hl.2.2.2.1]
      exact hrange e0 he0
    have h1 : (1 : Nat) < uintSize := by decide
    have hle := hb e he
    exact ⟨hle, hp, by omega⟩
  · have hmap : ∀ (l l1 : List Expectation), grows l l1 →
        l1.map (fun e => e.plannedCalls) = l.map (fun e => e.plannedCalls) := by
      intro l
      induction l with
      | nil => intro l1 h; cases h; rfl
      | cons x l ih =>
        intro l1 h
        cases h with
        | cons hhead htail => simp [hhead.2.2.2.1, ih _ htail]
    exact hmap _ _ hg

/-- A run of the claim C29: `ExpectPing().Times(2)`, then `Ping()` three times. -/
theorem no_over_consumption_witness :
    (∀ e ∈ (memcachemock.after ⟨[{ plannedCalls := 2, typ := .Ping }]⟩
        [.Ping, .Ping, .Ping]).expectations,
      e.triggered ≤ max 1 e.plannedCalls ∧ e.plannedCalls < uintSize ∧
      e.triggered < uintSize) ∧
    (memcachemock.after ⟨[{ plannedCalls := 2, typ := .Ping }]⟩
        [.Ping, .Ping, .Ping]).expectations.map (fun e => e.plannedCalls) =
      [({ plannedCalls := 2, typ := .Ping } : Expectation)].map (fun e => e.plannedCalls) :=
  no_over_consumption [{ plannedCalls := 2, typ := .Ping }] (by decide) (by decide)
    [.Ping, .Ping, .Ping]

/-! ## Call accounting -/

theorem sum_map_set (f : Expectation → Nat) :
    ∀ (l : List Expectation) (i : Nat) (e x : Expectation), l[i]? = some e →
      ((l.set i x).map f).sum + f e = (l.map f).sum + f x := by
  intro l
  induction l with
  | nil => intro i e x h; simp at h
  | cons y l ih =>
    intro i e x h
    cases i with
    | zero =>
      simp only [List.getElem?_cons_zero, Option.some.injEq] at h
      subst h
      simp only [List.set_cons_zero, List.map_cons, List.sum_cons]
      omega
    | succ i =>
      simp only [List.getElem?_cons_succ] at h
      have := ih i e x h
      simp only [List.set_cons_succ, List.map_cons, List.sum_cons]
      omega

theorem triggeredTotal_held (l : List Expectation) (i : Nat) (e : Expectation)
    (h : l[i]? = some e) : triggeredTotal (l.set i e.held) = triggeredTotal l := by
  have := sum_map_set (fun e => e.triggered) l i e e.held h
  have h1 : e.held.triggered = e.triggered := rfl
  simp only [triggeredTotal]
  simp only [h1] at this
  omega

theorem triggeredTotal_fulfill (l : List Expectation) (i : Nat) (e : Expectation)
    (h : l[i]? = some e) (hplan : e.plannedCalls < uintSize) (hunf : e.fulfilled = false) :
    triggeredTotal (l.set i e.fulfill) = triggeredTotal l + 1 := by
  have := sum_map_set (fun e => e.triggered) l i e e.fulfill h
  have h1 : e.fulfill.triggered = e.triggered + 1 := by
    rw [fulfill_of_unfulfilled e hplan hunf]
  simp only [triggeredTotal]
  simp only [h1] at this
  omega

/-- Every call keeps the planned counts in the range of `uint`. -/
theorem invoke_range (c : memcachemock) (call : Call)
    (hrange : ∀ e ∈ c.expectations, e.plannedCalls < uintSize) :
    ∀ e ∈ (c.invoke call).1.expectations, e.plannedCalls < uintSize := by
  intro e he
  have hg := after_grows c hrange [call]
  obtain ⟨e0, he0, hl⟩ := grows_mem _ _ e hg he
  rw [hl.2.2.2.1]
  exact hrange e0 he0

/-- A call whose lookup returns a record adds one to the sum of the triggered
counts and to the count of selections; every other call, however it ends, takes
nothing from the sum. -/
theorem selections_step_le (c : memcachemock) (call : Call) (calls : List Call)
    (hrange : ∀ e ∈ c.expectations, e.plannedCalls < uintSize) :
    selections c (call :: calls) + triggeredTotal c.expectations ≤
      selections (c.invoke call).1 calls + triggeredTotal (c.invoke call).1.expectations := by
  rw [invoke_fst]
  rcases findExpectationFunc_gate_cases c call.kind call.method call.cmp with
    ⟨x, h⟩ | ⟨i, e, x, hi, h⟩ | ⟨err, h⟩ | ⟨i, e, hi, -, hunf, -, -, -, h⟩ |
    ⟨i, e, hi, -, hunf, -, h⟩
  · have hl : call.lookup c = (c, .abort x) := h
    simp only [selections, hl]
    exact le_refl _
  · have hl : call.lookup c = (⟨c.expectations.set i e.held⟩, .abort x) := h
    simp only [selections, hl, triggeredTotal_held _ i e hi]
    exact le_refl _
  · have hl : call.lookup c = (c, .ret (none, some err)) := h
    simp only [selections, hl]
    exact le_refl _
  · have hl : call.lookup c = (⟨c.expectations.set i e.fulfill⟩, .ret (some i, none)) := h
    simp only [selections, hl,
      triggeredTotal_fulfill _ i e hi (hrange e (List.getElem?_mem hi)) hunf]
    omega
  · have hl : call.lookup c = (⟨c.expectations.set i e.fulfill⟩, .abort .fatal) := h
    simp only [selections, hl,
      triggeredTotal_fulfill _ i e hi (hrange e (List.getElem?_mem hi)) hunf]
    omega

/-- A call that returns adds as much to the sum of the triggered counts as to the
count of selections. -/
theorem selections_step_eq (c c1 : memcachemock) (call : Call) (calls : List Call)
    (r : Payload × Option Error)
    (hrange : ∀ e ∈ c.expectations, e.plannedCalls < uintSize)
    (h : c.invoke call = (c1, .ret r)) :
    selections c (call :: calls) + triggeredTotal c.expectations =
      selections c1 calls + triggeredTotal c1.expectations := by
  rcases invoke_ret_lookup c c1 call r h with ⟨hl, hc, -⟩ | ⟨i, e, hi, hunf, -, hl, hc⟩
  · subst hc
    simp only [selections, hl]
  · simp only [selections, hl]
    rw [hc, triggeredTotal_fulfill _ i e hi (hrange e (List.getElem?_mem hi)) hunf]
    omega

theorem selections_le : ∀ (calls : List Call) (c : memcachemock),
    (∀ e ∈ c.expectations, e.plannedCalls < uintSize) →
    selections c calls + triggeredTotal c.expectations ≤
      triggeredTotal (c.after calls).expectations := by
  intro calls
  induction calls with
  | nil =>
    intro c _
    simp [selections, memcachemock.after]
  | cons call calls ih =>
    intro c hrange
    have h1 := selections_step_le c call calls hrange
    have h2 := ih (c.invoke call).1 (invoke_range c call hrange)
    have h3 : c.after (call :: calls) = (c.invoke call).1.after calls := rfl
    rw [h3]
    exact le_trans h1 h2

theorem selections_eq : ∀ (calls : List Call) (c c1 : memcachemock),
    (∀ e ∈ c.expectations, e.plannedCalls < uintSize) →
    c.run calls = some c1 →
    selections c calls + triggeredTotal c.expectations = triggeredTotal c1.expectations := by
  intro calls
  induction calls with
  | nil =>
    intro c c1 _ h
    simp only [memcachemock.run, Option.some.injEq] at h
    subst h
    simp [selections]
  | cons call calls ih =>
    intro c c1 hrange h
    simp only [memcachemock.run] at h
    rcases hi : c.invoke call with ⟨c2, r | x⟩
    · rw [hi] at h
      simp only at h
      have hr2 : ∀ e ∈ c2.expectations, e.plannedCalls < uintSize := by
        have := invoke_range c call hrange
        rw [hi] at this
        exact this
      rw [selections_step_eq c c2 call calls r hrange hi]
      exact ih c2 c1 hr2 h
    · rw [hi] at h
      simp at h

theorem triggeredTotal_fresh (q : List Expectation) (hfresh : ∀ e ∈ q, e.triggered = 0) :
    triggeredTotal q = 0 := by
  induction q with
  | nil => rfl
  | cons e q ih =>
    have h1 := hfresh e (List.mem_cons_self _ _)
    have h2 := ih (fun x hx => hfresh x (List.mem_cons_of_mem _ hx))
    simp only [triggeredTotal, List.map_cons, List.sum_cons] at h2 ⊢
    omega

theorem grows_triggeredTotal_le : ∀ (q q1 : List Expectation), grows q q1 → bounded q1 →
    triggeredTotal q1 ≤ (q.map (fun e => max 1 e.plannedCalls)).sum := by
  intro q
  induction q with
  | nil =>
    intro q1 h _
    cases h
    simp [triggeredTotal]
  | cons e q ih =>
    intro q1 h hb
    cases h with
    | cons hhead htail =>
      rename_i e1 l1
      have h1 := hb e1 (List.mem_cons_self _ _)
      have h2 := ih l1 htail (fun x hx => hb x (List.mem_cons_of_mem _ hx))
      rw [hhead.2.2.2.1] at h1
      simp only [triggeredTotal, List.map_cons, List.sum_cons] at h2 ⊢
      omega

/-- A call that does not end in the fatal error adds as much to the sum of the
triggered counts as to the count of selections. -/
theorem selections_step_unless_fatal (c : memcachemock) (call : Call) (calls : List Call)
    (hrange : ∀ e ∈ c.expectations, e.plannedCalls < uintSize)
    (hnf : (c.invoke call).2 ≠ .abort .fatal) :
    selections c (call :: calls) + triggeredTotal c.expectations =
      selections (c.invoke call).1 calls + triggeredTotal (c.invoke call).1.expectations := by
  rw [invoke_fst]
  rcases findExpectationFunc_gate_cases c call.kind call.method call.cmp with
    ⟨x, h⟩ | ⟨i, e, x, hi, h⟩ | ⟨err, h⟩ | ⟨i, e, hi, -, hunf, -, -, -, h⟩ |
    ⟨i, e, hi, -, hunf, -, h⟩
  · have hl : call.lookup c = (c, .abort x) := h
    simp only [selections, hl]
  · have hl : call.lookup c = (⟨c.expectations.set i e.held⟩, .abort x) := h
    simp only [selections, hl, triggeredTotal_held _ i e hi]
  · have hl : call.lookup c = (c, .ret (none, some err)) := h
    simp only [selections, hl]
  · have hl : call.lookup c = (⟨c.expectations.set i e.fulfill⟩, .ret (some i, none)) := h
    simp only [selections, hl,
      triggeredTotal_fulfill _ i e hi (hrange e (List.getElem?_mem hi)) hunf]
    omega
  · have hl : call.lookup c = (⟨c.expectations.set i e.fulfill⟩, .abort .fatal) := h
    rw [invoke_abort c _ call .fatal hl] at hnf
    exact absurd rfl hnf

theorem selections_eq_unless_fatal : ∀ (calls : List Call) (c : memcachemock),
    (∀ e ∈ c.expectations, e.plannedCalls < uintSize) →
    c.noFatal calls = true →
    selections c calls + triggeredTotal c.expectations =
      triggeredTotal (c.after calls).expectations := by
  intro calls
  induction calls with
  | nil =>
    intro c _ _
    simp [selections, memcachemock.after]
  | cons call calls ih =>
    intro c hrange h
    have h3 : c.after (call :: calls) = (c.invoke call).1.after calls := rfl
    have hboth : (c.invoke call).2 ≠ .abort .fatal ∧
        (c.invoke call).1.noFatal calls = true := by
      rcases hi : c.invoke call with ⟨c1, r | x⟩
      · simp only [memcachemock.noFatal, hi] at h
        exact ⟨by simp, h⟩
      · cases x <;> simp only [memcachemock.noFatal, hi] at h
        · exact ⟨by simp, h⟩
        · exact absurd h (by simp)
        · exact ⟨by simp, h⟩
    rw [h3, selections_step_unless_fatal c call calls hrange hboth.1]
    exact ih _ (invoke_range c call hrange) hboth.2

/-- Call accounting for every sequence of calls none of which ends in the fatal
error, calls that panic included: starting from a fresh queue whose planned counts
are `uint` values, the number of calls whose lookup returned a record is the sum
of the triggered counts afterwards. -/
theorem call_accounting_unless_fatal (q : List Expectation)
    (hfresh : ∀ e ∈ q, e.triggered = 0)
    (hrange : ∀ e ∈ q, e.plannedCalls < uintSize) (calls : List Call)
    (hnf : memcachemock.noFatal ⟨q⟩ calls = true) :
    selections ⟨q⟩ calls = triggeredTotal (memcachemock.after ⟨q⟩ calls).expectations := by
  have := selections_eq_unless_fatal calls ⟨q⟩ hrange hnf
  simp only [triggeredTotal_fresh q hfresh] at this
  exact this

/-- A run of call accounting with a call that panics: `ExpectSet().WithItem(fooItem)`,
then `Set(nil)`, which panics, and `Get("foo")`, which never returns. -/
theorem call_accounting_unless_fatal_witness :
    selections ⟨[{ typ := .Set ⟨some fooItem⟩ }]⟩ [.Set none, .Get "foo"] =
      triggeredTotal (memcachemock.after ⟨[{ typ := .Set ⟨some fooItem⟩ }]⟩
        [.Set none, .Get "foo"]).expectations :=
  call_accounting_unless_fatal [{ typ := .Set ⟨some fooItem⟩ }] (by decide) (by decide)
    [.Set none, .Get "foo"] (by decide)

/-- Call accounting: starting from a fresh queue whose planned counts are `uint`
values, for every sequence of calls that all return, the number of calls whose
lookup returned a record is the sum of the triggered counts afterwards; and for
every sequence of calls, however each of them ends, that number is at most the sum
of the triggered counts afterwards, which is at most the sum of
`max(1, plannedCalls)` over the records. -/
theorem call_accounting (q : List Expectation) (hfresh : ∀ e ∈ q, e.triggered = 0)
    (hrange : ∀ e ∈ q, e.plannedCalls < uintSize) (calls : List Call) :
    (∀ c1, memcachemock.run ⟨q⟩ calls = some c1 →
      selections ⟨q⟩ calls = triggeredTotal c1.expectations) ∧
    selections ⟨q⟩ calls ≤ triggeredTotal (memcachemock.after ⟨q⟩ calls).expectations ∧
    triggeredTotal (memcachemock.after ⟨q⟩ calls).expectations ≤
      (q.map (fun e => max 1 e.plannedCalls)).sum := by
  have h0 := triggeredTotal_fresh q hfresh
  refine ⟨?_, ?_, ?_⟩
  · intro c1 hrun
    have := selections_eq calls ⟨q⟩ c1 hrange hrun
    simp only [h0] at this
    exact this
  · have := selections_le calls ⟨q⟩ hrange
    simp only [h0] at this
    exact this
  · exact grows_triggeredTotal_le _ _ (after_grows ⟨q⟩ hrange calls)
      (after_preserves (fun c => bounded c.expectations) invoke_bounded calls ⟨q⟩
        (bounded_of_fresh q hfresh))

/-- A run of call accounting: on the queue of `ExpectSet().WithItem(fooItem)` and
`ExpectGet().WithKey("foo").WillReturnItem(fooItem)`, of the calls `Get("foo")`,
`Set(fooItem)`, `Get("foo")`, `Get("foo")` two select a record. -/
theorem call_accounting_witness :
    selections ⟨fooQueue⟩ [.Get "foo", .Set (some fooItem), .Get "foo", .Get "foo"] = 2 ∧
    triggeredTotal (memcachemock.after ⟨fooQueue⟩
      [.Get "foo", .Set (some fooItem), .Get "foo", .Get "foo"]).expectations = 2 :=
  ⟨((call_accounting fooQueue (by decide) (by decide)
      [.Get "foo", .Set (some fooItem), .Get "foo", .Get "foo"]).1
      ⟨[{ triggered := 1, typ := .Set ⟨some fooItem⟩ },
        { triggered := 1, typ := .Get ⟨"foo"⟩ (some fooItem) }]⟩ (by decide)).trans
      (by decide), by decide⟩

/-- The claim C30 fails on the code: on the fresh queue of
`ExpectGet().WithKey("a").Maybe()`, the lookup of the one call `Get("b")` returns no
record (it increments the rejected record and ends in the fatal error of the
deferred `Unlock`), so the number of calls whose lookup returned a record is 0, and
the sum of the triggered counts afterwards is 1. -/
theorem stale_increment_selects_nothing :
    (∀ e ∈ [({ optional := true, typ := .Get ⟨"a"⟩ none } : Expectation)], e.triggered = 0) ∧
    (Call.Get "b").lookup ⟨[{ optional := true, typ := .Get ⟨"a"⟩ none }]⟩ =
      (⟨[{ optional := true, triggered := 1, typ := .Get ⟨"a"⟩ none }]⟩, .abort .fatal) ∧
    selections ⟨[{ optional := true, typ := .Get ⟨"a"⟩ none }]⟩ [.Get "b"] = 0 ∧
    memcachemock.run ⟨[{ optional := true, typ := .Get ⟨"a"⟩ none }]⟩ [.Get "b"] = none ∧
    triggeredTotal (memcachemock.after ⟨[{ optional := true, typ := .Get ⟨"a"⟩ none }]⟩
      [.Get "b"]).expectations = 1 := by
  decide

/-! ## Verification, lock discipline and the empty queue -/

/-- Every call, however it ends, keeps a queue on which `ExpectationsWereMet` finds
nothing remaining in that condition. -/
theorem invoke_met (c : memcachemock) (call : Call)
    (h : ExpectationsWereMet.loop c.expectations = none) :
    ExpectationsWereMet.loop (c.invoke call).1.expectations = none := by
  refine invoke_preserves (fun q => ExpectationsWereMet.loop q = none) c call h ?_ ?_
  · intro k e hk
    rw [ExpectationsWereMet_loop_none] at h ⊢
    intro y hy
    rcases List.mem_or_eq_of_mem_set hy with h1 | h1
    · exact h y h1
    · rw [h1]
      exact h e (List.getElem?_mem hk)
  · intro k e hk hunf _
    rw [ExpectationsWereMet_loop_none] at h ⊢
    intro y hy
    rcases List.mem_or_eq_of_mem_set hy with h1 | h1
    · exact h y h1
    · rw [h1]
      rcases h e (List.getElem?_mem hk) with h2 | h2
      · rw [hunf] at h2; simp at h2
      · exact Or.inr h2

/-- The claim C31: if `ExpectationsWereMet` returns no error on a mock, it returns no
error on the mock left by every further sequence of calls, however each of them
ends; and a call whose lookup returns an error leaves a mock on which
`ExpectationsWereMet` returns what it returned before the call, at the end of the
lookup and at the end of the method. -/
theorem verification_stable (c : memcachemock) :
    (c.ExpectationsWereMet.2 = none →
      ∀ calls : List Call, (c.after calls).ExpectationsWereMet.2 = none) ∧
    (∀ (call : Call) (c1 : memcachemock) (ex : Option Nat) (err : Error),
      call.lookup c = (c1, .ret (ex, some err)) →
      c1.ExpectationsWereMet.2 = c.ExpectationsWereMet.2 ∧
      (c.invoke call).1.ExpectationsWereMet.2 = c.ExpectationsWereMet.2) := by
  refine ⟨?_, ?_⟩
  · intro h calls
    exact after_preserves (fun c => ExpectationsWereMet.loop c.expectations = none)
      invoke_met calls c h
  · intro call c1 ex err h
    obtain ⟨-, hc⟩ := findExpectationFunc_failed c c1 call.kind call.method call.cmp ex err h
    subst hc
    refine ⟨rfl, ?_⟩
    rw [invoke_fst, h]

/-- A run of the claim C31, the scenario of
`TestUnexpectedPingAfterExpectationsFullfilled`: after `ExpectClose()` and
`Close()`, verification passes, and it still passes after the unexpected `Ping()`
and a second `Close()`; the `Ping()` fails and leaves the result as it was. -/
theorem verification_stable_witness :
    (memcachemock.ExpectationsWereMet
      (memcachemock.after ⟨[{ triggered := 1, typ := .Close }]⟩ [.Ping, .Close])).2 = none ∧
    (memcachemock.ExpectationsWereMet
      (memcachemock.invoke ⟨[{ triggered := 1, typ := .Close }]⟩ .Ping).1).2 =
      (memcachemock.ExpectationsWereMet ⟨[{ triggered := 1, typ := .Close }]⟩).2 :=
  ⟨(verification_stable ⟨[{ triggered := 1, typ := .Close }]⟩).1 (by decide) [.Ping, .Close],
    ((verification_stable ⟨[{ triggered := 1, typ := .Close }]⟩).2 .Ping
      ⟨[{ triggered := 1, typ := .Close }]⟩ none (.notExpected true "Ping()")
      (by decide)).2⟩

/-- A call that returns the configured error of the record it selected is an
expected call: after `ExpectPing().WillReturnError("E")`, `Ping()` returns the
error `E`, and verification, which failed before, passes after it. -/
theorem forced_error_call_is_recorded :
    (memcachemock.invoke ⟨[{ err := some "E", typ := .Ping }]⟩ .Ping).2 =
      .ret (.none, some (.configured "E")) ∧
    (memcachemock.ExpectationsWereMet ⟨[{ err := some "E", typ := .Ping }]⟩).2 ≠ none ∧
    (memcachemock.ExpectationsWereMet
      (memcachemock.invoke ⟨[{ err := some "E", typ := .Ping }]⟩ .Ping).1).2 = none := by
  decide

/-- On a queue with no mutex held, a lookup that returns, with a record or with an
error, leaves a queue with no mutex held. -/
theorem lookup_returns_idle (c c1 : memcachemock) (K : Kind) (method : String)
    (cmp : Expectation → Exec (Option Error)) (r : Option Nat × Option Error)
    (hidle : idle c.expectations)
    (h : findExpectationFunc c K method cmp = (c1, .ret r)) :
    idle c1.expectations := by
  rcases findExpectationFunc_gate_cases c K method cmp with
    ⟨x, h1⟩ | ⟨i, e, x, -, h1⟩ | ⟨err, h1⟩ | ⟨i, e, hi, hmu, -, -, -, -, h1⟩ |
    ⟨i, e, -, -, -, -, h1⟩
  · rw [h1] at h; simp at h
  · rw [h1] at h; simp at h
  · rw [h1] at h
    simp only [Prod.mk.injEq] at h
    rw [← h.1]
    exact hidle
  · rw [h1] at h
    simp only [Prod.mk.injEq] at h
    rw [← h.1]
    intro y hy
    rcases List.mem_or_eq_of_mem_set hy with h2 | h2
    · exact hidle y h2
    · rw [h2]
      exact hmu
  · rw [h1] at h; simp at h

/-- The claim C32 fails on the code: after `ExpectDelete().WithKey("a").Maybe()`, in
the call `Delete("b")` the loop locks the record, the comparison rejects it, the
loop unlocks it and ends with the record still in `expected` and its mutex free;
the code after the loop increments it and the deferred `Unlock` is performed on
that free mutex, which is the fatal error. -/
theorem Delete_unlocks_free_mutex :
    scan .Delete "Delete()" (keyCmp "b") [] [{ optional := true, typ := .Delete ⟨"a"⟩ }] {} =
      .done [{ optional := true, typ := .Delete ⟨"a"⟩ }]
        { expected := some 0, ok := true, err := some (.keyMismatch "a" "b") } ∧
    ({ optional := true, typ := .Delete ⟨"a"⟩ } : Expectation).mu = false ∧
    (Expectation.fulfill { optional := true, typ := .Delete ⟨"a"⟩ }).Unlock = none ∧
    memcachemock.Delete ⟨[{ optional := true, typ := .Delete ⟨"a"⟩ }]⟩ "b" =
      (⟨[{ optional := true, triggered := 1, typ := .Delete ⟨"a"⟩ }]⟩, .abort .fatal) := by
  decide

/-- The claim C33: on a mock with no registered expectation, every call of each of
the sixteen methods returns the zero payload of the method and the error "all
expectations were already fulfilled, call to method ... was not expected" with the
name of the method, and leaves the mock empty; `ExpectationsWereMet` returns no
error. -/
theorem empty_queue_rejects_every_call (call : Call) :
    memcachemock.invoke ⟨[]⟩ call =
      (⟨[]⟩, .ret (call.zero, some (.notExpected true call.method))) ∧
    call.lookup ⟨[]⟩ = (⟨[]⟩, .ret (none, some (.notExpected true call.method))) ∧
    (memcachemock.ExpectationsWereMet ⟨[]⟩).2 = none := by
  refine ⟨?_, rfl, rfl⟩
  cases call <;> rfl

/-! ## Selection and gate for every comparison that returns where it is asked -/

/-- The loop passes over a stretch of records with free mutexes in which every
unfulfilled record is optional and, when of the requested kind, rejected by a
comparison that returns; this holds for every comparison. -/
theorem scan_skip_stretch (K : Kind) (method : String)
    (cmp : Expectation → Exec (Option Error)) :
    ∀ (a pre rest : List Expectation) (v : Locals), idle a →
      (∀ p ∈ a, p.fulfilled = false →
        p.optional = true ∧ (p.kind = K → ∃ r, cmp p.held = .ret (some r))) →
      ∃ w, scan K method cmp pre (a ++ rest) v = scan K method cmp (pre ++ a) rest w := by
  intro a
  induction a with
  | nil => intro pre rest v _ _; exact ⟨v, by simp⟩
  | cons p a ih =>
    intro pre rest v hidle hskip
    have hp : p.mu = false := hidle p (List.mem_cons_self _ _)
    have hidle1 : idle a := fun x hx => hidle x (List.mem_cons_of_mem _ hx)
    have hskip1 : ∀ x ∈ a, x.fulfilled = false →
        x.optional = true ∧ (x.kind = K → ∃ r, cmp x.held = .ret (some r)) :=
      fun x hx => hskip x (List.mem_cons_of_mem _ hx)
    have h1 : pre ++ [p] ++ a = pre ++ p :: a := by simp
    rw [List.cons_append]
    cases hpf : p.fulfilled with
    | true =>
      obtain ⟨w, hw⟩ := ih (pre ++ [p]) rest { v with fulfilled := v.fulfilled + 1 }
        hidle1 hskip1
      refine ⟨w, ?_⟩
      conv_lhs => unfold scan
      rw [iteration_fulfilled K method cmp _ _ hp hpf]
      simp only
      rw [hw, h1]
    | false =>
      obtain ⟨hopt, hrej⟩ := hskip p (List.mem_cons_self _ _) hpf
      by_cases hk : p.kind = K
      · obtain ⟨r, hr⟩ := hrej hk
        obtain ⟨w, hw⟩ := ih (pre ++ [p]) rest
          { v with expected := some pre.length, ok := true, err := some r } hidle1 hskip1
        refine ⟨w, ?_⟩
        conv_lhs => unfold scan
        rw [iteration_reject_optional K method cmp _ _ hp hpf hk hr hopt]
        simp only
        rw [hw, h1]
      · obtain ⟨w, hw⟩ := ih (pre ++ [p]) rest
          { v with expected := none, ok := false } hidle1 hskip1
        refine ⟨w, ?_⟩
        conv_lhs => unfold scan
        rw [iteration_other_optional K method cmp _ _ hp hpf hk hopt]
        simp only
        rw [hw, h1]

/-- Selection of the first match for every comparison, panicking ones included,
provided the comparison returns on the records before the match: on an idle
queue, if record `i` is unfulfilled, of kind `K` and accepted, every unfulfilled
record before it is optional, and every unfulfilled record of kind `K` before it is
rejected with an error, then `findExpectationFunc` returns record `i` without error
and the only change to the queue is that the triggered count of record `i` is one
higher. -/
theorem findExpectationFunc_selects_unless_abort (c : memcachemock) (K : Kind)
    (method : String) (cmp : Expectation → Exec (Option Error)) (i : Nat) (e : Expectation)
    (hidle : idle c.expectations)
    (hi : c.expectations[i]? = some e)
    (hplan : e.plannedCalls < uintSize)
    (hunf : e.fulfilled = false) (hkind : e.kind = K) (hacc : cmp e.held = .ret none)
    (hopt : ∀ (j : Nat) (p : Expectation), j < i → c.expectations[j]? = some p →
      p.fulfilled = false → p.optional = true)
    (hret : ∀ (j : Nat) (p : Expectation), j < i → c.expectations[j]? = some p →
      p.fulfilled = false → p.kind = K → ∃ r, cmp p.held = .ret (some r)) :
    findExpectationFunc c K method cmp =
      (⟨c.expectations.set i { e with triggered := e.triggered + 1 }⟩,
        .ret (some i, none)) := by
  obtain ⟨q⟩ := c
  simp only at hidle hi hopt hret ⊢
  obtain ⟨hq, hlen, hpre⟩ := split_at_index q i e hi
  have hmu : e.mu = false := hidle e (List.getElem?_mem hi)
  have hidle1 : idle (q.take i) := fun x hx => hidle x (List.mem_of_mem_take hx)
  have hskip : ∀ p ∈ q.take i, p.fulfilled = false →
      p.optional = true ∧ (p.kind = K → ∃ r, cmp p.held = .ret (some r)) := by
    intro p hp hpf
    obtain ⟨j, hj, hjp⟩ := hpre p hp
    exact ⟨hopt j p hj hjp hpf, hret j p hj hjp hpf⟩
  obtain ⟨w, hw⟩ := scan_skip_stretch K method cmp (q.take i) [] (e :: q.drop (i + 1)) {}
    hidle1 hskip
  have hset := set_length_append (q.take i) e e.fulfill (q.drop (i + 1))
  rw [← hq, hlen, fulfill_of_unfulfilled e hplan hunf] at hset
  have hget := getElem?_length_append (q.take i) e.held (q.drop (i + 1))
  have hset2 := set_length_append (q.take i) e.held e.fulfill (q.drop (i + 1))
  rw [hlen] at hget hset2
  rw [hset]
  unfold findExpectationFunc
  simp only
  conv_lhs => rw [hq]
  rw [hw]
  unfold scan
  rw [iteration_accept K method cmp _ _ hmu hunf hkind hacc]
  simp only [List.nil_append, afterLoop, List.get?_eq_getElem?, hlen, hget,
    fulfill_held_Unlock hmu, hset2]
  rw [fulfill_of_unfulfilled e hplan hunf]

/-- A run of the selection with the comparison of `Set(nil)`, which panics on a
record with a set item: `ExpectSet()`, then `ExpectSet().WithItem(fooItem)`; the
call `Set(nil)` selects the first record and never compares the second. -/
theorem findExpectationFunc_selects_unless_abort_witness :
    findExpectationFunc ⟨[{ typ := .Set ⟨none⟩ }, { typ := .Set ⟨some fooItem⟩ }]⟩
        .Set "Set()" (itemCmp none) =
      (⟨[{ triggered := 1, typ := .Set ⟨none⟩ }, { typ := .Set ⟨some fooItem⟩ }]⟩,
        .ret (some 0, none)) :=
  findExpectationFunc_selects_unless_abort
    ⟨[{ typ := .Set ⟨none⟩ }, { typ := .Set ⟨some fooItem⟩ }]⟩ .Set "Set()" (itemCmp none) 0
    { typ := .Set ⟨none⟩ }
    (by decide) (by decide) (by decide) (by decide) (by decide) (by decide)
    (by intro j p hj; omega) (by intro j p hj; omega)

/-- The gate rule for every comparison, panicking ones included, provided the
comparison returns on the records up to the gate: on an idle queue, if record `i`
is the first unfulfilled required record, it is of another kind than `K` or
rejected with an error, and every unfulfilled record of kind `K` before it is
rejected with an error, then `findExpectationFunc` returns nil and an error and
leaves the mock as it is, whatever records follow record `i`. -/
theorem findExpectationFunc_gate_unless_abort (c : memcachemock) (K : Kind)
    (method : String) (cmp : Expectation → Exec (Option Error)) (i : Nat) (r : Expectation)
    (hidle : idle c.expectations)
    (hi : c.expectations[i]? = some r)
    (hunf : r.fulfilled = false) (hreq : r.optional = false)
    (hblock : r.kind ≠ K ∨ ∃ er, cmp r.held = .ret (some er))
    (hfirst : ∀ (j : Nat) (p : Expectation), j < i → c.expectations[j]? = some p →
      p.fulfilled = false → p.optional = true)
    (hret : ∀ (j : Nat) (p : Expectation), j < i → c.expectations[j]? = some p →
      p.fulfilled = false → p.kind = K → ∃ er, cmp p.held = .ret (some er)) :
    ∃ err, findExpectationFunc c K method cmp = (c, .ret (none, some err)) := by
  obtain ⟨q⟩ := c
  simp only at hidle hi hfirst hret ⊢
  obtain ⟨hq, hlen, hpre⟩ := split_at_index q i r hi
  have hmu : r.mu = false := hidle r (List.getElem?_mem hi)
  have hidle1 : idle (q.take i) := fun x hx => hidle x (List.mem_of_mem_take hx)
  have hskip : ∀ p ∈ q.take i, p.fulfilled = false →
      p.optional = true ∧ (p.kind = K → ∃ er, cmp p.held = .ret (some er)) := by
    intro p hp hpf
    obtain ⟨j, hj, hjp⟩ := hpre p hp
    exact ⟨hfirst j p hj hjp hpf, hret j p hj hjp hpf⟩
  obtain ⟨w, hw⟩ := scan_skip_stretch K method cmp (q.take i) [] (r :: q.drop (i + 1)) {}
    hidle1 hskip
  unfold findExpectationFunc
  simp only
  conv in scan K method cmp [] q {} => rw [hq]
  rw [hw]
  unfold scan
  by_cases hk : r.kind = K
  · rcases hblock with h | ⟨er, her⟩
    · exact absurd hk h
    · rw [iteration_reject_required K method cmp _ _ hmu hunf hk her hreq]
      simp only [List.nil_append, ← hq]
      exact ⟨er, rfl⟩
  · rw [iteration_other_required K method cmp _ _ hmu hunf hk hreq]
    simp only [List.nil_append, ← hq]
    cases hwe : w.err with
    | none => exact ⟨.unexpectedCall method r, by simp⟩
    | some er => exact ⟨er, by simp⟩

/-- A run of the gate rule with the comparison of `Set(nil)`: `ExpectClose()`, then
`ExpectSet().WithItem(fooItem)`; the call `Set(nil)` fails at the first record and
never compares the second. -/
theorem findExpectationFunc_gate_unless_abort_witness :
    ∃ err, findExpectationFunc ⟨[{ typ := .Close }, { typ := .Set ⟨some fooItem⟩ }]⟩
        .Set "Set()" (itemCmp none) =
      (⟨[{ typ := .Close }, { typ := .Set ⟨some fooItem⟩ }]⟩, .ret (none, some err)) :=
  findExpectationFunc_gate_unless_abort
    ⟨[{ typ := .Close }, { typ := .Set ⟨some fooItem⟩ }]⟩ .Set "Set()" (itemCmp none) 0
    { typ := .Close }
    (by decide) (by decide) (by decide) (by decide) (Or.inl (by decide))
    (by intro j p hj; omega) (by intro j p hj; omega)

end GoMemcacheMock
